import Mathlib

/-!
Verification of the GraphApp graph computation engine.

The definitions below are a shallow embedding of the Python functions
`analyze_graph` (src/server/functions/final_perform_analysis/lambda_function.py),
`make_random_graph` and `validate_parameters`
(src/server/functions/final_generate_random/lambda_function.py).

Modelling conventions:
- Vertex ids are `Nat` (the spec's data model declares vertices as
  non-negative integers); edge weights and distances are `Int`
  (Python converts weights with `float`, but every arithmetic step the
  algorithms perform on them - addition and order comparison - is modelled
  exactly by integer arithmetic, and all inputs in scope carry integral
  weights).
- Python dicts are modelled as association lists that preserve insertion
  order and overwrite in place (`aupd`), exactly like dict assignment.
- A raised Python exception is modelled as `none`: any `KeyError`,
  `IndexError` or `ValueError` aborts the whole computation.
- `heapq` heaps are modelled as plain lists with minimum extraction by the
  tuple order Python uses; since heap entries are fully ordered tuples and
  duplicates are identical, pop order is observationally identical.
- `random.randint(lo, hi)` consumes one value from an arbitrary stream and
  clamps it into `[lo, hi]`; it fails (raises `ValueError`) when `lo > hi`.
  Quantifying over all streams quantifies over all outcomes of the
  randomness source.
-/

namespace GraphApp

/-- Graph description interchange shape: ordered vertices, edges as
`(start, end, weight)`. -/
structure GraphData where
  vertices : List Nat
  edges : List (Nat × Nat × Int)
deriving Repr, DecidableEq

/-- Association list keyed by `Nat`, standing for a Python dict:
insertion order is preserved, assignment to an existing key overwrites
in place. -/
abbrev NdMap (α : Type) := List (Nat × α)

/-- Python dict assignment `d[k] = v`. -/
def aupd {α : Type} (l : NdMap α) (k : Nat) (v : α) : NdMap α :=
  if l.any (fun p => p.1 == k) then
    l.map (fun p => if p.1 == k then (k, v) else p)
  else l ++ [(k, v)]

/-- Python dict lookup `d[k]`, `none` when the key is absent (KeyError). -/
def alook {α : Type} (l : NdMap α) (k : Nat) : Option α :=
  (l.find? (fun p => p.1 == k)).map (fun p => p.2)

/-- The keys of a dict, in insertion order. -/
def alKeys {α : Type} (l : NdMap α) : List Nat := l.map (fun p => p.1)

/-- Adjacency model: `{ start => { end => weight } }`. -/
abbrev AL := NdMap (NdMap Int)

/-- One edge insertion `graph_AL[a][b] = w`; KeyError when `a` is not a
key of the outer dict. -/
def insEdge (al : AL) (a b : Nat) (w : Int) : Option AL :=
  match alook al a with
  | none => none
  | some m => some (aupd al a (aupd m b w))

/-- Processing one edge: `graph_AL[a][b] = w` then `graph_AL[b][a] = w`. -/
def edgeStep (al : AL) (e : Nat × Nat × Int) : Option AL :=
  (insEdge al e.1 e.2.1 e.2.2).bind (fun al2 => insEdge al2 e.2.1 e.1 e.2.2)

/-- The vertex loop: every declared vertex gets an (initially empty)
adjacency entry. -/
def initAL (g : GraphData) : AL :=
  g.vertices.foldl (fun al v => aupd al v []) []

/-- Builds the adjacency model from a graph description, as the first
section of `analyze_graph` does: every declared vertex gets an (initially
empty) entry, then every edge is inserted in both directions. -/
def buildAL (g : GraphData) : Option AL :=
  g.edges.foldlM edgeStep (initAL g)

/-- Minimum extraction from a list modelling a `heapq` heap: returns the
least element under `lt` together with the list with that occurrence
removed. -/
def extractMin {α : Type} (lt : α → α → Bool) : List α → Option (α × List α)
  | [] => none
  | x :: xs =>
    match extractMin lt xs with
    | none => some (x, [])
    | some (m, rest) => if lt m x then some (m, x :: rest) else some (x, xs)

/-- Strict lexicographic order on Dijkstra heap entries `(dist, vertex)`. -/
def pairLt (x y : Int × Nat) : Bool :=
  x.1 < y.1 || (x.1 == y.1 && x.2 < y.2)

/-- Strict lexicographic order on Prim heap entries
`(weight, start, end)`. -/
def tripLt (x y : Int × Nat × Nat) : Bool :=
  x.1 < y.1 || (x.1 == y.1 && (x.2.1 < y.2.1 ||
    (x.2.1 == y.2.1 && x.2.2 < y.2.2)))

/-- The inner body of the BFS loop: walks the neighbor dict of the current
vertex in order and collects the destinations not yet reachable, adding
each to the reachable set before looking at the next (exactly the
sequential `for destination in graph_AL[cur]` loop). The same list is
appended to both the queue and the reachable set. -/
def newNbrs (reach : List Nat) (nbrs : NdMap Int) : List Nat :=
  match nbrs with
  | [] => []
  | (d, _) :: tl =>
    if reach.contains d then newNbrs reach tl
    else d :: newNbrs (reach ++ [d]) tl

/-- All inner keys appearing anywhere in the adjacency model; only used as
a termination measure for the traversals. -/
def innerUniv (al : AL) : List Nat := (al.map (fun p => alKeys p.2)).flatten

lemma length_filter_mono {α : Type} (l : List α) (p q : α → Bool)
    (h : ∀ a, q a = true → p a = true) :
    (l.filter q).length ≤ (l.filter p).length := by
  induction l with
  | nil => simp
  | cons x xs ih =>
    by_cases hq : q x = true
    · simp [List.filter, hq, h x hq]; omega
    · simp only [List.filter]
      rw [Bool.not_eq_true] at hq
      rw [hq]
      by_cases hp : p x = true
      · rw [hp]; simp; omega
      · rw [Bool.not_eq_true] at hp; rw [hp]; exact ih

lemma length_filter_lt {α : Type} (l : List α) (p q : α → Bool)
    (h : ∀ a, q a = true → p a = true)
    (x : α) (hx : x ∈ l) (hp : p x = true) (hq : q x = false) :
    (l.filter q).length < (l.filter p).length := by
  induction l with
  | nil => simp at hx
  | cons y ys ih =>
    rcases List.mem_cons.1 hx with rfl | hmem
    · simp only [List.filter, hp, hq]
      calc (ys.filter q).length < (ys.filter q).length + 1 := Nat.lt_succ_self _
        _ ≤ (ys.filter p).length + 1 := by
            have := length_filter_mono ys p q h; omega
    · by_cases hqy : q y = true
      · simp only [List.filter, hqy, h y hqy, List.length_cons]
        exact Nat.succ_lt_succ (ih hmem)
      · rw [Bool.not_eq_true] at hqy
        simp only [List.filter, hqy]
        by_cases hpy : p y = true
        · rw [hpy]
          calc (ys.filter q).length < (ys.filter p).length := ih hmem
            _ < (ys.filter p).length + 1 := Nat.lt_succ_self _
        · rw [Bool.not_eq_true] at hpy; rw [hpy]; exact ih hmem

lemma contains_false_iff (l : List Nat) (a : Nat) :
    (!(l.contains a)) = true ↔ a ∉ l := by
  simp [List.contains, List.elem_iff]

lemma newNbrs_mem (nbrs : NdMap Int) :
    ∀ reach x, x ∈ newNbrs reach nbrs →
      x ∈ alKeys nbrs ∧ x ∉ reach := by
  induction nbrs with
  | nil => intro reach x hx; simp [newNbrs] at hx
  | cons p tl ih =>
    intro reach x hx
    rw [newNbrs] at hx
    by_cases hd : reach.contains p.1
    · simp only [hd, if_true] at hx
      have hres := ih reach x hx
      exact ⟨by unfold alKeys at hres ⊢; simp at hres ⊢; right; exact hres.1, hres.2⟩
    · simp only [hd, if_false] at hx
      rcases List.mem_cons.1 hx with rfl | hmem
      · refine ⟨by unfold alKeys; simp, ?_⟩
        simpa [List.contains, List.elem_iff] using hd
      · have hres := ih (reach ++ [p.1]) x hmem
        refine ⟨by unfold alKeys at hres ⊢; simp at hres ⊢; right; exact hres.1, ?_⟩
        intro hn; exact hres.2 (by simp [hn])

lemma filter_notmem_le (univ r d : List Nat) :
    (univ.filter (fun v => !((r ++ d).contains v))).length ≤
      (univ.filter (fun v => !(r.contains v))).length := by
  apply length_filter_mono
  intro a ha
  rw [contains_false_iff] at ha ⊢
  intro hmem; exact ha (by simp [hmem])

lemma filter_notmem_lt (univ r d : List Nat) (x : Nat)
    (hx : x ∈ d) (hxu : x ∈ univ) (hxr : x ∉ r) :
    (univ.filter (fun v => !((r ++ d).contains v))).length <
      (univ.filter (fun v => !(r.contains v))).length := by
  apply length_filter_lt univ (fun v => !(r.contains v))
    (fun v => !((r ++ d).contains v)) ?_ x hxu ?_ ?_
  · intro a ha
    rw [contains_false_iff] at ha ⊢
    intro hmem; exact ha (by simp [hmem])
  · rw [contains_false_iff]; exact hxr
  · have : x ∈ r ++ d := by simp [hx]
    simp [List.contains, List.elem_iff, this]

lemma mem_innerUniv_of_alook {al : AL} {cur : Nat} {nbrs : NdMap Int}
    (h : alook al cur = some nbrs) {x : Nat} (hx : x ∈ alKeys nbrs) :
    x ∈ innerUniv al := by
  unfold alook at h
  rcases hfind : al.find? (fun p => p.1 == cur) with _ | entry
  · rw [hfind] at h; simp at h
  · rw [hfind] at h
    simp at h
    have hmem := List.mem_of_find?_eq_some hfind
    unfold innerUniv
    rw [List.mem_flatten]
    exact ⟨alKeys entry.2, List.mem_map_of_mem _ hmem, h ▸ hx⟩

lemma mem_alKeys_of_alook {α : Type} {l : NdMap α} {k : Nat} {v : α}
    (h : alook l k = some v) : k ∈ alKeys l := by
  unfold alook at h
  rcases hfind : l.find? (fun p => p.1 == k) with _ | entry
  · rw [hfind] at h; simp at h
  · have hmem := List.mem_of_find?_eq_some hfind
    have hk := List.find?_some hfind
    simp at hk
    unfold alKeys
    rw [← hk]
    exact List.mem_map_of_mem _ hmem

/-- The BFS loop shared (verbatim in the Python source) by
`is_connected`, `reachable_nodes` and the `mst` connectivity pre-check:
pop the queue front, mark unseen neighbors reachable and enqueue them.
`none` models the KeyError raised when a queued vertex has no adjacency
entry. -/
def bfsLoop (al : AL) (queue reach : List Nat) : Option (List Nat) :=
  match queue with
  | [] => some reach
  | cur :: rest =>
    match h : alook al cur with
    | none => none
    | some nbrs =>
      let d := newNbrs reach nbrs
      bfsLoop al (rest ++ d) (reach ++ d)
termination_by (((innerUniv al).filter (fun v => !(reach.contains v))).length,
  queue.length)
decreasing_by
  rcases hd : newNbrs reach nbrs with _ | ⟨x, tl⟩
  · simp only [hd, List.append_nil]
    apply Prod.Lex.right
    simp
  · apply Prod.Lex.left
    have hx : x ∈ newNbrs reach nbrs := by rw [hd]; simp
    have hprop := newNbrs_mem nbrs reach x hx
    exact filter_notmem_lt _ _ _ x (by simp)
      (mem_innerUniv_of_alook h hprop.1) hprop.2

lemma filter_notmem_cons_lt (univ anc : List Nat) (x : Nat)
    (hxu : x ∈ univ) (hxr : x ∉ anc) :
    (univ.filter (fun v => !((x :: anc).contains v))).length <
      (univ.filter (fun v => !(anc.contains v))).length := by
  apply length_filter_lt univ (fun v => !(anc.contains v))
    (fun v => !((x :: anc).contains v)) ?_ x hxu ?_ ?_
  · intro a ha
    rw [contains_false_iff] at ha ⊢
    intro hmem; exact ha (by simp [hmem])
  · rw [contains_false_iff]; exact hxr
  · simp [List.contains, List.elem_iff]

lemma extractMin_length {α : Type} (lt : α → α → Bool) :
    ∀ (l : List α) (m : α) (rest : List α),
      extractMin lt l = some (m, rest) → rest.length + 1 = l.length := by
  intro l
  induction l with
  | nil => intro m rest h; simp [extractMin] at h
  | cons x xs ih =>
    intro m rest h
    rw [extractMin] at h
    rcases hrec : extractMin lt xs with _ | ⟨m2, rest2⟩
    · rw [hrec] at h
      simp at h
      rcases xs with _ | ⟨y, ys⟩
      · simp [h.2]
      · simp [extractMin] at hrec
        rcases hr2 : extractMin lt ys with _ | q
        · rw [hr2] at hrec; simp at hrec
        · rw [hr2] at hrec
          rcases q with ⟨a, b⟩
          by_cases hlt : lt a y = true <;> simp [hlt] at hrec
    · rw [hrec] at h
      by_cases hlt : lt m2 x = true
      · simp [hlt] at h
        have := ih m2 rest2 hrec
        simp [← h.2, ← this]
      · simp [hlt] at h
        simp [← h.2]

mutual

/-- Depth-first cycle detection, the recursive `dfs` closure inside the
`has_cycle` branch of `analyze_graph`.  The result is
`(updated seen set, found cycle?)`; the outer `none` models a KeyError.
The `hk`/`ha` arguments of `dfsList` record facts that hold at every call
site and are used only for termination. -/
def dfs (al : AL) (cur : Nat) (anc : List Nat) (seen : List Nat) :
    Option (List Nat × Option (List Nat)) :=
  let seen1 := if seen.contains cur then seen else seen ++ [cur]
  if hcyc : cur ∈ anc then
    some (seen1, some (cur :: anc.take (anc.indexOf cur + 1)))
  else
    match hl : alook al cur with
    | none => none
    | some nbrs => dfsList al nbrs cur anc seen1 (mem_alKeys_of_alook hl) hcyc
termination_by
  (((alKeys al).filter (fun v => !(anc.contains v))).length, 1, 0)
decreasing_by
  apply Prod.Lex.right
  apply Prod.Lex.left
  omega

/-- Iteration over the neighbor dict inside `dfs`: skip the immediate
predecessor `ancestry[0]`, recurse into every other neighbor, and
propagate the first cycle found. -/
def dfsList (al : AL) (nbrs : NdMap Int) (cur : Nat) (anc : List Nat)
    (seen : List Nat) (hk : cur ∈ alKeys al) (ha : cur ∉ anc) :
    Option (List Nat × Option (List Nat)) :=
  match nbrs with
  | [] => some (seen, none)
  | (d, _) :: tl =>
    if anc.head? = some d then dfsList al tl cur anc seen hk ha
    else
      match dfs al d (cur :: anc) seen with
      | none => none
      | some (seen2, some cyc) => some (seen2, some cyc)
      | some (seen2, none) => dfsList al tl cur anc seen2 hk ha
termination_by
  (((alKeys al).filter (fun v => !(anc.contains v))).length, 0, nbrs.length)
decreasing_by
  · apply Prod.Lex.right
    apply Prod.Lex.right
    simp
  · apply Prod.Lex.left
    exact filter_notmem_cons_lt _ _ cur hk ha
  · apply Prod.Lex.right
    apply Prod.Lex.right
    simp

end

/-- The outer `for root in graph_data["vertices"]` loop of `has_cycle`:
skip roots whose component was already traversed, otherwise run `dfs`
with empty ancestry, returning the first cycle found (`some none` means
the final `False`). -/
def hasCycleLoop (al : AL) (roots : List Nat) (seen : List Nat) :
    Option (Option (List Nat)) :=
  match roots with
  | [] => some none
  | r :: rest =>
    if seen.contains r then hasCycleLoop al rest seen
    else
      match dfs al r [] seen with
      | none => none
      | some (_, some cyc) => some (some cyc)
      | some (seen2, none) => hasCycleLoop al rest seen2

/-- The relaxation loop `for destination in graph_AL[cur]` of Dijkstra:
`dist[cur]` is read afresh on every iteration (as the Python expression
does), a neighbor is relaxed when it has no distance yet or the new
distance is strictly smaller, and relaxations push `(dist, vertex)` onto
the heap. -/
def relaxAll (cur : Nat) (nbrs : NdMap Int) (dist : NdMap Int)
    (pred : NdMap (Option Nat)) (pq : List (Int × Nat)) :
    Option (NdMap Int × NdMap (Option Nat) × List (Int × Nat)) :=
  match nbrs with
  | [] => some (dist, pred, pq)
  | (d, w) :: tl =>
    match alook dist cur with
    | none => none
    | some dcur =>
      match alook dist d with
      | none =>
        relaxAll cur tl (aupd dist d (w + dcur)) (aupd pred d (some cur))
          (pq ++ [(w + dcur, d)])
      | some dd =>
        if w + dcur < dd then
          relaxAll cur tl (aupd dist d (w + dcur)) (aupd pred d (some cur))
            (pq ++ [(w + dcur, d)])
        else relaxAll cur tl dist pred pq

/-- The main Dijkstra loop: pop the smallest `(dist, vertex)` entry,
skip it if already visited, otherwise mark visited and relax all its
neighbors.  Returns the final `dist` and `pred` maps. -/
def dijkstraLoop (al : AL) (visited : List Nat) (dist : NdMap Int)
    (pred : NdMap (Option Nat)) (pq : List (Int × Nat)) :
    Option (NdMap Int × NdMap (Option Nat)) :=
  match hpop : extractMin pairLt pq with
  | none => some (dist, pred)
  | some (e, rest) =>
    if e.2 ∈ visited then dijkstraLoop al visited dist pred rest
    else
      match hl : alook al e.2 with
      | none => none
      | some nbrs =>
        match relaxAll e.2 nbrs dist pred rest with
        | none => none
        | some (dist2, pred2, pq2) =>
          dijkstraLoop al (visited ++ [e.2]) dist2 pred2 pq2
termination_by (((alKeys al).filter (fun v => !(visited.contains v))).length,
  pq.length)
decreasing_by
  · apply Prod.Lex.right
    have := extractMin_length pairLt pq e rest hpop
    omega
  · apply Prod.Lex.left
    apply filter_notmem_lt _ _ [e.2] e.2 (by simp)
      (mem_alKeys_of_alook hl)
    assumption

/-- Path reconstruction `while cur != None: path.insert(0, cur);
cur = pred[cur]`.  The fuel argument dominates every terminating run of
the Python loop (the predecessor map has unique keys, so a terminating
walk visits each key at most once); running out of fuel models
divergence, and a missing key models the KeyError. -/
def backtrace (pred : NdMap (Option Nat)) (cur : Nat) :
    Nat → Option (List Nat)
  | 0 => none
  | fuel + 1 =>
    match alook pred cur with
    | none => none
    | some none => some [cur]
    | some (some p) => (backtrace pred p fuel).map (fun l => l ++ [cur])

/-- The per-vertex result assembly of `shortest_paths`: the path stays
empty when the vertex never got a predecessor, and the final payload is
`(distance, path)` for reached vertices and `(-1, none)` for unreached
ones. -/
def spEntry (dist : NdMap Int) (pred : NdMap (Option Nat)) (v : Nat) :
    Option (Nat × Int × Option (List Nat)) :=
  match alook pred v with
  | none =>
    match alook dist v with
    | some dv => some (v, dv, some [])
    | none => some (v, -1, none)
  | some _ =>
    match backtrace pred v (pred.length + 1) with
    | none => none
    | some l =>
      match alook dist v with
      | some dv => some (v, dv, some l)
      | none => some (v, -1, none)

/-- The main Prim loop: pop the globally smallest `(weight, start, end)`
candidate, discard it when both endpoints are already in the tree,
otherwise record the edge, add the new endpoint, and push its edges to
still-outside neighbors. -/
def primLoop (al : AL) (mstV : List Nat) (mstE : List (Int × Nat × Nat))
    (pq : List (Int × Nat × Nat)) : Option (List (Int × Nat × Nat)) :=
  match hpop : extractMin tripLt pq with
  | none => some mstE
  | some (e, rest) =>
    if hskip : e.2.1 ∈ mstV ∧ e.2.2 ∈ mstV then primLoop al mstV mstE rest
    else
      if h1 : e.2.1 ∈ mstV then
        match hl : alook al e.2.2 with
        | none => none
        | some nbrs =>
          primLoop al (mstV ++ [e.2.2]) (mstE ++ [e])
            (rest ++ (nbrs.filter
              (fun p => !((mstV ++ [e.2.2]).contains p.1))).map
              (fun p => (p.2, e.2.2, p.1)))
      else
        match hl : alook al e.2.1 with
        | none => none
        | some nbrs =>
          primLoop al (mstV ++ [e.2.1]) (mstE ++ [e])
            (rest ++ (nbrs.filter
              (fun p => !((mstV ++ [e.2.1]).contains p.1))).map
              (fun p => (p.2, e.2.1, p.1)))
termination_by (((alKeys al).filter (fun v => !(mstV.contains v))).length,
  pq.length)
decreasing_by
  · apply Prod.Lex.right
    have := extractMin_length tripLt pq e rest hpop
    omega
  · apply Prod.Lex.left
    apply filter_notmem_lt _ _ [e.2.2] e.2.2 (by simp)
      (mem_alKeys_of_alook hl)
    intro hmem
    exact hskip ⟨h1, hmem⟩
  · apply Prod.Lex.left
    apply filter_notmem_lt _ _ [e.2.1] e.2.1 (by simp)
      (mem_alKeys_of_alook hl)
    exact h1

/-- Tagged analysis result `{ "type": ..., "data": ... }`. -/
inductive AnalysisData where
  | isConnected (b : Bool)
  | hasCycle (cyc : Option (List Nat))
  | shortestPaths (root : Nat) (paths : List (Nat × Int × Option (List Nat)))
  | reachableNodes (root : Nat) (reach : List Nat)
  | mst (edges : Option (List (Nat × Nat × Int)))
deriving Repr, DecidableEq

/-- The engine entry point `analyze_graph(type, root, graph_data)`:
build the adjacency model, then dispatch on the analysis kind.  `none`
models a raised exception (unknown kind, missing root entry, malformed
graph, empty vertex list for the kinds that index `vertices[0]`). -/
def analyze_graph (ty : String) (root : Option Nat) (g : GraphData) :
    Option AnalysisData :=
  match buildAL g with
  | none => none
  | some al =>
    match ty with
    | "is_connected" =>
      match g.vertices with
      | [] => none
      | v0 :: _ =>
        match bfsLoop al [v0] [v0] with
        | none => none
        | some reach =>
          some (.isConnected (g.vertices.all (fun v => reach.contains v)))
    | "has_cycle" =>
      match hasCycleLoop al g.vertices [] with
      | none => none
      | some res => some (.hasCycle res)
    | "shortest_paths" =>
      match root with
      | none => none
      | some r =>
        match dijkstraLoop al [] [(r, (0 : Int))] [(r, none)] [((0 : Int), r)] with
        | none => none
        | some (dist, pred) =>
          match g.vertices.mapM (spEntry dist pred) with
          | none => none
          | some entries => some (.shortestPaths r entries)
    | "reachable_nodes" =>
      match root with
      | none => none
      | some r =>
        match bfsLoop al [r] [r] with
        | none => none
        | some reach => some (.reachableNodes r reach)
    | "mst" =>
      match g.vertices with
      | [] => none
      | v0 :: _ =>
        match bfsLoop al [v0] [v0] with
        | none => none
        | some reach =>
          if !(g.vertices.all (fun v => reach.contains v)) then
            some (.mst none)
          else
            match alook al v0 with
            | none => none
            | some nbrs0 =>
              match primLoop al [v0] []
                  (nbrs0.map (fun p => (p.2, v0, p.1))) with
              | none => none
              | some mstE =>
                some (.mst (some (mstE.map (fun e => (e.2.1, e.2.2, e.1)))))
    | _ => none

/-- Either a generated graph description or a structured error record
(only the message distinguishes error records). -/
inductive GenResult where
  | graph (g : GraphData)
  | error (msg : String)
deriving Repr, DecidableEq

/-- Randomness source: an arbitrary stream of naturals plus a cursor.
Quantifying over all streams quantifies over all outcomes. -/
structure RState where
  stream : Nat → Nat
  idx : Nat

/-- `random.randint(lo, hi)`: consume one stream value, clamped into
`[lo, hi]`; an empty range raises ValueError (`none`).  Every value of
`[lo, hi]` is realized by some stream. -/
def randint (lo hi : Int) (s : RState) : Option (Int × RState) :=
  if lo > hi then none
  else some (lo + (s.stream s.idx : Int) % (hi - lo + 1), ⟨s.stream, s.idx + 1⟩)

/-- The pairs `(start, end)` with `start < end < n` in the order of the
nested loops `for start in range(n): for end in range(start+1, n)`. -/
def allPairs (n : Nat) : List (Nat × Nat) :=
  (List.range n).flatMap
    (fun a => (List.range' (a + 1) (n - (a + 1))).map (fun b => (a, b)))

/-- The bipartite pool: every pair of one vertex from the first half and
one from the second half, in group order. -/
def biPairs (n : Nat) : List (Nat × Nat) :=
  (List.range (n / 2)).flatMap
    (fun a => (List.range' (n / 2) (n - n / 2)).map (fun b => (a, b)))

/-- Attach a fresh random weight in `[1, 100]` to each pair, in order. -/
def pairWeights (pairs : List (Nat × Nat)) (s : RState) :
    Option (List (Nat × Nat × Int) × RState) :=
  match pairs with
  | [] => some ([], s)
  | (a, b) :: tl =>
    match randint 1 100 s with
    | none => none
    | some (w, s1) =>
      match pairWeights tl s1 with
      | none => none
      | some (es, s2) => some ((a, b, w) :: es, s2)

lemma randint_bounds {lo hi : Int} {s : RState} {v : Int} {s1 : RState}
    (h : randint lo hi s = some (v, s1)) : lo ≤ v ∧ v ≤ hi := by
  unfold randint at h
  by_cases hr : lo > hi
  · simp [hr] at h
  · simp [hr] at h
    have hpos : (0 : Int) < hi - lo + 1 := by omega
    have h1 : 0 ≤ (s.stream s.idx : Int) % (hi - lo + 1) :=
      Int.emod_nonneg _ (by omega)
    have h2 : (s.stream s.idx : Int) % (hi - lo + 1) < hi - lo + 1 :=
      Int.emod_lt_of_pos _ hpos
    omega

/-- `while len(edges) > num_edges`: pop a uniformly random index. -/
def removeRandomEdges (target : Int) (edges : List (Nat × Nat × Int))
    (s : RState) : Option (List (Nat × Nat × Int) × RState) :=
  if h : (edges.length : Int) > target then
    match hr : randint 0 ((edges.length : Int) - 1) s with
    | none => none
    | some (i, s1) => removeRandomEdges target (edges.eraseIdx i.toNat) s1
  else some (edges, s)
termination_by edges.length
decreasing_by
  have hb := randint_bounds hr
  have hlen : i.toNat < edges.length := by omega
  rw [List.length_eraseIdx]
  simp [hlen]
  omega

/-- The spanning-tree phase of the "connected" generator: vertex `i`
attaches to a uniformly random earlier vertex; the matching edge is moved
from the remaining pool to the edge list (`none` also models the
defensive raise when it cannot be found). -/
def treePhase (nv : Nat) (i : Nat) (edges remaining : List (Nat × Nat × Int))
    (s : RState) :
    Option (List (Nat × Nat × Int) × List (Nat × Nat × Int) × RState) :=
  if i < nv then
    match randint 0 ((i : Int) - 1) s with
    | none => none
    | some (other, s1) =>
      match remaining.find? (fun e => e.1 == other.toNat && e.2.1 == i) with
      | none => none
      | some sel =>
        treePhase nv (i + 1) (edges ++ [sel]) (remaining.erase sel) s1
  else some (edges, remaining, s)
termination_by nv - i

/-- `while len(edges) < num_edges`: move a uniformly random edge from the
remaining pool to the edge list. -/
def fillPhase (target : Int) (edges remaining : List (Nat × Nat × Int))
    (s : RState) : Option (List (Nat × Nat × Int) × RState) :=
  if h : (edges.length : Int) < target then
    match randint 0 ((remaining.length : Int) - 1) s with
    | none => none
    | some (i, s1) =>
      match remaining.get? i.toNat with
      | none => none
      | some sel => fillPhase target (edges ++ [sel]) (remaining.erase sel) s1
  else some (edges, s)
termination_by (target - edges.length).toNat
decreasing_by
  simp
  omega

/-- The random-attach loop shared by the "tree" generator (`lo = 0`) and
each spore of the "acyclic" generator (`lo = offset`): for `i` in
`[i0, stop)` append the edge `(randint(lo, i-1), i, randint(1, 100))`. -/
def attachEdges (lo : Nat) (i stop : Nat) (edges : List (Nat × Nat × Int))
    (s : RState) : Option (List (Nat × Nat × Int) × RState) :=
  if i < stop then
    match randint (lo : Int) ((i : Int) - 1) s with
    | none => none
    | some (p, s1) =>
      match randint 1 100 s1 with
      | none => none
      | some (w, s2) =>
        attachEdges lo (i + 1) stop (edges ++ [(p.toNat, i, w)]) s2
  else some (edges, s)
termination_by stop - i

/-- The spore loop of the "acyclic" generator: distribute vertices as
evenly as possible over the components and random-attach within each. -/
def sporePhase (nvN scN : Nat) (spore : Nat) (offset : Nat)
    (edges : List (Nat × Nat × Int)) (s : RState) :
    Option (List (Nat × Nat × Int) × RState) :=
  if spore < scN then
    let nsv := nvN / scN + (if spore < nvN % scN then 1 else 0)
    match attachEdges offset (offset + 1) (offset + nsv) edges s with
    | none => none
    | some (edges2, s1) =>
      sporePhase nvN scN (spore + 1) (offset + nsv) edges2 s1
  else some (edges, s)
termination_by scN - spore

/-- `validate_parameters(type, vertices, edges)`: `some msg` models the
structured 400 error response, `none` the success case. -/
def validate_parameters (ty : String) (vertices edges : Int) : Option String :=
  if !(["any", "complete", "connected", "acyclic", "tree",
      "bipartite"].contains ty) then
    some "graph type is invalid"
  else if vertices ≠ -1 ∧ vertices ≤ 0 then
    some "vertex count is not positive"
  else if edges ≠ -1 ∧ edges < 0 then
    some "edge count is not non-negative"
  else if edges ≠ -1 ∧ vertices = -1 then
    some "cannot specify number of edges but not number of vertices"
  else none

/-- `make_random_graph(type, num_vertices, num_edges)`: `-1` is the
"unspecified" sentinel, `none` models a raised exception (in particular
`randint` on an empty range), `.error` the structured infeasibility
record.  `//` is modelled by `Int.fdiv` (Python floor division). -/
def make_random_graph (ty : String) (nv0 ne0 : Int) (s0 : RState) :
    Option GenResult :=
  match ty with
  | "any" =>
    match (if nv0 = -1 then randint 5 10 s0 else some (nv0, s0)) with
    | none => none
    | some (nv, s1) =>
      match (if ne0 = -1 then randint 5 (Int.fdiv (nv * (nv - 1)) 2) s1
        else some (ne0, s1)) with
      | none => none
      | some (ne, s2) =>
        if ne > Int.fdiv (nv * (nv - 1)) 2 then
          some (.error "number of vertices and edges is illegal")
        else
          match pairWeights (allPairs nv.toNat) s2 with
          | none => none
          | some (es, s3) =>
            match removeRandomEdges ne es s3 with
            | none => none
            | some (es2, _) => some (.graph ⟨List.range nv.toNat, es2⟩)
  | "complete" =>
    match (if nv0 = -1 then randint 5 10 s0 else some (nv0, s0)) with
    | none => none
    | some (nv, s1) =>
      let ne := if ne0 = -1 then Int.fdiv (nv * (nv - 1)) 2 else ne0
      if ne ≠ Int.fdiv (nv * (nv - 1)) 2 then
        some (.error "number of vertices and edges is illegal")
      else
        match pairWeights (allPairs nv.toNat) s1 with
        | none => none
        | some (es, _) => some (.graph ⟨List.range nv.toNat, es⟩)
  | "connected" =>
    match (if nv0 = -1 then randint 5 10 s0 else some (nv0, s0)) with
    | none => none
    | some (nv, s1) =>
      match (if ne0 = -1 then
          randint (nv - 1) (Int.fdiv (nv * (nv - 1)) 2) s1
        else some (ne0, s1)) with
      | none => none
      | some (ne, s2) =>
        if ne > Int.fdiv (nv * (nv - 1)) 2 ∨ ne < nv - 1 then
          some (.error "number of vertices and edges is illegal")
        else
          match pairWeights (allPairs nv.toNat) s2 with
          | none => none
          | some (pool, s3) =>
            match treePhase nv.toNat 1 [] pool s3 with
            | none => none
            | some (es, remaining, s4) =>
              match fillPhase ne es remaining s4 with
              | none => none
              | some (es2, _) => some (.graph ⟨List.range nv.toNat, es2⟩)
  | "acyclic" =>
    match (if nv0 = -1 then randint 5 10 s0 else some (nv0, s0)) with
    | none => none
    | some (nv, s1) =>
      match (if ne0 = -1 then randint 4 (nv - 1) s1 else some (ne0, s1)) with
      | none => none
      | some (ne, s2) =>
        if ne > nv - 1 then
          some (.error "number of vertices and edges is illegal")
        else
          match sporePhase nv.toNat (nv - ne).toNat 0 0 [] s2 with
          | none => none
          | some (es, _) => some (.graph ⟨List.range nv.toNat, es⟩)
  | "tree" =>
    match (if nv0 = -1 then randint 5 10 s0 else some (nv0, s0)) with
    | none => none
    | some (nv, s1) =>
      let ne := if ne0 = -1 then nv - 1 else ne0
      if ne ≠ nv - 1 then
        some (.error "number of vertices and edges is illegal")
      else
        match attachEdges 0 1 nv.toNat [] s1 with
        | none => none
        | some (es, _) => some (.graph ⟨List.range nv.toNat, es⟩)
  | "bipartite" =>
    match (if nv0 = -1 then randint 5 10 s0 else some (nv0, s0)) with
    | none => none
    | some (nv, s1) =>
      match (if ne0 = -1 then randint 4 (Int.fdiv (nv * nv) 4) s1
        else some (ne0, s1)) with
      | none => none
      | some (ne, s2) =>
        if ne > Int.fdiv (nv * nv) 4 then
          some (.error "number of vertices and edges is illegal")
        else
          match pairWeights (biPairs nv.toNat) s2 with
          | none => none
          | some (es, s3) =>
            match removeRandomEdges ne es s3 with
            | none => none
            | some (es2, _) => some (.graph ⟨List.range nv.toNat, es2⟩)
  | _ => some (.error "graph type is invalid")

/-! ### Dictionary laws -/

lemma alook_map_replace {α : Type} (l : NdMap α) (k : Nat) (v : α) (x : Nat)
    (hx : x ≠ k) :
    alook (l.map (fun p => if p.1 == k then (k, v) else p)) x = alook l x := by
  unfold alook
  rw [List.find?_map]
  have hpred : ((fun q => q.1 == x) ∘ (fun p => if p.1 == k then (k, v) else p))
      = (fun q : Nat × α => q.1 == x) := by
    funext p
    by_cases hpk : p.1 = k
    · simp [hpk]
    · simp [hpk]
  rw [hpred, Option.map_map]
  rcases hfind : List.find? (fun q => q.1 == x) l with _ | p
  · rw [hfind]
    rfl
  · rw [hfind]
    have hp := List.find?_some hfind
    simp only [beq_iff_eq] at hp
    have hcond : ¬ ((p.1 == k) = true) := by simpa [hp] using hx
    simp only [Function.comp, Option.map_some']
    rw [if_neg hcond]

lemma alook_append_right {α : Type} (l : NdMap α) (k : Nat) (v : α)
    (hk : (l.any fun q => q.1 == k) = false) (x : Nat) :
    alook (l ++ [(k, v)]) x = if x = k then some v else alook l x := by
  unfold alook
  rw [List.find?_append]
  by_cases hx : x = k
  · subst hx
    have hnone : List.find? (fun q => q.1 == x) l = none := by
      rw [List.find?_eq_none]
      intro p hp
      exact List.any_eq_false.1 hk p hp
    rw [hnone, List.find?_cons_of_pos _ (by simp)]
    simp
  · have hone : List.find? (fun q => q.1 == x) [(k, v)] = none := by
      rw [List.find?_cons_of_neg _ (by simp; omega), List.find?_nil]
    rw [hone, if_neg hx]
    rcases hfind : List.find? (fun q => q.1 == x) l with _ | p <;> rw [hfind] <;> rfl

lemma alook_aupd {α : Type} (l : NdMap α) (k : Nat) (v : α) (x : Nat) :
    alook (aupd l k v) x = if x = k then some v else alook l x := by
  unfold aupd
  by_cases hany : (l.any fun p => p.1 == k) = true
  · rw [if_pos hany]
    by_cases hx : x = k
    · subst hx
      rw [if_pos rfl]
      unfold alook
      rw [List.find?_map]
      have hpred : ((fun q => q.1 == x) ∘
          (fun p => if p.1 == x then (x, v) else p))
          = (fun q : Nat × α => q.1 == x) := by
        funext p
        by_cases hpk : p.1 = x <;> simp [hpk]
      rw [hpred]
      rcases hfind : List.find? (fun q => q.1 == x) l with _ | p
      · exfalso
        rw [List.any_eq_true] at hany
        rcases hany with ⟨q, hq, hqk⟩
        rw [List.find?_eq_none] at hfind
        exact absurd hqk (by simpa using hfind q hq)
      · rw [hfind]
        have hp := List.find?_some hfind
        simp only [beq_iff_eq] at hp
        simp [hp]
    · rw [if_neg hx]
      exact alook_map_replace l k v x hx
  · rw [if_neg hany]
    exact alook_append_right l k v (Bool.eq_false_iff.mpr hany) x

lemma alKeys_aupd_of_mem {α : Type} (l : NdMap α) (k : Nat) (v : α)
    (hk : k ∈ alKeys l) : alKeys (aupd l k v) = alKeys l := by
  unfold aupd
  have hany : (l.any (fun q => q.1 == k)) = true := by
    unfold alKeys at hk
    rw [List.any_eq_true]
    rcases List.mem_map.1 hk with ⟨p, hp, hpk⟩
    exact ⟨p, hp, by simp [hpk]⟩
  rw [if_pos hany]
  unfold alKeys
  rw [List.map_map]
  apply List.map_congr_left
  intro p _
  by_cases hpk : p.1 = k
  · simp [Function.comp, hpk]
  · simp [Function.comp, hpk]

lemma alKeys_aupd_of_not_mem {α : Type} (l : NdMap α) (k : Nat) (v : α)
    (hk : k ∉ alKeys l) : alKeys (aupd l k v) = alKeys l ++ [k] := by
  unfold aupd
  have hany : (l.any (fun q => q.1 == k)) = false := by
    rw [Bool.eq_false_iff]
    intro hc
    rw [List.any_eq_true] at hc
    rcases hc with ⟨p, hp, hpk⟩
    exact hk (by unfold alKeys; rw [List.mem_map]; exact ⟨p, hp, by simpa using hpk⟩)
  rw [hany]
  simp only [Bool.false_eq_true, if_false]
  unfold alKeys
  simp

lemma alook_eq_none_of_not_mem {α : Type} {l : NdMap α} {k : Nat}
    (hk : k ∉ alKeys l) : alook l k = none := by
  unfold alook
  have hnone : List.find? (fun p => p.1 == k) l = none := by
    rw [List.find?_eq_none]
    intro p hp
    simp only [beq_iff_eq]
    intro hc
    exact hk (by unfold alKeys; rw [List.mem_map]; exact ⟨p, hp, hc⟩)
  rw [hnone]
  rfl

lemma alook_isSome_of_mem {α : Type} {l : NdMap α} {k : Nat}
    (hk : k ∈ alKeys l) : ∃ v, alook l k = some v := by
  rcases h : alook l k with _ | v
  · unfold alook at h
    rw [Option.map_eq_none'] at h
    rw [List.find?_eq_none] at h
    unfold alKeys at hk
    rcases List.mem_map.1 hk with ⟨p, hp, hpk⟩
    have hcontra := h p hp
    simp [hpk] at hcontra
  · exact ⟨v, rfl⟩

/-! ### Adjacency model characterization -/

/-- Weight lookup `graph_AL[a][b]` through both dict layers. -/
def alook2 (al : AL) (a b : Nat) : Option Int :=
  match alook al a with
  | none => none
  | some m => alook m b

/-- Adjacency in the adjacency model. -/
def ALAdj (al : AL) (a b : Nat) : Prop := ∃ w, alook2 al a b = some w

/-- Adjacency in the graph description: some edge joins `a` and `b` in
either orientation. -/
def EdgeAdj (g : GraphData) (a b : Nat) : Prop :=
  ∃ w, (a, b, w) ∈ g.edges ∨ (b, a, w) ∈ g.edges

/-- Well-formed graph description per the spec's data model: unique
vertex ids and every edge endpoint declared. -/
def WellFormed (g : GraphData) : Prop :=
  g.vertices.Nodup ∧
  ∀ e ∈ g.edges, e.1 ∈ g.vertices ∧ e.2.1 ∈ g.vertices

lemma insEdge_some_spec {al : AL} {a b : Nat} {w : Int} {al2 : AL}
    (h : insEdge al a b w = some al2) :
    alKeys al2 = alKeys al ∧
    ∀ x y, alook2 al2 x y =
      if x = a ∧ y = b then some w else alook2 al x y := by
  unfold insEdge at h
  rcases hm : alook al a with _ | m
  · rw [hm] at h; simp at h
  · rw [hm] at h
    simp at h
    subst h
    constructor
    · exact alKeys_aupd_of_mem _ _ _ (mem_alKeys_of_alook hm)
    · intro x y
      unfold alook2
      by_cases hxa : x = a
      · subst hxa
        by_cases hyb : y = b
        · subst hyb
          simp [alook_aupd]
        · simp [alook_aupd, hyb, hm]
      · simp [alook_aupd, hxa]

lemma edgeStep_some_spec {al : AL} {e : Nat × Nat × Int} {al2 : AL}
    (h : edgeStep al e = some al2) :
    alKeys al2 = alKeys al ∧
    ∀ x y, alook2 al2 x y =
      if x = e.2.1 ∧ y = e.1 then some e.2.2
      else if x = e.1 ∧ y = e.2.1 then some e.2.2
      else alook2 al x y := by
  unfold edgeStep at h
  rcases h1 : insEdge al e.1 e.2.1 e.2.2 with _ | almid
  · rw [h1] at h; simp at h
  · rw [h1] at h
    simp at h
    have s1 := insEdge_some_spec h1
    have s2 := insEdge_some_spec h
    refine ⟨s2.1.trans s1.1, ?_⟩
    intro x y
    rw [s2.2 x y]
    by_cases hc : x = e.2.1 ∧ y = e.1
    · simp [hc]
    · rw [if_neg hc, if_neg hc, s1.2 x y]

lemma edgeStep_adj {al almid : AL} {e : Nat × Nat × Int}
    (h : edgeStep al e = some almid) (x y : Nat) :
    (∃ w, alook2 almid x y = some w) ↔
      ((x = e.1 ∧ y = e.2.1) ∨ (x = e.2.1 ∧ y = e.1) ∨
        ∃ w, alook2 al x y = some w) := by
  have hs := (edgeStep_some_spec h).2 x y
  rw [hs]
  by_cases h1 : x = e.2.1 ∧ y = e.1
  · simp [h1]
  · rw [if_neg h1]
    by_cases h2 : x = e.1 ∧ y = e.2.1
    · simp [h2]
    · rw [if_neg h2]
      simp [h1, h2]

lemma foldlM_edgeStep_spec :
    ∀ (es : List (Nat × Nat × Int)) (al0 al1 : AL),
      es.foldlM edgeStep al0 = some al1 →
      alKeys al1 = alKeys al0 ∧
      ∀ x y, (∃ w, alook2 al1 x y = some w) ↔
        ((∃ w, alook2 al0 x y = some w) ∨
          ∃ w, (x, y, w) ∈ es ∨ (y, x, w) ∈ es) := by
  intro es
  induction es with
  | nil =>
    intro al0 al1 h
    simp [List.foldlM] at h
    subst h
    simp
  | cons e tl ih =>
    intro al0 al1 h
    rw [List.foldlM_cons] at h
    rcases hstep : edgeStep al0 e with _ | almid
    · rw [hstep] at h; simp at h
    · rw [hstep] at h
      simp at h
      have hi := ih almid al1 h
      refine ⟨hi.1.trans (edgeStep_some_spec hstep).1, ?_⟩
      intro x y
      rw [hi.2 x y, edgeStep_adj hstep x y]
      constructor
      · rintro ((⟨rfl, rfl⟩ | ⟨rfl, rfl⟩ | hold) | ⟨w, hw | hw⟩)
        · right; exact ⟨e.2.2, Or.inl (by simp)⟩
        · right; exact ⟨e.2.2, Or.inr (by simp)⟩
        · left; exact hold
        · right; exact ⟨w, Or.inl (by simp [hw])⟩
        · right; exact ⟨w, Or.inr (by simp [hw])⟩
      · rintro (hold | ⟨w, hw | hw⟩)
        · left; right; right; exact hold
        · rcases List.mem_cons.1 hw with heq | hmem
          · left; left
            have h1 : x = e.1 := congrArg Prod.fst heq
            have h2 : y = e.2.1 := congrArg (fun q => q.2.1) heq
            exact ⟨h1, h2⟩
          · right; exact ⟨w, Or.inl hmem⟩
        · rcases List.mem_cons.1 hw with heq | hmem
          · left; right; left
            have h1 : y = e.1 := congrArg Prod.fst heq
            have h2 : x = e.2.1 := congrArg (fun q => q.2.1) heq
            exact ⟨h2, h1⟩
          · right; exact ⟨w, Or.inr hmem⟩

lemma foldlM_edgeStep_isSome :
    ∀ (es : List (Nat × Nat × Int)) (al0 : AL),
      (∀ e ∈ es, e.1 ∈ alKeys al0 ∧ e.2.1 ∈ alKeys al0) →
      ∃ al1, es.foldlM edgeStep al0 = some al1 := by
  intro es
  induction es with
  | nil => intro al0 _; exact ⟨al0, rfl⟩
  | cons e tl ih =>
    intro al0 hend
    rcases alook_isSome_of_mem (hend e (by simp)).1 with ⟨m, hm⟩
    have h1 : insEdge al0 e.1 e.2.1 e.2.2 =
        some (aupd al0 e.1 (aupd m e.2.1 e.2.2)) := by
      unfold insEdge; rw [hm]
    have hkeys : alKeys (aupd al0 e.1 (aupd m e.2.1 e.2.2)) = alKeys al0 :=
      alKeys_aupd_of_mem _ _ _ (mem_alKeys_of_alook hm)
    rcases alook_isSome_of_mem
        (show e.2.1 ∈ alKeys (aupd al0 e.1 (aupd m e.2.1 e.2.2)) by
          rw [hkeys]; exact (hend e (by simp)).2) with ⟨m2, hm2⟩
    have h2 : insEdge (aupd al0 e.1 (aupd m e.2.1 e.2.2)) e.2.1 e.1 e.2.2 =
        some (aupd (aupd al0 e.1 (aupd m e.2.1 e.2.2)) e.2.1
          (aupd m2 e.1 e.2.2)) := by
      unfold insEdge; rw [hm2]
    have hstep : edgeStep al0 e =
        some (aupd (aupd al0 e.1 (aupd m e.2.1 e.2.2)) e.2.1
          (aupd m2 e.1 e.2.2)) := by
      unfold edgeStep; rw [h1]; simpa using h2
    have hkeys2 : alKeys (aupd (aupd al0 e.1 (aupd m e.2.1 e.2.2)) e.2.1
        (aupd m2 e.1 e.2.2)) = alKeys al0 := by
      rw [alKeys_aupd_of_mem _ _ _ (mem_alKeys_of_alook hm2), hkeys]
    rcases ih _ (by
      intro e2 he2
      rw [hkeys2]
      exact hend e2 (by simp [he2])) with ⟨al1, hal1⟩
    refine ⟨al1, ?_⟩
    rw [List.foldlM_cons, hstep]
    simpa using hal1

lemma alKeys_initAL (g : GraphData) (h : g.vertices.Nodup) :
    alKeys (initAL g) = g.vertices := by
  unfold initAL
  have main : ∀ (vs : List Nat) (al0 : AL), vs.Nodup →
      (∀ v ∈ vs, v ∉ alKeys al0) →
      alKeys (vs.foldl (fun al v => aupd al v []) al0) = alKeys al0 ++ vs := by
    intro vs
    induction vs with
    | nil => intro al0 _ _; simp
    | cons v tl ih =>
      intro al0 hnd hdisj
      rw [List.foldl_cons]
      rw [ih (aupd al0 v []) (List.nodup_cons.1 hnd).2 ?_]
      · rw [alKeys_aupd_of_not_mem _ _ _ (hdisj v (by simp))]
        simp
      · intro u hu
        rw [alKeys_aupd_of_not_mem _ _ _ (hdisj v (by simp))]
        simp only [List.mem_append, List.mem_singleton]
        rintro (hc | hc)
        · exact hdisj u (by simp [hu]) hc
        · exact (List.nodup_cons.1 hnd).1 (hc ▸ hu)
  have hm := main g.vertices [] h (by intro v _ hc; simp [alKeys] at hc)
  simpa [alKeys] using hm

lemma alook2_initAL (g : GraphData) (x y : Nat) :
    alook2 (initAL g) x y = none := by
  unfold initAL
  have main : ∀ (vs : List Nat) (al0 : AL),
      (∀ k m, alook al0 k = some m → m = []) →
      ∀ k m, alook (vs.foldl (fun al v => aupd al v []) al0) k = some m →
        m = [] := by
    intro vs
    induction vs with
    | nil => intro al0 hbase; exact hbase
    | cons v tl ih =>
      intro al0 hbase
      rw [List.foldl_cons]
      apply ih
      intro k m hk
      rw [alook_aupd] at hk
      by_cases hkv : k = v
      · rw [if_pos hkv] at hk
        exact (Option.some.injEq _ _ ▸ hk).symm
      · rw [if_neg hkv] at hk
        exact hbase k m hk
  unfold alook2
  rcases hm : alook (g.vertices.foldl (fun al v => aupd al v []) []) x with _ | m
  · rfl
  · have hnil := main g.vertices [] (by intro k m hc; simp [alook] at hc) x m hm
    subst hnil
    simp [alook]

/-- The adjacency model of a well-formed graph description: the build
succeeds, its keys are exactly the declared vertices, and its adjacency
relation is exactly edge adjacency. -/
lemma buildAL_wf (g : GraphData) (hwf : WellFormed g) :
    ∃ al, buildAL g = some al ∧ alKeys al = g.vertices ∧
      (∀ x y, ALAdj al x y ↔ EdgeAdj g x y) := by
  have hkinit := alKeys_initAL g hwf.1
  rcases foldlM_edgeStep_isSome g.edges (initAL g) (by
    intro e he
    rw [hkinit]
    exact hwf.2 e he) with ⟨al, hal⟩
  have hspec := foldlM_edgeStep_spec g.edges (initAL g) al hal
  refine ⟨al, hal, hspec.1.trans hkinit, ?_⟩
  intro x y
  unfold ALAdj EdgeAdj
  rw [hspec.2 x y]
  simp [alook2_initAL]

/-! ### BFS correctness -/

lemma newNbrs_covers (nbrs : NdMap Int) :
    ∀ reach y, y ∈ alKeys nbrs → y ∈ reach ++ newNbrs reach nbrs := by
  induction nbrs with
  | nil => intro reach y hy; simp [alKeys] at hy
  | cons p tl ih =>
    intro reach y hy
    rw [newNbrs]
    unfold alKeys at hy
    simp only [List.map_cons, List.mem_cons] at hy
    by_cases hd : reach.contains p.1 = true
    · rw [if_pos hd]
      rcases hy with hy | hy
      · subst hy
        exact List.mem_append_left _
          (by simpa [List.contains, List.elem_iff] using hd)
      · exact ih reach y hy
    · rw [if_neg hd]
      rcases hy with hy | hy
      · subst hy
        simp
      · have hrec := ih (reach ++ [p.1]) y hy
        simp only [List.mem_append, List.mem_singleton, List.mem_cons] at hrec ⊢
        tauto

lemma ALAdj_of_alook {al : AL} {cur : Nat} {nbrs : NdMap Int}
    (h : alook al cur = some nbrs) {y : Nat} (hy : y ∈ alKeys nbrs) :
    ALAdj al cur y := by
  rcases alook_isSome_of_mem hy with ⟨w, hw⟩
  exact ⟨w, by unfold alook2; rw [h]; exact hw⟩

lemma alook_of_ALAdj {al : AL} {cur y : Nat} (h : ALAdj al cur y) :
    ∃ nbrs, alook al cur = some nbrs ∧ y ∈ alKeys nbrs := by
  rcases h with ⟨w, hw⟩
  unfold alook2 at hw
  rcases hm : alook al cur with _ | m
  · rw [hm] at hw; simp at hw
  · rw [hm] at hw
    exact ⟨m, rfl, mem_alKeys_of_alook hw⟩

lemma bfsLoop_spec (al : AL) (root : Nat) :
    ∀ queue reach,
      (∀ x ∈ queue, x ∈ reach) →
      (∀ x ∈ reach, Relation.ReflTransGen (ALAdj al) root x) →
      (∀ x ∈ reach, ∀ y, ALAdj al x y → y ∈ reach ∨ x ∈ queue) →
      ∀ out, bfsLoop al queue reach = some out →
        (∀ x ∈ out, Relation.ReflTransGen (ALAdj al) root x) ∧
        (∀ x ∈ reach, x ∈ out) ∧
        (∀ x ∈ out, ∀ y, ALAdj al x y → y ∈ out) := by
  intro queue reach
  induction queue, reach using bfsLoop.induct al with
  | case1 reach =>
    intro h1 h3 h4 out hout
    rw [bfsLoop] at hout
    simp at hout
    subst hout
    refine ⟨h3, fun x hx => hx, fun x hx y hadj => ?_⟩
    rcases h4 x hx y hadj with h | h
    · exact h
    · simp at h
  | case2 reach cur rest hnone =>
    intro h1 h3 h4 out hout
    rw [bfsLoop] at hout
    split at hout
    · cases hout
    · rename_i nbrs2 heq
      rw [hnone] at heq
      cases heq
  | case3 reach cur rest nbrs hsome d ih =>
    intro h1 h3 h4 out hout
    rw [bfsLoop] at hout
    split at hout
    case h_1 heq =>
      rw [hsome] at heq
      cases heq
    case h_2 nbrs2 heq =>
    rw [hsome] at heq
    cases heq
    have hcur : cur ∈ reach := h1 cur (by simp)
    have hstep := ih ?_ ?_ ?_ out hout
    · exact ⟨hstep.1, fun x hx => hstep.2.1 x (List.mem_append_left _ hx),
        hstep.2.2⟩
    · intro x hx
      rcases List.mem_append.1 hx with hx | hx
      · exact List.mem_append_left _ (h1 x (by simp [hx]))
      · exact List.mem_append_right _ hx
    · intro x hx
      rcases List.mem_append.1 hx with hx | hx
      · exact h3 x hx
      · exact Relation.ReflTransGen.tail (h3 cur hcur)
          (ALAdj_of_alook hsome (newNbrs_mem nbrs reach x hx).1)
    · intro x hx y hadj
      rcases List.mem_append.1 hx with hx | hx
      · rcases h4 x hx y hadj with hy | hq
        · exact Or.inl (List.mem_append_left _ hy)
        · rcases List.mem_cons.1 hq with rfl | hq
          · left
            rcases alook_of_ALAdj hadj with ⟨nbrs2, hn2, hyn⟩
            rw [hsome] at hn2
            cases hn2
            exact newNbrs_covers nbrs reach y hyn
          · exact Or.inr (List.mem_append_left _ hq)
      · exact Or.inr (List.mem_append_right _ hx)

lemma bfsLoop_isSome (al : AL)
    (hclosed : ∀ x y, ALAdj al x y → y ∈ alKeys al) :
    ∀ queue reach, (∀ x ∈ queue, x ∈ alKeys al) →
      ∃ out, bfsLoop al queue reach = some out := by
  intro queue reach
  induction queue, reach using bfsLoop.induct al with
  | case1 reach => intro _; exact ⟨reach, by rw [bfsLoop]⟩
  | case2 reach cur rest hnone =>
    intro h
    rcases alook_isSome_of_mem (h cur (by simp)) with ⟨m, hm⟩
    rw [hm] at hnone
    cases hnone
  | case3 reach cur rest nbrs hsome d ih =>
    intro h
    have hq : ∀ x ∈ rest ++ d, x ∈ alKeys al := by
      intro x hx
      rcases List.mem_append.1 hx with hx | hx
      · exact h x (by simp [hx])
      · exact hclosed cur x
          (ALAdj_of_alook hsome (newNbrs_mem nbrs reach x hx).1)
    rcases ih hq with ⟨out, hout⟩
    refine ⟨out, ?_⟩
    rw [bfsLoop]
    split
    case h_1 heq =>
      rw [hsome] at heq
      cases heq
    case h_2 nbrs2 heq =>
      rw [hsome] at heq
      cases heq
      exact hout

/-- The BFS traversal started at `root` (queue and reachable set both
initialized to `[root]`) computes exactly the vertices reachable from
`root` in the adjacency model. -/
lemma bfsLoop_root_spec (al : AL) (root : Nat) (out : List Nat)
    (hout : bfsLoop al [root] [root] = some out) :
    ∀ x, x ∈ out ↔ Relation.ReflTransGen (ALAdj al) root x := by
  have hs := bfsLoop_spec al root [root] [root] (by simp)
    (by intro x hx; simp at hx; subst hx; exact .refl)
    (by intro x hx y _; right; simpa using hx) out hout
  intro x
  constructor
  · exact fun hx => hs.1 x hx
  · intro hrtg
    induction hrtg with
    | refl => exact hs.2.1 root (by simp)
    | tail _ hadj ih => exact hs.2.2 _ ih _ hadj

lemma rtg_edgeAdj_mem (g : GraphData) (hwf : WellFormed g) {a v : Nat}
    (ha : a ∈ g.vertices) (h : Relation.ReflTransGen (EdgeAdj g) a v) :
    v ∈ g.vertices := by
  induction h with
  | refl => exact ha
  | tail _ h2 ih =>
    rcases h2 with ⟨w, h2 | h2⟩
    · exact (hwf.2 _ h2).2
    · exact (hwf.2 _ h2).1

/-- A simple graph description: additionally no self-loops and no two
edges joining the same unordered pair. -/
def SimpleGraph' (g : GraphData) : Prop :=
  WellFormed g ∧
  (∀ e ∈ g.edges, e.1 ≠ e.2.1) ∧
  (∀ (i j : Nat) (hi : i < g.edges.length) (hj : j < g.edges.length),
    i ≠ j →
    ((g.edges.get ⟨i, hi⟩).1 ≠ (g.edges.get ⟨j, hj⟩).1 ∨
      (g.edges.get ⟨i, hi⟩).2.1 ≠ (g.edges.get ⟨j, hj⟩).2.1) ∧
    ((g.edges.get ⟨i, hi⟩).1 ≠ (g.edges.get ⟨j, hj⟩).2.1 ∨
      (g.edges.get ⟨i, hi⟩).2.1 ≠ (g.edges.get ⟨j, hj⟩).1))

/-! ### Claim theorems -/

/-- C8: on the triangle with vertices `{0,1,2}` and edges
`(0,1,1), (1,2,2), (0,2,10)`, `analyze` with type `shortest_paths` and
root 0 reports the path to vertex 2 as `[0,1,2]` with distance 3 (and not
the direct edge of weight 10). -/
theorem C8_dijkstra_triangle :
    analyze_graph "shortest_paths" (some 0)
      ⟨[0, 1, 2], [(0, 1, 1), (1, 2, 2), (0, 2, 10)]⟩ =
      some (.shortestPaths 0
        [(0, 0, some [0]), (1, 1, some [0, 1]), (2, 3, some [0, 1, 2])]) := by
  simp [analyze_graph, buildAL, initAL, edgeStep, insEdge, alook, aupd,
    dijkstraLoop, extractMin, pairLt, relaxAll, spEntry, backtrace,
    List.mapM, List.mapM.loop, List.find?, List.foldlM]

/-- C9: with an empty declared vertex sequence, `is_connected` and `mst`
raise instead of returning a tagged result (`vertices[0]` is out of
range; when edges are present the adjacency build raises first), so a
non-empty vertex sequence is a precondition for these kinds. -/
theorem C9_empty_vertices_is_connected_mst_fail
    (edges : List (Nat × Nat × Int)) (root : Option Nat) :
    analyze_graph "is_connected" root ⟨[], edges⟩ = none ∧
    analyze_graph "mst" root ⟨[], edges⟩ = none := by
  rcases edges with _ | ⟨e, tl⟩
  · constructor <;>
      simp [analyze_graph, buildAL, initAL, List.foldlM]
  · constructor <;>
      simp [analyze_graph, buildAL, initAL, List.foldlM, edgeStep, insEdge,
        alook, List.find?]

/-- C5: for every well-formed graph description with at least one
declared vertex, `analyze` with type `is_connected` returns a tagged
boolean which is true exactly when the set of vertices reachable from the
first declared vertex equals the full declared vertex set. -/
theorem C5_is_connected_iff_reachable (g : GraphData) (root : Option Nat)
    (v0 : Nat) (vrest : List Nat) (hv : g.vertices = v0 :: vrest)
    (hwf : WellFormed g) :
    ∃ b, analyze_graph "is_connected" root g = some (.isConnected b) ∧
      (b = true ↔
        ∀ v, Relation.ReflTransGen (EdgeAdj g) v0 v ↔ v ∈ g.vertices) := by
  rcases buildAL_wf g hwf with ⟨al, hal, hkeys, hadj⟩
  have hclosed : ∀ x y, ALAdj al x y → y ∈ alKeys al := by
    intro x y hxy
    rw [hkeys]
    rcases (hadj x y).1 hxy with ⟨w, hw | hw⟩
    · exact (hwf.2 _ hw).2
    · exact (hwf.2 _ hw).1
  have hv0 : v0 ∈ alKeys al := by rw [hkeys, hv]; simp
  rcases bfsLoop_isSome al hclosed [v0] [v0]
    (by intro x hx; simp at hx; subst hx; exact hv0) with ⟨out, hout⟩
  have hiff := bfsLoop_root_spec al v0 out hout
  have heval : analyze_graph "is_connected" root g =
      some (.isConnected (g.vertices.all (fun v => out.contains v))) := by
    simp [analyze_graph, hal, hv, hout]
  refine ⟨g.vertices.all (fun v => out.contains v), heval, ?_⟩
  constructor
  · intro hb v
    constructor
    · intro hrtg
      exact rtg_edgeAdj_mem g hwf (by rw [hv]; simp) hrtg
    · intro hmem
      have hcont := List.all_eq_true.1 hb v hmem
      have hvout : v ∈ out := by
        simpa [List.contains, List.elem_iff] using hcont
      exact Relation.ReflTransGen.mono (fun a b hab => (hadj a b).1 hab)
        ((hiff v).1 hvout)
  · intro hiff2
    rw [List.all_eq_true]
    intro v hvmem
    have hrtgE := (hiff2 v).2 hvmem
    have hrtgAL : Relation.ReflTransGen (ALAdj al) v0 v :=
      Relation.ReflTransGen.mono (fun a b hab => (hadj a b).2 hab) hrtgE
    have hvout : v ∈ out := (hiff v).2 hrtgAL
    simpa [List.contains, List.elem_iff] using hvout

/-- Witness for C5 at the spec scenario: vertices `{0,1,2}`, no edges.
The analysis returns a tagged boolean, which the reachability criterion
forces to be false. -/
theorem C5_is_connected_iff_reachable_witness :
    analyze_graph "is_connected" none ⟨[0, 1, 2], []⟩ =
      some (.isConnected false) ∧
    (∃ b, analyze_graph "is_connected" none ⟨[0, 1, 2], []⟩ =
        some (.isConnected b) ∧
      (b = true ↔
        ∀ v, Relation.ReflTransGen (EdgeAdj ⟨[0, 1, 2], []⟩) 0 v ↔
          v ∈ (GraphData.mk [0, 1, 2] []).vertices)) :=
  ⟨by simp [analyze_graph, buildAL, initAL, List.foldlM, bfsLoop, newNbrs,
      alook, aupd, List.find?],
   C5_is_connected_iff_reachable ⟨[0, 1, 2], []⟩ none 0 [1, 2] rfl
    ⟨by decide, by intro e he; simp at he⟩⟩

/-! ### Generator structure lemmas -/

lemma removeRandomEdges_step {target : Int} {edges : List (Nat × Nat × Int)}
    {s : RState} {i : Int} {s1 : RState}
    (hgt : (edges.length : Int) > target)
    (heq : randint 0 ((edges.length : Int) - 1) s = some (i, s1)) :
    removeRandomEdges target edges s =
      removeRandomEdges target (edges.eraseIdx i.toNat) s1 := by
  rw [removeRandomEdges, dif_pos hgt]
  split
  · rename_i heq2
    rw [heq] at heq2
    cases heq2
  · rename_i i2 s12 heq2
    rw [heq] at heq2
    simp at heq2
    rw [heq2.1, heq2.2]

lemma removeRandomEdges_fail {target : Int} {edges : List (Nat × Nat × Int)}
    {s : RState} (hgt : (edges.length : Int) > target)
    (heq : randint 0 ((edges.length : Int) - 1) s = none) :
    removeRandomEdges target edges s = none := by
  rw [removeRandomEdges, dif_pos hgt]
  split
  · rfl
  · rename_i i2 s12 heq2
    rw [heq] at heq2
    cases heq2

lemma removeRandomEdges_done {target : Int} {edges : List (Nat × Nat × Int)}
    {s : RState} (hle : ¬ (edges.length : Int) > target) :
    removeRandomEdges target edges s = some (edges, s) := by
  rw [removeRandomEdges, dif_neg hle]

lemma pairWeights_mem :
    ∀ (pairs : List (Nat × Nat)) (s : RState) (es : List (Nat × Nat × Int))
      (s2 : RState), pairWeights pairs s = some (es, s2) →
      ∀ e ∈ es, (e.1, e.2.1) ∈ pairs := by
  intro pairs
  induction pairs with
  | nil =>
    intro s es s2 h e he
    rw [pairWeights] at h
    simp at h
    rw [h.1] at he
    simp at he
  | cons p tl ih =>
    intro s es s2 h e he
    rcases p with ⟨a, b⟩
    rw [pairWeights] at h
    split at h
    · simp at h
    · rename_i w s1 heq
      split at h
      · simp at h
      · rename_i es1 s3 heq2
        simp at h
        rw [← h.1] at he
        rcases List.mem_cons.1 he with rfl | hmem
        · simp
        · have hm := ih s1 es1 s3 heq2 e hmem
          simp [hm]

lemma removeRandomEdges_subset :
    ∀ (target : Int) (edges : List (Nat × Nat × Int)) (s : RState)
      (es2 : List (Nat × Nat × Int)) (s2 : RState),
      removeRandomEdges target edges s = some (es2, s2) →
      ∀ e ∈ es2, e ∈ edges := by
  intro target edges s
  induction edges, s using removeRandomEdges.induct target with
  | case1 edges s hgt heq =>
    intro es2 s2 h e he
    rw [removeRandomEdges_fail hgt heq] at h
    cases h
  | case2 edges s hgt i s1 heq ih =>
    intro es2 s2 h e he
    rw [removeRandomEdges_step hgt heq] at h
    exact List.mem_of_mem_eraseIdx (ih es2 s2 h e he)
  | case3 edges s hle =>
    intro es2 s2 h e he
    rw [removeRandomEdges_done hle] at h
    simp at h
    rw [← h.1] at he
    exact he

lemma treePhase_step {nv i : Nat} {edges remaining : List (Nat × Nat × Int)}
    {s : RState} {other : Int} {s1 : RState} {sel : Nat × Nat × Int}
    (hlt : i < nv)
    (heq : randint 0 ((i : Int) - 1) s = some (other, s1))
    (hfind : remaining.find? (fun e => e.1 == other.toNat && e.2.1 == i) =
      some sel) :
    treePhase nv i edges remaining s =
      treePhase nv (i + 1) (edges ++ [sel]) (remaining.erase sel) s1 := by
  rw [treePhase, if_pos hlt]
  split
  · rename_i heq2
    rw [heq] at heq2
    cases heq2
  · rename_i o2 s12 heq2
    rw [heq] at heq2
    simp at heq2
    obtain ⟨rfl, rfl⟩ := heq2
    split
    · rename_i hfind2
      rw [hfind] at hfind2
      cases hfind2
    · rename_i sel2 hfind2
      rw [hfind] at hfind2
      simp at hfind2
      rw [hfind2]

lemma treePhase_done {nv i : Nat} {edges remaining : List (Nat × Nat × Int)}
    {s : RState} (hge : ¬ i < nv) :
    treePhase nv i edges remaining s = some (edges, remaining, s) := by
  rw [treePhase, if_neg hge]

lemma treePhase_subset :
    ∀ (nv i : Nat) (edges remaining : List (Nat × Nat × Int)) (s : RState)
      (es rem2 : List (Nat × Nat × Int)) (s2 : RState),
      treePhase nv i edges remaining s = some (es, rem2, s2) →
      (∀ e ∈ es, e ∈ edges ∨ e ∈ remaining) ∧ ∀ e ∈ rem2, e ∈ remaining := by
  intro nv i edges remaining s
  induction i, edges, remaining, s using treePhase.induct nv with
  | case1 i edges remaining s hlt heq =>
    intro es rem2 s2 h
    rw [treePhase, if_pos hlt] at h
    split at h
    · cases h
    · rename_i o2 s12 heq2
      rw [heq] at heq2
      cases heq2
  | case2 i edges remaining s hlt other s1 heq hfind =>
    intro es rem2 s2 h
    rw [treePhase, if_pos hlt] at h
    split at h
    · cases h
    · rename_i o2 s12 heq2
      rw [heq] at heq2
      simp at heq2
      obtain ⟨rfl, rfl⟩ := heq2
      split at h
      · cases h
      · rename_i sel2 hfind2
        rw [hfind] at hfind2
        cases hfind2
  | case3 i edges remaining s hlt other s1 heq sel hfind ih =>
    intro es rem2 s2 h
    rw [treePhase_step hlt heq hfind] at h
    have hsel : sel ∈ remaining := List.mem_of_find?_eq_some hfind
    have hrec := ih es rem2 s2 h
    constructor
    · intro e he
      rcases hrec.1 e he with hmem | hmem
      · rcases List.mem_append.1 hmem with hmem | hmem
        · exact Or.inl hmem
        · simp at hmem
          exact Or.inr (hmem ▸ hsel)
      · exact Or.inr (List.mem_of_mem_erase hmem)
    · intro e he
      exact List.mem_of_mem_erase (hrec.2 e he)
  | case4 i edges remaining s hge =>
    intro es rem2 s2 h
    rw [treePhase_done hge] at h
    simp at h
    rw [← h.1, ← h.2.1]
    exact ⟨fun e he => Or.inl he, fun e he => he⟩

lemma fillPhase_step {target : Int} {edges remaining : List (Nat × Nat × Int)}
    {s : RState} {i : Int} {s1 : RState} {sel : Nat × Nat × Int}
    (hlt : (edges.length : Int) < target)
    (heq : randint 0 ((remaining.length : Int) - 1) s = some (i, s1))
    (hget : remaining.get? i.toNat = some sel) :
    fillPhase target edges remaining s =
      fillPhase target (edges ++ [sel]) (remaining.erase sel) s1 := by
  rw [fillPhase, dif_pos hlt]
  split
  · rename_i heq2
    rw [heq] at heq2
    cases heq2
  · rename_i i2 s12 heq2
    rw [heq] at heq2
    simp at heq2
    obtain ⟨rfl, rfl⟩ := heq2
    split
    · rename_i hget2
      rw [hget] at hget2
      cases hget2
    · rename_i sel2 hget2
      rw [hget] at hget2
      simp at hget2
      rw [hget2]

lemma fillPhase_done {target : Int} {edges remaining : List (Nat × Nat × Int)}
    {s : RState} (hge : ¬ (edges.length : Int) < target) :
    fillPhase target edges remaining s = some (edges, s) := by
  rw [fillPhase, dif_neg hge]

lemma fillPhase_subset :
    ∀ (target : Int) (edges remaining : List (Nat × Nat × Int)) (s : RState)
      (es : List (Nat × Nat × Int)) (s2 : RState),
      fillPhase target edges remaining s = some (es, s2) →
      ∀ e ∈ es, e ∈ edges ∨ e ∈ remaining := by
  intro target edges remaining s
  induction edges, remaining, s using fillPhase.induct target with
  | case1 edges remaining s hlt heq =>
    intro es s2 h e he
    rw [fillPhase, dif_pos hlt] at h
    split at h
    · cases h
    · rename_i i2 s12 heq2
      rw [heq] at heq2
      cases heq2
  | case2 edges remaining s hlt i s1 heq hget =>
    intro es s2 h e he
    rw [fillPhase, dif_pos hlt] at h
    split at h
    · cases h
    · rename_i i2 s12 heq2
      rw [heq] at heq2
      simp at heq2
      obtain ⟨rfl, rfl⟩ := heq2
      split at h
      · cases h
      · rename_i sel2 hget2
        rw [hget] at hget2
        cases hget2
  | case3 edges remaining s hlt i s1 heq sel hget ih =>
    intro es s2 h e he
    rw [fillPhase_step hlt heq hget] at h
    have hsel : sel ∈ remaining := List.get?_mem hget
    rcases ih es s2 h e he with hmem | hmem
    · rcases List.mem_append.1 hmem with hmem | hmem
      · exact Or.inl hmem
      · simp at hmem
        exact Or.inr (hmem ▸ hsel)
    · exact Or.inr (List.mem_of_mem_erase hmem)
  | case4 edges remaining s hge =>
    intro es s2 h e he
    rw [fillPhase_done hge] at h
    simp at h
    rw [← h.1] at he
    exact Or.inl he

lemma attachEdges_step {lo i stop : Nat} {edges : List (Nat × Nat × Int)}
    {s : RState} {p : Int} {s1 : RState} {w : Int} {s2 : RState}
    (hlt : i < stop)
    (heq : randint (lo : Int) ((i : Int) - 1) s = some (p, s1))
    (hw : randint 1 100 s1 = some (w, s2)) :
    attachEdges lo i stop edges s =
      attachEdges lo (i + 1) stop (edges ++ [(p.toNat, i, w)]) s2 := by
  rw [attachEdges, if_pos hlt]
  split
  · rename_i heq2
    rw [heq] at heq2
    cases heq2
  · rename_i p2 s12 heq2
    rw [heq] at heq2
    simp at heq2
    obtain ⟨rfl, rfl⟩ := heq2
    split
    · rename_i hw2
      rw [hw] at hw2
      cases hw2
    · rename_i w2 s22 hw2
      rw [hw] at hw2
      simp at hw2
      obtain ⟨rfl, rfl⟩ := hw2
      rfl

lemma attachEdges_done {lo i stop : Nat} {edges : List (Nat × Nat × Int)}
    {s : RState} (hge : ¬ i < stop) :
    attachEdges lo i stop edges s = some (edges, s) := by
  rw [attachEdges, if_neg hge]

lemma attachEdges_spec :
    ∀ (lo i stop : Nat) (edges : List (Nat × Nat × Int)) (s : RState)
      (es : List (Nat × Nat × Int)) (s2 : RState),
      attachEdges lo i stop edges s = some (es, s2) →
      ∃ new, es = edges ++ new ∧
        (new.map (fun e => e.2.1)) = List.range' i (stop - i) ∧
        ∀ e ∈ new, lo ≤ e.1 ∧ e.1 < e.2.1 := by
  intro lo i stop edges s
  induction i, stop, edges, s using attachEdges.induct lo with
  | case1 i stop edges s hlt heq =>
    intro es s2 h
    rw [attachEdges, if_pos hlt] at h
    split at h
    · cases h
    · rename_i p2 s12 heq2
      rw [heq] at heq2
      cases heq2
  | case2 i stop edges s hlt p s1 heq hw =>
    intro es s2 h
    rw [attachEdges, if_pos hlt] at h
    split at h
    · cases h
    · rename_i p2 s12 heq2
      rw [heq] at heq2
      simp at heq2
      obtain ⟨rfl, rfl⟩ := heq2
      split at h
      · cases h
      · rename_i w2 s22 hw2
        rw [hw] at hw2
        cases hw2
  | case3 i stop edges s hlt p s1 heq w s3 hw ih =>
    intro es s2 h
    rw [attachEdges_step hlt heq hw] at h
    rcases ih es s2 h with ⟨new1, hsplit, hmap, hbound⟩
    refine ⟨(p.toNat, i, w) :: new1, by simp [hsplit], ?_, ?_⟩
    · have hn : stop - i = (stop - (i + 1)) + 1 := by omega
      rw [hn, List.range']
      simp [hmap]
    · intro e he
      rcases List.mem_cons.1 he with rfl | hmem
      · have hb := randint_bounds heq
        exact ⟨by omega, by simp; omega⟩
      · exact hbound e hmem
  | case4 i stop edges s hge =>
    intro es s2 h
    rw [attachEdges_done hge] at h
    simp at h
    refine ⟨[], by simp [← h.1], ?_, by simp⟩
    have hn : stop - i = 0 := by omega
    simp [hn]

/-- The number of vertices assigned to spores `spore, spore+1, ...`
by the even-distribution rule of the "acyclic" generator. -/
def remSum (nvN scN spore : Nat) : Nat :=
  ((List.range' spore (scN - spore)).map
    (fun j => nvN / scN + if j < nvN % scN then 1 else 0)).sum

lemma remSum_step {nvN scN spore : Nat} (h : spore < scN) :
    remSum nvN scN spore =
      (nvN / scN + if spore < nvN % scN then 1 else 0) +
        remSum nvN scN (spore + 1) := by
  unfold remSum
  have hn : scN - spore = (scN - (spore + 1)) + 1 := by omega
  rw [hn, List.range']
  simp

lemma sum_evenly (q : Nat) : ∀ (n r : Nat), r ≤ n →
    ((List.range n).map (fun j => q + if j < r then 1 else 0)).sum =
      n * q + r := by
  intro n
  induction n with
  | zero => intro r hr; simp; omega
  | succ n ih =>
    intro r hr
    rw [List.range_succ, List.map_append, List.sum_append]
    simp only [List.map_cons, List.map_nil, List.sum_cons, List.sum_nil]
    by_cases hrn : r ≤ n
    · rw [ih r hrn]
      have hnr : ¬ (n < r) := by omega
      simp only [hnr, if_false]
      rw [Nat.succ_mul]
      omega
    · have hr1 : r = n + 1 := by omega
      subst hr1
      have hcongr : (List.range n).map (fun j => q + if j < n + 1 then 1 else 0)
          = (List.range n).map (fun j => q + if j < n then 1 else 0) := by
        apply List.map_congr_left
        intro j hj
        rw [List.mem_range] at hj
        have h1 : j < n + 1 := by omega
        simp [hj, h1]
      rw [hcongr, ih n (le_refl n)]
      have hlt : n < n + 1 := by omega
      simp only [hlt, if_true]
      rw [Nat.succ_mul]
      omega

lemma remSum_total {nvN scN : Nat} (h : 1 ≤ scN) : remSum nvN scN 0 = nvN := by
  unfold remSum
  have h0 : scN - 0 = scN := rfl
  rw [h0, ← List.range_eq_range']
  rw [sum_evenly (nvN / scN) scN (nvN % scN) (le_of_lt (Nat.mod_lt _ h))]
  exact Nat.div_add_mod nvN scN

lemma sporePhase_step {nvN scN spore offset : Nat}
    {edges : List (Nat × Nat × Int)} {s : RState}
    {edges2 : List (Nat × Nat × Int)} {s1 : RState}
    (hlt : spore < scN)
    (heq : attachEdges offset (offset + 1)
      (offset + (nvN / scN + if spore < nvN % scN then 1 else 0)) edges s =
      some (edges2, s1)) :
    sporePhase nvN scN spore offset edges s =
      sporePhase nvN scN (spore + 1)
        (offset + (nvN / scN + if spore < nvN % scN then 1 else 0))
        edges2 s1 := by
  rw [sporePhase, if_pos hlt]
  show (match attachEdges offset (offset + 1)
      (offset + (nvN / scN + if spore < nvN % scN then 1 else 0)) edges s with
    | none => none
    | some (edges2, s1) =>
      sporePhase nvN scN (spore + 1)
        (offset + (nvN / scN + if spore < nvN % scN then 1 else 0))
        edges2 s1) = _
  rw [heq]

lemma sporePhase_fail {nvN scN spore offset : Nat}
    {edges : List (Nat × Nat × Int)} {s : RState}
    (hlt : spore < scN)
    (heq : attachEdges offset (offset + 1)
      (offset + (nvN / scN + if spore < nvN % scN then 1 else 0)) edges s =
      none) :
    sporePhase nvN scN spore offset edges s = none := by
  rw [sporePhase, if_pos hlt]
  show (match attachEdges offset (offset + 1)
      (offset + (nvN / scN + if spore < nvN % scN then 1 else 0)) edges s with
    | none => none
    | some (edges2, s1) =>
      sporePhase nvN scN (spore + 1)
        (offset + (nvN / scN + if spore < nvN % scN then 1 else 0))
        edges2 s1) = _
  rw [heq]

lemma sporePhase_done {nvN scN spore offset : Nat}
    {edges : List (Nat × Nat × Int)} {s : RState} (hge : ¬ spore < scN) :
    sporePhase nvN scN spore offset edges s = some (edges, s) := by
  rw [sporePhase, if_neg hge]

lemma sporePhase_spec :
    ∀ (nvN scN spore offset : Nat) (edges : List (Nat × Nat × Int))
      (s : RState) (es : List (Nat × Nat × Int)) (s2 : RState),
      sporePhase nvN scN spore offset edges s = some (es, s2) →
      ∃ new, es = edges ++ new ∧
        (∀ e ∈ new, offset ≤ e.1 ∧ e.1 < e.2.1 ∧ offset < e.2.1 ∧
          e.2.1 < offset + remSum nvN scN spore) ∧
        (new.map (fun e => e.2.1)).Nodup := by
  intro nvN scN spore offset edges s
  induction spore, offset, edges, s using sporePhase.induct nvN scN with
  | case1 spore offset edges s hlt nsv heq =>
    intro es s2 h
    rw [sporePhase_fail hlt heq] at h
    cases h
  | case2 spore offset edges s hlt nsv edges2 s1 heq ih =>
    intro es s2 h
    have hfk : (if _h : spore < nvN % scN then (1 : Nat) else 0) =
        (if spore < nvN % scN then 1 else 0) := by
      by_cases hsp : spore < nvN % scN <;> simp [hsp]
    rw [sporePhase_step hlt heq] at h
    rcases attachEdges_spec offset (offset + 1)
      (offset + (nvN / scN + if spore < nvN % scN then 1 else 0)) edges s
      edges2 s1 heq with ⟨new1, hsplit1, hmap1, hbound1⟩
    rcases ih es s2 h with ⟨new2, hsplit2, hbound2, hnd2⟩
    have hnsv : nsv = nvN / scN + (if spore < nvN % scN then 1 else 0) := by
      rw [← hfk]
    rw [hnsv] at hbound2
    refine ⟨new1 ++ new2, by rw [hsplit2, hsplit1, List.append_assoc], ?_, ?_⟩
    · intro e he
      rcases List.mem_append.1 he with hmem | hmem
      · have hsecond : e.2.1 ∈ List.range' (offset + 1)
            ((offset + (nvN / scN + if spore < nvN % scN then 1 else 0)) -
              (offset + 1)) := by
          rw [← hmap1]
          exact List.mem_map_of_mem _ hmem
        rw [List.mem_range'_1] at hsecond
        have hb := hbound1 e hmem
        have hkey := @remSum_step nvN _ _ hlt
        obtain ⟨NSV, hNSV⟩ :
            ∃ x, nvN / scN + (if spore < nvN % scN then 1 else 0) = x :=
          ⟨_, rfl⟩
        rw [hNSV] at hsecond hkey
        refine ⟨hb.1, hb.2, by omega, by omega⟩
      · have hb := hbound2 e hmem
        have hkey := @remSum_step nvN _ _ hlt
        obtain ⟨NSV, hNSV⟩ :
            ∃ x, nvN / scN + (if spore < nvN % scN then 1 else 0) = x :=
          ⟨_, rfl⟩
        rw [hNSV] at hb hkey
        refine ⟨by omega, hb.2.1, by omega, by omega⟩
    · rw [List.map_append]
      apply List.Nodup.append
      · rw [hmap1]
        exact List.nodup_range' _ _
      · exact hnd2
      · intro x hx1 hx2
        rw [hmap1, List.mem_range'_1] at hx1
        rcases List.mem_map.1 hx2 with ⟨e, hmem, hxe⟩
        have hxe2 : e.2.1 = x := hxe
        have hb := hbound2 e hmem
        obtain ⟨NSV, hNSV⟩ :
            ∃ x, nvN / scN + (if spore < nvN % scN then 1 else 0) = x :=
          ⟨_, rfl⟩
        rw [hNSV] at hx1 hb
        omega
  | case3 spore offset edges s hge =>
    intro es s2 h
    rw [sporePhase_done hge] at h
    simp at h
    refine ⟨[], by simp [← h.1], by simp, by simp⟩

lemma allPairs_mem {n a b : Nat} (h : (a, b) ∈ allPairs n) : a < b ∧ b < n := by
  unfold allPairs at h
  rw [List.mem_flatMap] at h
  rcases h with ⟨x, hx, hmem⟩
  rw [List.mem_map] at hmem
  rcases hmem with ⟨y, hy, heq⟩
  rw [List.mem_range] at hx
  rw [List.mem_range'_1] at hy
  cases heq
  omega

lemma biPairs_mem {n a b : Nat} (h : (a, b) ∈ biPairs n) :
    a < n / 2 ∧ n / 2 ≤ b ∧ b < n := by
  unfold biPairs at h
  rw [List.mem_flatMap] at h
  rcases h with ⟨x, hx, hmem⟩
  rw [List.mem_map] at hmem
  rcases hmem with ⟨y, hy, heq⟩
  rw [List.mem_range] at hx
  rw [List.mem_range'_1] at hy
  cases heq
  omega

lemma mrg_any_shape {nv0 ne0 : Int} {s : RState} {g : GraphData}
    (h : make_random_graph "any" nv0 ne0 s = some (.graph g)) :
    ∃ n : Nat, g.vertices = List.range n ∧
      ∀ e ∈ g.edges, e.1 < e.2.1 ∧ e.2.1 < n := by
  rw [make_random_graph] at h
  split at h
  · cases h
  · rename_i nv s1 hres1
    split at h
    · cases h
    · rename_i ne s2 hres2
      split at h
      · simp at h
      · split at h
        · cases h
        · rename_i es s3 hpw
          split at h
          · cases h
          · rename_i es2 s4 hrm
            simp only [Option.some.injEq, GenResult.graph.injEq] at h
            subst h
            refine ⟨nv.toNat, rfl, ?_⟩
            intro e he
            have hmem := removeRandomEdges_subset _ _ _ _ _ hrm e he
            have hpair := pairWeights_mem _ _ _ _ hpw e hmem
            exact allPairs_mem hpair

lemma mrg_complete_shape {nv0 ne0 : Int} {s : RState} {g : GraphData}
    (h : make_random_graph "complete" nv0 ne0 s = some (.graph g)) :
    ∃ n : Nat, g.vertices = List.range n ∧
      ∀ e ∈ g.edges, e.1 < e.2.1 ∧ e.2.1 < n := by
  rw [make_random_graph] at h
  split at h
  · cases h
  · rename_i nv s1 hres1
    have main : ∀ (sx : RState),
        (match pairWeights (allPairs nv.toNat) sx with
          | none => none
          | some (es, _) =>
            some (GenResult.graph ⟨List.range nv.toNat, es⟩)) =
          some (GenResult.graph g) →
        ∃ n, g.vertices = List.range n ∧
          ∀ e ∈ g.edges, e.1 < e.2.1 ∧ e.2.1 < n := by
      intro sx h2
      split at h2
      · cases h2
      · rename_i es s3 hpw
        simp only [Option.some.injEq, GenResult.graph.injEq] at h2
        subst h2
        refine ⟨nv.toNat, rfl, ?_⟩
        intro e he
        have hpair := pairWeights_mem _ _ _ _ hpw e he
        exact allPairs_mem hpair
    split at h
    · replace h : (if (nv * (nv - 1)).fdiv 2 ≠ (nv * (nv - 1)).fdiv 2 then
          some (GenResult.error "number of vertices and edges is illegal")
        else match pairWeights (allPairs nv.toNat) s1 with
          | none => none
          | some (es, _) =>
            some (GenResult.graph ⟨List.range nv.toNat, es⟩)) =
          some (GenResult.graph g) := h
      rw [if_neg (by simp)] at h
      exact main s1 h
    · replace h : (if ne0 ≠ (nv * (nv - 1)).fdiv 2 then
          some (GenResult.error "number of vertices and edges is illegal")
        else match pairWeights (allPairs nv.toNat) s1 with
          | none => none
          | some (es, _) =>
            some (GenResult.graph ⟨List.range nv.toNat, es⟩)) =
          some (GenResult.graph g) := h
      split at h
      · simp at h
      · exact main s1 h

lemma mrg_connected_shape {nv0 ne0 : Int} {s : RState} {g : GraphData}
    (h : make_random_graph "connected" nv0 ne0 s = some (.graph g)) :
    ∃ n : Nat, g.vertices = List.range n ∧
      ∀ e ∈ g.edges, e.1 < e.2.1 ∧ e.2.1 < n := by
  rw [make_random_graph] at h
  split at h
  · cases h
  · rename_i nv s1 hres1
    split at h
    · cases h
    · rename_i ne s2 hres2
      split at h
      · simp at h
      · split at h
        · cases h
        · rename_i pool s3 hpw
          split at h
          · cases h
          · rename_i es remaining s4 htp
            split at h
            · cases h
            · rename_i es2 s5 hfp
              simp only [Option.some.injEq, GenResult.graph.injEq] at h
              subst h
              refine ⟨nv.toNat, rfl, ?_⟩
              intro e he
              have hmem := fillPhase_subset _ _ _ _ _ _ hfp e he
              have htps := treePhase_subset _ _ _ _ _ _ _ _ htp
              have hpool : e ∈ pool := by
                rcases hmem with hmem | hmem
                · rcases htps.1 e hmem with hmem2 | hmem2
                  · simp at hmem2
                  · exact hmem2
                · exact htps.2 e hmem
              have hpair := pairWeights_mem _ _ _ _ hpw e hpool
              exact allPairs_mem hpair

lemma mrg_tree_shape {nv0 ne0 : Int} {s : RState} {g : GraphData}
    (h : make_random_graph "tree" nv0 ne0 s = some (.graph g)) :
    ∃ n : Nat, g.vertices = List.range n ∧
      (g.edges.map (fun e => e.2.1)).Nodup ∧
      ∀ e ∈ g.edges, e.1 < e.2.1 ∧ e.2.1 < n := by
  rw [make_random_graph] at h
  split at h
  · cases h
  · rename_i nv s1 hres1
    have main : ∀ (sx : RState),
        (match attachEdges 0 1 nv.toNat [] sx with
          | none => none
          | some (es, _) =>
            some (GenResult.graph ⟨List.range nv.toNat, es⟩)) =
          some (GenResult.graph g) →
        ∃ n, g.vertices = List.range n ∧
          (g.edges.map (fun e => e.2.1)).Nodup ∧
          ∀ e ∈ g.edges, e.1 < e.2.1 ∧ e.2.1 < n := by
      intro sx h2
      split at h2
      · cases h2
      · rename_i es s3 hae
        simp only [Option.some.injEq, GenResult.graph.injEq] at h2
        subst h2
        rcases attachEdges_spec _ _ _ _ _ _ _ hae with ⟨new, hsplit, hmap, hbound⟩
        simp only [List.nil_append] at hsplit
        subst hsplit
        refine ⟨nv.toNat, rfl, ?_, ?_⟩
        · rw [hmap]
          exact List.nodup_range' _ _
        · intro e he
          have hb := hbound e he
          have hsec : e.2.1 ∈ List.range' 1 (nv.toNat - 1) := by
            rw [← hmap]
            exact List.mem_map_of_mem _ he
          rw [List.mem_range'_1] at hsec
          exact ⟨hb.2, by omega⟩
    split at h
    · replace h : (if nv - 1 ≠ nv - 1 then
          some (GenResult.error "number of vertices and edges is illegal")
        else match attachEdges 0 1 nv.toNat [] s1 with
          | none => none
          | some (es, _) =>
            some (GenResult.graph ⟨List.range nv.toNat, es⟩)) =
          some (GenResult.graph g) := h
      rw [if_neg (by simp)] at h
      exact main s1 h
    · replace h : (if ne0 ≠ nv - 1 then
          some (GenResult.error "number of vertices and edges is illegal")
        else match attachEdges 0 1 nv.toNat [] s1 with
          | none => none
          | some (es, _) =>
            some (GenResult.graph ⟨List.range nv.toNat, es⟩)) =
          some (GenResult.graph g) := h
      split at h
      · simp at h
      · exact main s1 h

lemma mrg_acyclic_shape {nv0 ne0 : Int} {s : RState} {g : GraphData}
    (h : make_random_graph "acyclic" nv0 ne0 s = some (.graph g)) :
    ∃ n : Nat, g.vertices = List.range n ∧
      (g.edges.map (fun e => e.2.1)).Nodup ∧
      ∀ e ∈ g.edges, e.1 < e.2.1 ∧ e.2.1 < n := by
  rw [make_random_graph] at h
  split at h
  · cases h
  · rename_i nv s1 hres1
    split at h
    · cases h
    · rename_i ne s2 hres2
      split at h
      · simp at h
      · split at h
        · cases h
        · rename_i es s3 hsp
          simp only [Option.some.injEq, GenResult.graph.injEq] at h
          subst h
          rcases sporePhase_spec _ _ _ _ _ _ _ _ hsp with
            ⟨new, hsplit, hbound, hnd⟩
          simp only [List.nil_append] at hsplit
          subst hsplit
          refine ⟨nv.toNat, rfl, hnd, ?_⟩
          intro e he
          have hb := hbound e he
          rcases Nat.eq_zero_or_pos (nv - ne).toNat with hz | hpos
          · rw [hz] at hsp
            rw [sporePhase_done (by omega)] at hsp
            simp at hsp
            rw [hsp.1] at he
            simp at he
          · have htot := @remSum_total nv.toNat _ hpos
            refine ⟨hb.2.1, ?_⟩
            have := hb.2.2.2
            rw [htot] at this
            omega

lemma mrg_bipartite_shape {nv0 ne0 : Int} {s : RState} {g : GraphData}
    (h : make_random_graph "bipartite" nv0 ne0 s = some (.graph g)) :
    ∃ n : Nat, g.vertices = List.range n ∧
      ∀ e ∈ g.edges, e.1 < n / 2 ∧ n / 2 ≤ e.2.1 ∧ e.2.1 < n := by
  rw [make_random_graph] at h
  split at h
  · cases h
  · rename_i nv s1 hres1
    split at h
    · cases h
    · rename_i ne s2 hres2
      split at h
      · simp at h
      · split at h
        · cases h
        · rename_i es s3 hpw
          split at h
          · cases h
          · rename_i es2 s4 hrm
            simp only [Option.some.injEq, GenResult.graph.injEq] at h
            subst h
            refine ⟨nv.toNat, rfl, ?_⟩
            intro e he
            have hmem := removeRandomEdges_subset _ _ _ _ _ hrm e he
            have hpair := pairWeights_mem _ _ _ _ hpw e hmem
            exact biPairs_mem hpair

/-- C10: every graph description the generator successfully returns, for
any requested type and any outcome of the randomness source, has vertex
sequence exactly `0, 1, ..., V-1` in order, and every edge endpoint lies
in that range. -/
theorem C10_generator_vertices_range (ty : String) (nv0 ne0 : Int)
    (s : RState) (g : GraphData)
    (hgen : make_random_graph ty nv0 ne0 s = some (.graph g)) :
    g.vertices = List.range g.vertices.length ∧
    ∀ e ∈ g.edges, e.1 < g.vertices.length ∧ e.2.1 < g.vertices.length := by
  rw [make_random_graph.eq_def] at hgen
  split at hgen
  case h_1 =>
    have hg2 : make_random_graph "any" nv0 ne0 s = some (.graph g) := by
      rw [make_random_graph]; exact hgen
    rcases mrg_any_shape hg2 with ⟨n, hv, he⟩
    refine ⟨by rw [hv, List.length_range], ?_⟩
    intro e hee
    have hb := he e hee
    rw [hv, List.length_range]
    omega
  case h_2 =>
    have hg2 : make_random_graph "complete" nv0 ne0 s = some (.graph g) := by
      rw [make_random_graph]; exact hgen
    rcases mrg_complete_shape hg2 with ⟨n, hv, he⟩
    refine ⟨by rw [hv, List.length_range], ?_⟩
    intro e hee
    have hb := he e hee
    rw [hv, List.length_range]
    omega
  case h_3 =>
    have hg2 : make_random_graph "connected" nv0 ne0 s = some (.graph g) := by
      rw [make_random_graph]; exact hgen
    rcases mrg_connected_shape hg2 with ⟨n, hv, he⟩
    refine ⟨by rw [hv, List.length_range], ?_⟩
    intro e hee
    have hb := he e hee
    rw [hv, List.length_range]
    omega
  case h_4 =>
    have hg2 : make_random_graph "acyclic" nv0 ne0 s = some (.graph g) := by
      rw [make_random_graph]; exact hgen
    rcases mrg_acyclic_shape hg2 with ⟨n, hv, _, he⟩
    refine ⟨by rw [hv, List.length_range], ?_⟩
    intro e hee
    have hb := he e hee
    rw [hv, List.length_range]
    omega
  case h_5 =>
    have hg2 : make_random_graph "tree" nv0 ne0 s = some (.graph g) := by
      rw [make_random_graph]; exact hgen
    rcases mrg_tree_shape hg2 with ⟨n, hv, _, he⟩
    refine ⟨by rw [hv, List.length_range], ?_⟩
    intro e hee
    have hb := he e hee
    rw [hv, List.length_range]
    omega
  case h_6 =>
    have hg2 : make_random_graph "bipartite" nv0 ne0 s = some (.graph g) := by
      rw [make_random_graph]; exact hgen
    rcases mrg_bipartite_shape hg2 with ⟨n, hv, he⟩
    refine ⟨by rw [hv, List.length_range], ?_⟩
    intro e hee
    have hb := he e hee
    rw [hv, List.length_range]
    omega
  case h_7 => simp at hgen

/-- Witness for C10 at a concrete generation: type "tree", five vertices,
the all-zeros stream. -/
theorem C10_generator_vertices_range_witness :
    ∃ g, make_random_graph "tree" 5 (-1) ⟨fun _ => 0, 0⟩ =
        some (.graph g) ∧
      (g.vertices = List.range g.vertices.length ∧
        ∀ e ∈ g.edges, e.1 < g.vertices.length ∧
          e.2.1 < g.vertices.length) := by
  have heval : make_random_graph "tree" 5 (-1) ⟨fun _ => 0, 0⟩ =
      some (.graph ⟨[0, 1, 2, 3, 4],
        [(0, 1, 1), (0, 2, 1), (0, 3, 1), (0, 4, 1)]⟩) := by
    simp [make_random_graph, attachEdges, randint, List.range]
    rfl
  exact ⟨_, heval, C10_generator_vertices_range "tree" 5 (-1) _ _ heval⟩

/-- C7: in every graph the "bipartite" generator returns, for any outcome
of the randomness source, every edge joins a vertex of the first half
(the first `⌊V/2⌋` declared vertices) to a vertex of the second half. -/
theorem C7_bipartite_no_edge_within_half (nv0 ne0 : Int) (s : RState)
    (g : GraphData)
    (hgen : make_random_graph "bipartite" nv0 ne0 s = some (.graph g)) :
    ∀ e ∈ g.edges, e.1 < g.vertices.length / 2 ∧
      g.vertices.length / 2 ≤ e.2.1 := by
  rcases mrg_bipartite_shape hgen with ⟨n, hv, he⟩
  intro e hee
  have hb := he e hee
  rw [hv, List.length_range]
  exact ⟨hb.1, hb.2.1⟩

/-- Witness for C7 at a concrete generation: five vertices, four edges,
the stream `n ↦ 3n+2`. -/
theorem C7_bipartite_no_edge_within_half_witness :
    ∃ g, make_random_graph "bipartite" 5 4 ⟨fun n => n * 3 + 2, 0⟩ =
        some (.graph g) ∧
      ∀ e ∈ g.edges, e.1 < g.vertices.length / 2 ∧
        g.vertices.length / 2 ≤ e.2.1 := by
  have heval : make_random_graph "bipartite" 5 4 ⟨fun n => n * 3 + 2, 0⟩ =
      some (.graph ⟨[0, 1, 2, 3, 4],
        [(0, 2, 3), (0, 3, 6), (1, 2, 12), (1, 4, 18)]⟩) := by
    simp [make_random_graph, biPairs, pairWeights, randint, removeRandomEdges,
      List.range', List.range, Int.fdiv]
    rfl
  exact ⟨_, heval, C7_bipartite_no_edge_within_half 5 4 _ _ heval⟩

/-! ### Cycle detection: equations and totality -/

lemma dfs_found {al : AL} {cur : Nat} {anc seen : List Nat}
    (hcyc : cur ∈ anc) :
    dfs al cur anc seen =
      some ((if seen.contains cur then seen else seen ++ [cur]),
        some (cur :: anc.take (anc.indexOf cur + 1))) := by
  rw [dfs]
  simp only [dif_pos hcyc]

lemma dfs_fail {al : AL} {cur : Nat} {anc seen : List Nat}
    (hcyc : cur ∉ anc) (hl : alook al cur = none) :
    dfs al cur anc seen = none := by
  rw [dfs]
  simp only [dif_neg hcyc]
  split
  · rfl
  · rename_i nbrs hl2
    rw [hl] at hl2
    cases hl2

lemma dfs_step {al : AL} {cur : Nat} {anc seen : List Nat}
    {nbrs : NdMap Int} (hcyc : cur ∉ anc) (hl : alook al cur = some nbrs) :
    dfs al cur anc seen =
      dfsList al nbrs cur anc
        (if seen.contains cur then seen else seen ++ [cur])
        (mem_alKeys_of_alook hl) hcyc := by
  rw [dfs]
  simp only [dif_neg hcyc]
  split
  · rename_i hl2
    rw [hl] at hl2
    cases hl2
  · rename_i nbrs2 hl2
    rw [hl] at hl2
    simp at hl2
    subst hl2
    rfl

lemma dfsList_nil {al : AL} {cur : Nat} {anc seen : List Nat}
    {hk : cur ∈ alKeys al} {ha : cur ∉ anc} :
    dfsList al [] cur anc seen hk ha = some (seen, none) := by
  rw [dfsList]

lemma dfsList_skip {al : AL} {cur d : Nat} {w : Int} {tl : NdMap Int}
    {anc seen : List Nat} {hk : cur ∈ alKeys al} {ha : cur ∉ anc}
    (hd : anc.head? = some d) :
    dfsList al ((d, w) :: tl) cur anc seen hk ha =
      dfsList al tl cur anc seen hk ha := by
  rw [dfsList]
  rw [if_pos hd]

lemma dfsList_go {al : AL} {cur d : Nat} {w : Int} {tl : NdMap Int}
    {anc seen : List Nat} {hk : cur ∈ alKeys al} {ha : cur ∉ anc}
    (hd : ¬ anc.head? = some d) :
    dfsList al ((d, w) :: tl) cur anc seen hk ha =
      match dfs al d (cur :: anc) seen with
      | none => none
      | some (seen2, some cyc) => some (seen2, some cyc)
      | some (seen2, none) => dfsList al tl cur anc seen2 hk ha := by
  rw [dfsList]
  rw [if_neg hd]

lemma dfs_total (al : AL)
    (hclosed : ∀ x y, ALAdj al x y → y ∈ alKeys al) :
    ∀ (cur : Nat) (anc seen : List Nat), cur ∈ alKeys al →
      ∃ r, dfs al cur anc seen = some r := by
  intro cur anc seen
  refine dfs.induct al
    (fun cur anc seen => cur ∈ alKeys al → ∃ r, dfs al cur anc seen = some r)
    (fun nbrs cur anc seen hk ha =>
      (∀ p ∈ nbrs, p.1 ∈ alKeys al) →
        ∃ r, dfsList al nbrs cur anc seen hk ha = some r)
    ?_ ?_ ?_ ?_ ?_ ?_ ?_ ?_ cur anc seen
  · intro cur anc seen hcyc _
    exact ⟨_, dfs_found hcyc⟩
  · intro cur anc seen hcyc hl hk
    rcases alook_isSome_of_mem hk with ⟨v, hv⟩
    rw [hv] at hl
    cases hl
  · intro cur anc seen seen1 hcyc nbrs hl ih hk
    rcases ih (by
      intro p hp
      exact hclosed cur p.1
        (ALAdj_of_alook hl (by unfold alKeys; exact List.mem_map_of_mem _ hp)))
      with ⟨r, hr⟩
    exact ⟨r, by rw [dfs_step hcyc hl]; exact hr⟩
  · intro cur anc seen hk ha _
    exact ⟨(seen, none), dfsList_nil⟩
  · intro cur anc seen hk ha d w tl hd ih hnb
    rcases ih (fun p hp => hnb p (by simp [hp])) with ⟨r, hr⟩
    exact ⟨r, by rw [dfsList_skip hd]; exact hr⟩
  · intro cur anc seen hk ha d w tl hd hnone ih hnb
    rcases ih (hnb (d, w) (by simp)) with ⟨r, hr⟩
    rw [hnone] at hr
    cases hr
  · intro cur anc seen hk ha d w tl hd seen2 cyc hsome ih hnb
    refine ⟨(seen2, some cyc), ?_⟩
    rw [dfsList_go hd, hsome]
  · intro cur anc seen hk ha d w tl hd seen2 hsome ih ih2 hnb
    rcases ih2 (fun p hp => hnb p (by simp [hp])) with ⟨r, hr⟩
    refine ⟨r, ?_⟩
    rw [dfsList_go hd, hsome]
    exact hr

lemma hasCycleLoop_total (al : AL)
    (hclosed : ∀ x y, ALAdj al x y → y ∈ alKeys al) :
    ∀ (roots seen : List Nat), (∀ r ∈ roots, r ∈ alKeys al) →
      ∃ r, hasCycleLoop al roots seen = some r := by
  intro roots
  induction roots with
  | nil => intro seen _; exact ⟨none, rfl⟩
  | cons r rest ih =>
    intro seen hmem
    rw [hasCycleLoop]
    by_cases hs : seen.contains r = true
    · rw [if_pos hs]
      exact ih seen (fun x hx => hmem x (by simp [hx]))
    · rw [if_neg hs]
      rcases dfs_total al hclosed r [] seen (hmem r (by simp)) with ⟨⟨s2, res⟩, hr⟩
      rw [hr]
      rcases res with _ | cyc
      · exact ih s2 (fun x hx => hmem x (by simp [hx]))
      · exact ⟨some cyc, rfl⟩

/-! ### Cycle detection: shape of a returned cycle -/

/-- The shape every cycle value returned by `dfs` has: length at least 4,
closed (first = last), simple interior, and consecutive elements adjacent
(each to its predecessor along the ancestry chain). -/
def GoodCycle (al : AL) (cyc : List Nat) : Prop :=
  4 ≤ cyc.length ∧ cyc.head? = cyc.getLast? ∧ cyc.dropLast.Nodup ∧
    List.Chain' (fun x y => ALAdj al y x) cyc

lemma not_mem_take_indexOf {l : List Nat} {x : Nat} :
    x ∉ l.take (List.indexOf x l) := by
  induction l with
  | nil => simp
  | cons a t ih =>
    by_cases hax : a = x
    · subst hax
      rw [List.indexOf_cons_self]
      simp
    · rw [List.indexOf_cons_ne _ hax]
      intro hmem
      rw [Nat.succ_eq_add_one, List.take_succ_cons] at hmem
      rcases List.mem_cons.mp hmem with h | h
      · exact hax h.symm
      · exact ih h

lemma indexOf_ge_two_of_chain {al : AL} (hirr : ∀ x, ¬ ALAdj al x x)
    {cur : Nat} {anc : List Nat}
    (hchain : List.Chain' (fun x y => ALAdj al y x) (cur :: anc))
    (htail : anc.tail.head? ≠ some cur) (hcyc : cur ∈ anc) :
    2 ≤ List.indexOf cur anc := by
  rcases anc with _ | ⟨a0, anc'⟩
  · simp at hcyc
  have hadj0 : ALAdj al a0 cur := (List.chain'_cons.mp hchain).1
  have ha0 : a0 ≠ cur := by
    intro h
    subst h
    exact hirr a0 hadj0
  rw [List.indexOf_cons_ne _ ha0]
  rcases anc' with _ | ⟨a1, t⟩
  · rcases List.mem_cons.mp hcyc with h | h
    · exact absurd h.symm ha0
    · simp at h
  · have ha1 : a1 ≠ cur := by
      intro h
      exact htail (by simp [h])
    rw [List.indexOf_cons_ne _ ha1]
    omega

lemma dfs_cycle_shape (al : AL) (hirr : ∀ x, ¬ ALAdj al x x) :
    ∀ (cur : Nat) (anc seen : List Nat),
      anc.Nodup →
      List.Chain' (fun x y => ALAdj al y x) (cur :: anc) →
      anc.tail.head? ≠ some cur →
      ∀ s2 cyc, dfs al cur anc seen = some (s2, some cyc) →
        GoodCycle al cyc := by
  intro cur anc seen
  refine dfs.induct al
    (fun cur anc seen =>
      anc.Nodup →
      List.Chain' (fun x y => ALAdj al y x) (cur :: anc) →
      anc.tail.head? ≠ some cur →
      ∀ s2 cyc, dfs al cur anc seen = some (s2, some cyc) →
        GoodCycle al cyc)
    (fun nbrs cur anc seen hk ha =>
      anc.Nodup →
      List.Chain' (fun x y => ALAdj al y x) (cur :: anc) →
      anc.tail.head? ≠ some cur →
      (∀ p ∈ nbrs, ALAdj al cur p.1) →
      ∀ s2 cyc, dfsList al nbrs cur anc seen hk ha = some (s2, some cyc) →
        GoodCycle al cyc)
    ?_ ?_ ?_ ?_ ?_ ?_ ?_ ?_ cur anc seen
  · intro cur anc seen hcyc hnd hchain htail s2 cyc h
    rw [dfs_found hcyc] at h
    simp only [Option.some.injEq, Prod.mk.injEq] at h
    obtain ⟨-, h2⟩ := h
    subst h2
    have hlt : List.indexOf cur anc < anc.length :=
      List.indexOf_lt_length.mpr hcyc
    have hget : anc.get ⟨List.indexOf cur anc, hlt⟩ = cur :=
      List.indexOf_get hlt
    have htake : anc.take (List.indexOf cur anc + 1) =
        anc.take (List.indexOf cur anc) ++ [cur] := by
      have hge : anc[List.indexOf cur anc] = cur := hget
      rw [List.take_succ, List.getElem?_eq_getElem hlt, hge]
      rfl
    have hidx2 : 2 ≤ List.indexOf cur anc :=
      indexOf_ge_two_of_chain hirr hchain htail hcyc
    have hform : cur :: anc.take (List.indexOf cur anc + 1) =
        (cur :: anc.take (List.indexOf cur anc)) ++ [cur] := by
      rw [htake]
      rfl
    refine ⟨?_, ?_, ?_, ?_⟩
    · rw [hform]
      simp only [List.length_append, List.length_cons, List.length_singleton]
      have : (anc.take (List.indexOf cur anc)).length =
          List.indexOf cur anc := by
        simp
        omega
      omega
    · rw [hform, List.getLast?_concat]
      rfl
    · rw [hform, List.dropLast_concat]
      refine List.nodup_cons.mpr ⟨not_mem_take_indexOf, ?_⟩
      exact (List.take_sublist _ _).nodup hnd
    · have : cur :: anc.take (List.indexOf cur anc + 1) =
          (cur :: anc).take (List.indexOf cur anc + 2) := by
        rw [List.take_succ_cons]
      rw [this]
      exact hchain.prefix (List.take_prefix _ _)
  · intro cur anc seen hcyc hl hnd hchain htail s2 cyc h
    rw [dfs_fail hcyc hl] at h
    cases h
  · intro cur anc seen seen1 hcyc nbrs hl ih hnd hchain htail s2 cyc h
    rw [dfs_step hcyc hl] at h
    exact ih hnd hchain htail
      (fun p hp => ALAdj_of_alook hl (List.mem_map_of_mem _ hp)) s2 cyc h
  · intro cur anc seen hk ha hnd hchain htail hnb s2 cyc h
    rw [dfsList_nil] at h
    simp at h
  · intro cur anc seen hk ha d w tl hd ih hnd hchain htail hnb s2 cyc h
    rw [dfsList_skip hd] at h
    exact ih hnd hchain htail (fun p hp => hnb p (by simp [hp])) s2 cyc h
  · intro cur anc seen hk ha d w tl hd hnone ih hnd hchain htail hnb s2 cyc h
    rw [dfsList_go hd, hnone] at h
    cases h
  · intro cur anc seen hk ha d w tl hd seen2 cyc0 hsome ih hnd hchain htail
      hnb s2 cyc h
    rw [dfsList_go hd, hsome] at h
    simp only [Option.some.injEq, Prod.mk.injEq] at h
    obtain ⟨-, h2⟩ := h
    subst h2
    refine ih ?_ ?_ ?_ seen2 cyc0 hsome
    · exact List.nodup_cons.mpr ⟨ha, hnd⟩
    · exact List.chain'_cons.mpr ⟨hnb (d, w) (by simp), hchain⟩
    · simpa using hd
  · intro cur anc seen hk ha d w tl hd seen2 hsome ih ih2 hnd hchain htail
      hnb s2 cyc h
    rw [dfsList_go hd, hsome] at h
    exact ih2 hnd hchain htail (fun p hp => hnb p (by simp [hp])) s2 cyc h

lemma hasCycleLoop_shape (al : AL) (hirr : ∀ x, ¬ ALAdj al x x) :
    ∀ (roots seen : List Nat) (cyc : List Nat),
      hasCycleLoop al roots seen = some (some cyc) →
      GoodCycle al cyc := by
  intro roots
  induction roots with
  | nil =>
    intro seen cyc h
    rw [hasCycleLoop] at h
    simp at h
  | cons r rest ih =>
    intro seen cyc h
    rw [hasCycleLoop] at h
    by_cases hs : seen.contains r = true
    · rw [if_pos hs] at h
      exact ih seen cyc h
    · rw [if_neg hs] at h
      rcases hr : dfs al r [] seen with _ | ⟨s2, res⟩
      · rw [hr] at h
        cases h
      · rw [hr] at h
        rcases res with _ | cyc0
        · exact ih s2 cyc h
        · simp only [Option.some.injEq] at h
          subst h
          exact dfs_cycle_shape al hirr r [] seen (by simp) (by simp)
            (by simp) s2 cyc0 hr

/-! ### Cycle detection: a triangle is never missed -/

lemma dfs_none_entry {al : AL} {cur : Nat} {anc seen s2 : List Nat}
    (h : dfs al cur anc seen = some (s2, none)) : cur ∉ anc := by
  intro hcyc
  rw [dfs_found hcyc] at h
  simp at h

lemma dfs_none_dfsList {al : AL} {cur : Nat} {anc seen s2 : List Nat}
    (h : dfs al cur anc seen = some (s2, none)) :
    ∃ (nbrs : NdMap Int) (hk : cur ∈ alKeys al) (ha : cur ∉ anc),
      alook al cur = some nbrs ∧
      dfsList al nbrs cur anc
        (if seen.contains cur then seen else seen ++ [cur]) hk ha =
        some (s2, none) := by
  have ha := dfs_none_entry h
  rcases hl : alook al cur with _ | nbrs
  · rw [dfs_fail ha hl] at h
    cases h
  · refine ⟨nbrs, mem_alKeys_of_alook hl, ha, rfl, ?_⟩
    rw [← dfs_step ha hl]
    exact h

lemma dfsList_none_nbr (al : AL) :
    ∀ (nbrs : NdMap Int) (cur : Nat) (anc seen : List Nat)
      (hk : cur ∈ alKeys al) (ha : cur ∉ anc) (s2 : List Nat),
      dfsList al nbrs cur anc seen hk ha = some (s2, none) →
      ∀ d w, (d, w) ∈ nbrs → anc.head? ≠ some d →
        ∃ sa sb, dfs al d (cur :: anc) sa = some (sb, none) := by
  intro nbrs
  induction nbrs with
  | nil =>
    intro cur anc seen hk ha s2 h d w hmem
    simp at hmem
  | cons p tl ih =>
    obtain ⟨d0, w0⟩ := p
    intro cur anc seen hk ha s2 h d w hmem hne
    by_cases hd : anc.head? = some d0
    · rw [dfsList_skip hd] at h
      rcases List.mem_cons.mp hmem with heq | hmem2
      · simp at heq
        obtain ⟨rfl, rfl⟩ := heq
        exact absurd hd hne
      · exact ih cur anc seen hk ha s2 h d w hmem2 hne
    · rcases hr : dfs al d0 (cur :: anc) seen with _ | ⟨seen2, res⟩
      · rw [dfsList_go hd, hr] at h
        cases h
      · rcases res with _ | cyc
        · rw [dfsList_go hd, hr] at h
          replace h : dfsList al tl cur anc seen2 hk ha = some (s2, none) := h
          rcases List.mem_cons.mp hmem with heq | hmem2
          · simp at heq
            obtain ⟨rfl, rfl⟩ := heq
            exact ⟨seen, seen2, hr⟩
          · exact ih cur anc seen2 hk ha s2 h d w hmem2 hne
        · rw [dfsList_go hd, hr] at h
          simp at h

lemma dfs_none_nbr {al : AL} {cur : Nat} {anc seen s2 : List Nat}
    (h : dfs al cur anc seen = some (s2, none)) {d : Nat}
    (hadj : ALAdj al cur d) (hne : anc.head? ≠ some d) :
    ∃ sa sb, dfs al d (cur :: anc) sa = some (sb, none) := by
  rcases dfs_none_dfsList h with ⟨nbrs, hk, ha, hl, hlist⟩
  rcases alook_of_ALAdj hadj with ⟨nbrs2, hl2, hdm⟩
  rw [hl] at hl2
  injection hl2 with hl2
  subst hl2
  unfold alKeys at hdm
  obtain ⟨⟨d1, w⟩, hp, hpd⟩ := List.mem_map.mp hdm
  have hpd2 : d1 = d := hpd
  subst hpd2
  exact dfsList_none_nbr al nbrs cur anc _ _ _ s2 hlist d1 w hp hne

lemma triangle_no_dfs_none (al : AL) {a b c : Nat}
    (hab : a ≠ b) (hac : a ≠ c) (hbc : b ≠ c)
    (eab : ALAdj al a b) (ebc : ALAdj al b c) (eac : ALAdj al a c)
    (hsym : ∀ x y, ALAdj al x y → ALAdj al y x)
    (anc sa sb : List Nat) :
    dfs al a anc sa ≠ some (sb, none) := by
  intro h
  have key : ∀ y z : Nat, y ≠ a → z ≠ a → y ≠ z →
      ALAdj al a y → ALAdj al y z → ALAdj al z a →
      anc.head? ≠ some y → False := by
    intro y z hya hza hyz hay hyzadj hzaadj hhead
    rcases dfs_none_nbr h hay hhead with ⟨sa1, sb1, h1⟩
    rcases dfs_none_nbr h1 hyzadj
      (by intro he; exact hza (Option.some.inj he).symm) with ⟨sa2, sb2, h2⟩
    rcases dfs_none_nbr h2 hzaadj
      (by intro he; exact hya (Option.some.inj he)) with ⟨sa3, sb3, h3⟩
    have hnm := dfs_none_entry h3
    exact hnm (by simp)
  by_cases hb : anc.head? = some b
  · exact key c b (Ne.symm hac) (Ne.symm hab) (Ne.symm hbc)
      eac (hsym b c ebc) (hsym a b eab)
      (by rw [hb]; intro he; exact hbc (Option.some.inj he))
  · exact key b c (Ne.symm hab) (Ne.symm hac) hbc
      eab ebc (hsym a c eac) hb

lemma dfs_none_seen (al : AL) :
    ∀ (cur : Nat) (anc seen : List Nat) (s2 : List Nat),
      dfs al cur anc seen = some (s2, none) →
      ∀ x ∈ s2, x ∈ seen ∨
        ∃ anc2 sa2 sb2, dfs al x anc2 sa2 = some (sb2, none) := by
  intro cur anc seen
  refine dfs.induct al
    (fun cur anc seen => ∀ s2, dfs al cur anc seen = some (s2, none) →
      ∀ x ∈ s2, x ∈ seen ∨
        ∃ anc2 sa2 sb2, dfs al x anc2 sa2 = some (sb2, none))
    (fun nbrs cur anc seen hk ha => ∀ s2,
      dfsList al nbrs cur anc seen hk ha = some (s2, none) →
      ∀ x ∈ s2, x ∈ seen ∨
        ∃ anc2 sa2 sb2, dfs al x anc2 sa2 = some (sb2, none))
    ?_ ?_ ?_ ?_ ?_ ?_ ?_ ?_ cur anc seen
  · intro cur anc seen hcyc s2 h
    rw [dfs_found hcyc] at h
    simp at h
  · intro cur anc seen hcyc hl s2 h
    rw [dfs_fail hcyc hl] at h
    cases h
  · intro cur anc seen seen1 hcyc nbrs hl ih s2 h
    have horig := h
    rw [dfs_step hcyc hl] at h
    intro x hx
    rcases ih s2 h x hx with hm | hp
    · have hm2 : x ∈ (if seen.contains cur then seen else seen ++ [cur]) := hm
      by_cases hc : seen.contains cur
      · rw [if_pos hc] at hm2
        exact Or.inl hm2
      · rw [if_neg hc] at hm2
        rcases List.mem_append.mp hm2 with hm3 | hm3
        · exact Or.inl hm3
        · simp at hm3
          subst hm3
          exact Or.inr ⟨anc, seen, s2, horig⟩
    · exact Or.inr hp
  · intro cur anc seen hk ha s2 h
    rw [dfsList_nil] at h
    simp only [Option.some.injEq, Prod.mk.injEq] at h
    obtain ⟨rfl, -⟩ := h
    exact fun x hx => Or.inl hx
  · intro cur anc seen hk ha d w tl hd ih s2 h
    rw [dfsList_skip hd] at h
    exact ih s2 h
  · intro cur anc seen hk ha d w tl hd hnone ih s2 h
    rw [dfsList_go hd, hnone] at h
    cases h
  · intro cur anc seen hk ha d w tl hd seen2 cyc hsome ih s2 h
    rw [dfsList_go hd, hsome] at h
    simp at h
  · intro cur anc seen hk ha d w tl hd seen2 hsome ih ih2 s2 h
    rw [dfsList_go hd, hsome] at h
    replace h : dfsList al tl cur anc seen2 hk ha = some (s2, none) := h
    intro x hx
    rcases ih2 s2 h x hx with hm | hp
    · exact ih seen2 hsome x hm
    · exact Or.inr hp

lemma hasCycleLoop_none_roots (al : AL) :
    ∀ (roots seen : List Nat),
      hasCycleLoop al roots seen = some none →
      (∀ x ∈ seen, ∃ anc sa sb, dfs al x anc sa = some (sb, none)) →
      ∀ a ∈ roots, ∃ anc sa sb, dfs al a anc sa = some (sb, none) := by
  intro roots
  induction roots with
  | nil =>
    intro seen h hseen a ha
    simp at ha
  | cons r rest ih =>
    intro seen h hseen a ha
    rw [hasCycleLoop] at h
    by_cases hs : seen.contains r = true
    · rw [if_pos hs] at h
      rcases List.mem_cons.mp ha with rfl | ha2
      · exact hseen a (by simpa [List.contains, List.elem_iff] using hs)
      · exact ih seen h hseen a ha2
    · rw [if_neg hs] at h
      rcases hr : dfs al r [] seen with _ | ⟨s2, res⟩
      · rw [hr] at h
        cases h
      · rcases res with _ | cyc
        · rw [hr] at h
          replace h : hasCycleLoop al rest s2 = some none := h
          have hseen2 : ∀ x ∈ s2,
              ∃ anc sa sb, dfs al x anc sa = some (sb, none) := by
            intro x hx
            rcases dfs_none_seen al r [] seen s2 hr x hx with hm | hp
            · exact hseen x hm
            · exact hp
          rcases List.mem_cons.mp ha with rfl | ha2
          · exact ⟨[], seen, s2, hr⟩
          · exact ih s2 h hseen2 a ha2
        · rw [hr] at h
          simp at h

lemma edgeAdj_symm {g : GraphData} {x y : Nat} (h : EdgeAdj g x y) :
    EdgeAdj g y x := by
  rcases h with ⟨w, h | h⟩
  · exact ⟨w, Or.inr h⟩
  · exact ⟨w, Or.inl h⟩

/-- C4: on every well-formed simple graph description containing a
3-cycle (three pairwise distinct, pairwise adjacent vertices), the
`has_cycle` analysis returns a non-false ordered vertex sequence that is
a closed walk: its first and last elements are equal, consecutive
elements are adjacent in the graph, and its length is at least 4. -/
theorem C4_has_cycle_triangle (g : GraphData) (hsg : SimpleGraph' g)
    (a b c : Nat) (hab : a ≠ b) (hac : a ≠ c) (hbc : b ≠ c)
    (eab : EdgeAdj g a b) (ebc : EdgeAdj g b c) (eac : EdgeAdj g a c) :
    ∃ cyc, analyze_graph "has_cycle" none g =
        some (.hasCycle (some cyc)) ∧
      4 ≤ cyc.length ∧ cyc.head? = cyc.getLast? ∧
      List.Chain' (fun x y => EdgeAdj g x y) cyc := by
  have hwf := hsg.1
  rcases buildAL_wf g hwf with ⟨al, hb, hkeys, hAdj⟩
  have hirr : ∀ x, ¬ ALAdj al x x := by
    intro x hx
    rcases (hAdj x x).mp hx with ⟨w, h | h⟩
    · exact hsg.2.1 _ h rfl
    · exact hsg.2.1 _ h rfl
  have hsym : ∀ x y, ALAdj al x y → ALAdj al y x := by
    intro x y h
    exact (hAdj y x).mpr (edgeAdj_symm ((hAdj x y).mp h))
  have hclosed : ∀ x y, ALAdj al x y → y ∈ alKeys al := by
    intro x y h
    rcases (hAdj x y).mp h with ⟨w, h2 | h2⟩
    · rw [hkeys]
      exact (hwf.2 _ h2).2
    · rw [hkeys]
      exact (hwf.2 _ h2).1
  have hav : a ∈ g.vertices := by
    rcases eab with ⟨w, h | h⟩
    · exact (hwf.2 _ h).1
    · exact (hwf.2 _ h).2
  rcases hasCycleLoop_total al hclosed g.vertices []
    (by rw [hkeys]; exact fun r hr => hr) with ⟨res, hres⟩
  rcases res with _ | cyc
  · exfalso
    rcases hasCycleLoop_none_roots al g.vertices [] hres
      (by intro x hx; simp at hx) a hav with ⟨anc, sa, sb, hd⟩
    exact triangle_no_dfs_none al hab hac hbc
      ((hAdj a b).mpr eab) ((hAdj b c).mpr ebc) ((hAdj a c).mpr eac)
      hsym anc sa sb hd
  · obtain ⟨hlen, hclose, hnd, hchain⟩ :=
      hasCycleLoop_shape al hirr g.vertices [] cyc hres
    refine ⟨cyc, ?_, hlen, hclose, ?_⟩
    · simp only [analyze_graph, hb, hres]
    · refine hchain.imp ?_
      intro x y h
      exact edgeAdj_symm ((hAdj y x).mp h)

/-- Witness for C4: the triangle on `{0,1,2}` satisfies all hypotheses
and therefore gets a closed cycle of length at least 4. -/
theorem C4_has_cycle_triangle_witness :
    ∃ cyc,
      analyze_graph "has_cycle" none
          ⟨[0, 1, 2], [(0, 1, 1), (1, 2, 1), (0, 2, 1)]⟩ =
        some (.hasCycle (some cyc)) ∧
      4 ≤ cyc.length ∧ cyc.head? = cyc.getLast? ∧
      List.Chain'
        (fun x y =>
          EdgeAdj ⟨[0, 1, 2], [(0, 1, 1), (1, 2, 1), (0, 2, 1)]⟩ x y)
        cyc :=
  C4_has_cycle_triangle ⟨[0, 1, 2], [(0, 1, 1), (1, 2, 1), (0, 2, 1)]⟩
    (by
      refine ⟨⟨by decide, by decide⟩, by decide, ?_⟩
      intro i j hi hj hne
      have hi3 : i < 3 := by simpa using hi
      have hj3 : j < 3 := by simpa using hj
      interval_cases i <;> interval_cases j <;> revert hne <;> simp)
    0 1 2 (by decide) (by decide) (by decide)
    ⟨1, Or.inl (by simp)⟩ ⟨1, Or.inl (by simp)⟩ ⟨1, Or.inl (by simp)⟩

/-! ### C6: generated trees and acyclic graphs have no cycle -/

/-- In a graph whose edges all go from a smaller to a larger vertex and
whose larger endpoints are pairwise distinct (a parent forest), no closed
walk of length at least 4 with simple interior exists. -/
lemma forest_no_good_cycle {g : GraphData}
    (hsec : (g.edges.map (fun e => e.2.1)).Nodup)
    (hlt : ∀ e ∈ g.edges, e.1 < e.2.1)
    (cyc : List Nat) (hlen : 4 ≤ cyc.length)
    (hclose : cyc.head? = cyc.getLast?)
    (hnd : cyc.dropLast.Nodup)
    (hchain : List.Chain' (fun x y => EdgeAdj g x y) cyc) :
    False := by
  have huniq : ∀ p q m : Nat, EdgeAdj g p m → EdgeAdj g q m →
      p < m → q < m → p = q := by
    intro p q m hp hq hpm hqm
    rcases hp with ⟨w1, hp | hp⟩
    · rcases hq with ⟨w2, hq | hq⟩
      · have := List.inj_on_of_nodup_map hsec hp hq rfl
        exact congrArg (fun e => e.1) this
      · have := hlt _ hq
        simp only at this
        omega
    · have := hlt _ hp
      simp only at this
      omega
  have hklen : cyc.dropLast.length = cyc.length - 1 :=
    List.length_dropLast cyc
  have hadj2 : ∀ (i j : Nat) (hi2 : i < cyc.length) (hj2 : j < cyc.length),
      j = i + 1 → EdgeAdj g cyc[i] cyc[j] := by
    intro i j hi2 hj2 hij
    subst hij
    have := List.chain'_iff_get.mp hchain i (by omega)
    simpa [List.get_eq_getElem] using this
  have hys : ∀ (j : Nat) (h : j < cyc.dropLast.length),
      cyc.dropLast[j] = cyc[j] :=
    fun j h => List.getElem_dropLast cyc j h
  have hdistinct : ∀ (p q : Nat) (hp : p < cyc.dropLast.length)
      (hq : q < cyc.dropLast.length),
      cyc.dropLast[p] = cyc.dropLast[q] → p = q := by
    intro p q hp hq he
    have h2 : (⟨p, hp⟩ : Fin cyc.dropLast.length) = ⟨q, hq⟩ :=
      (hnd.get_inj_iff).mp (by simpa using he)
    exact congrArg Fin.val h2
  have h0 : 0 < cyc.length := by omega
  have hL1 : cyc.length - 1 < cyc.length := by omega
  have hce : cyc[0] = cyc[cyc.length - 1] := by
    rw [List.head?_eq_getElem?, List.getLast?_eq_getElem?,
      List.getElem?_eq_getElem h0, List.getElem?_eq_getElem hL1] at hclose
    exact Option.some.inj hclose
  rcases hmax : cyc.dropLast.maximum with _ | m
  · have hnil : cyc.dropLast = [] := List.maximum_eq_bot.mp hmax
    rw [hnil] at hklen
    simp at hklen
    omega
  · have hm_mem : m ∈ cyc.dropLast := List.maximum_mem hmax
    have hmax_le : ∀ x ∈ cyc.dropLast, x ≤ m :=
      fun x hx => List.le_maximum_of_mem hx hmax
    rcases List.mem_iff_get.mp hm_mem with ⟨⟨i, hi⟩, hgi⟩
    have hgim : cyc.dropLast[i] = m := hgi
    have hiL : i < cyc.length := by omega
    have hmc : cyc[i] = m := (hys i hi).symm.trans hgim
    have final : ∀ (p q : Nat) (hp : p < cyc.dropLast.length)
        (hq : q < cyc.dropLast.length),
        p ≠ q → p ≠ i → q ≠ i →
        EdgeAdj g cyc.dropLast[p] m → EdgeAdj g cyc.dropLast[q] m →
        False := by
      intro p q hp hq hpq hpi hqi hpe hqe
      have hpm : cyc.dropLast[p] ≤ m := hmax_le _ (List.get_mem _ p hp)
      have hqm : cyc.dropLast[q] ≤ m := hmax_le _ (List.get_mem _ q hq)
      have hpmne : cyc.dropLast[p] ≠ m := fun he =>
        hpi (hdistinct p i hp hi (he.trans hgim.symm))
      have hqmne : cyc.dropLast[q] ≠ m := fun he =>
        hqi (hdistinct q i hq hi (he.trans hgim.symm))
      have heq := huniq _ _ m hpe hqe
        (lt_of_le_of_ne hpm hpmne) (lt_of_le_of_ne hqm hqmne)
      exact hpq (hdistinct p q hp hq heq)
    by_cases hi0 : i = 0
    · subst hi0
      have hpa := hadj2 (cyc.length - 2) (cyc.length - 1)
        (by omega) (by omega) (by omega)
      rw [← hce, hmc] at hpa
      have hna := hadj2 0 1 (by omega) (by omega) rfl
      rw [hmc] at hna
      refine final (cyc.length - 2) 1 (by omega) (by omega)
        (by omega) (by omega) (by omega) ?_ ?_
      · rw [hys _ (by omega)]
        exact hpa
      · rw [hys _ (by omega)]
        exact edgeAdj_symm hna
    · by_cases hik : i = cyc.length - 2
      · have hpa := hadj2 (i - 1) i (by omega) (by omega) (by omega)
        rw [hmc] at hpa
        have hna := hadj2 i (cyc.length - 1) (by omega) (by omega) (by omega)
        rw [← hce, hmc] at hna
        refine final (i - 1) 0 (by omega) (by omega)
          (by omega) (by omega) (by omega) ?_ ?_
        · rw [hys _ (by omega)]
          exact hpa
        · rw [hys _ (by omega)]
          exact edgeAdj_symm hna
      · have hpa := hadj2 (i - 1) i (by omega) (by omega) (by omega)
        rw [hmc] at hpa
        have hna := hadj2 i (i + 1) (by omega) (by omega) rfl
        rw [hmc] at hna
        refine final (i - 1) (i + 1) (by omega) (by omega)
          (by omega) (by omega) (by omega) ?_ ?_
        · rw [hys _ (by omega)]
          exact hpa
        · rw [hys _ (by omega)]
          exact edgeAdj_symm hna

/-- C6: every graph the generator produces with type "acyclic" or type
"tree" (over every outcome of the randomness source) is reported
cycle-free by the `has_cycle` analysis. -/
theorem C6_generated_acyclic_tree_no_cycle (ty : String)
    (hty : ty = "acyclic" ∨ ty = "tree") (nv0 ne0 : Int) (s : RState)
    (g : GraphData)
    (hgen : make_random_graph ty nv0 ne0 s = some (.graph g)) :
    analyze_graph "has_cycle" none g = some (.hasCycle none) := by
  have hshape : ∃ n : Nat, g.vertices = List.range n ∧
      (g.edges.map (fun e => e.2.1)).Nodup ∧
      ∀ e ∈ g.edges, e.1 < e.2.1 ∧ e.2.1 < n := by
    rcases hty with rfl | rfl
    · exact mrg_acyclic_shape hgen
    · exact mrg_tree_shape hgen
  rcases hshape with ⟨n, hverts, hsec, hlt⟩
  have hwf : WellFormed g := by
    constructor
    · rw [hverts]
      exact List.nodup_range n
    · intro e he
      rcases hlt e he with ⟨h1, h2⟩
      rw [hverts]
      exact ⟨List.mem_range.mpr (by omega), List.mem_range.mpr h2⟩
  rcases buildAL_wf g hwf with ⟨al, hb, hkeys, hAdj⟩
  have hclosed : ∀ x y, ALAdj al x y → y ∈ alKeys al := by
    intro x y h
    rcases (hAdj x y).mp h with ⟨w, h2 | h2⟩
    · rw [hkeys]
      exact (hwf.2 _ h2).2
    · rw [hkeys]
      exact (hwf.2 _ h2).1
  rcases hasCycleLoop_total al hclosed g.vertices []
    (by rw [hkeys]; exact fun r hr => hr) with ⟨res, hres⟩
  rcases res with _ | cyc
  · simp only [analyze_graph, hb, hres]
  · exfalso
    have hirr : ∀ x, ¬ ALAdj al x x := by
      intro x hx
      rcases (hAdj x x).mp hx with ⟨w, h | h⟩
      · have := (hlt _ h).1
        simp only at this
        omega
      · have := (hlt _ h).1
        simp only at this
        omega
    obtain ⟨hlen4, hclose, hnd, hchain⟩ :=
      hasCycleLoop_shape al hirr g.vertices [] cyc hres
    exact forest_no_good_cycle hsec (fun e he => (hlt e he).1) cyc hlen4
      hclose hnd
      (hchain.imp (fun x y h => edgeAdj_symm ((hAdj y x).mp h)))

/-- Witness for C6: a concrete tree generation (five vertices, default
edge count, the all-zero stream) whose graph `has_cycle` reports false. -/
theorem C6_generated_acyclic_tree_no_cycle_witness :
    ∃ g, make_random_graph "tree" 5 (-1) ⟨fun _ => 0, 0⟩ =
        some (.graph g) ∧
      analyze_graph "has_cycle" none g = some (.hasCycle none) := by
  have heval : make_random_graph "tree" 5 (-1) ⟨fun _ => 0, 0⟩ =
      some (.graph ⟨[0, 1, 2, 3, 4],
        [(0, 1, 1), (0, 2, 1), (0, 3, 1), (0, 4, 1)]⟩) := by
    simp [make_random_graph, attachEdges, randint, List.range]
    rfl
  exact ⟨_, heval,
    C6_generated_acyclic_tree_no_cycle "tree" (Or.inr rfl) 5 (-1) _ _ heval⟩

/-! ### C3: totality of the generator on feasible requests -/

lemma randint_isSome {lo hi : Int} (h : lo ≤ hi) (s : RState) :
    ∃ v s1, randint lo hi s = some (v, s1) := by
  refine ⟨lo + (s.stream s.idx : Int) % (hi - lo + 1),
    ⟨s.stream, s.idx + 1⟩, ?_⟩
  unfold randint
  rw [if_neg (by omega)]

lemma validate_none_facts {ty : String} {v e : Int}
    (h : validate_parameters ty v e = none) :
    (v = -1 ∨ 1 ≤ v) ∧ (e = -1 ∨ 0 ≤ e) ∧ (e ≠ -1 → v ≠ -1) := by
  unfold validate_parameters at h
  split at h
  · cases h
  · split at h
    · cases h
    · split at h
      · cases h
      · split at h
        · cases h
        · rename_i h1 h2 h3 h4
          exact ⟨by omega, by omega, by omega⟩

lemma validate_none_ty {ty : String} {v e : Int}
    (h : validate_parameters ty v e = none) :
    ty = "any" ∨ ty = "complete" ∨ ty = "connected" ∨ ty = "acyclic" ∨
      ty = "tree" ∨ ty = "bipartite" := by
  unfold validate_parameters at h
  split at h
  · cases h
  · rename_i hc
    cases hb : List.contains ["any", "complete", "connected", "acyclic",
        "tree", "bipartite"] ty with
    | false =>
      rw [hb] at hc
      simp at hc
    | true =>
      have hmem : ty ∈ ["any", "complete", "connected", "acyclic", "tree",
          "bipartite"] := by
        rw [← List.elem_iff]
        exact hb
      simpa using hmem

lemma allPairs_mem_of_lt {n a b : Nat} (hab : a < b) (hbn : b < n) :
    (a, b) ∈ allPairs n := by
  unfold allPairs
  rw [List.mem_flatMap]
  refine ⟨a, List.mem_range.mpr (by omega), ?_⟩
  rw [List.mem_map]
  refine ⟨b, ?_, rfl⟩
  rw [List.mem_range'_1]
  omega

lemma allPairs_length (n : Nat) : 2 * (allPairs n).length = n * (n - 1) := by
  unfold allPairs
  rw [List.length_flatMap]
  have hb : (List.map (List.length ∘ fun a =>
        (List.range' (a + 1) (n - (a + 1))).map (fun b => (a, b)))
        (List.range n)).sum =
      ((List.range n).map (fun a => n - (a + 1))).sum := by
    congr 1
    apply List.map_congr_left
    intro a _
    simp [Function.comp]
  rw [hb]
  have hbridge : ((List.range n).map (fun a => n - (a + 1))).sum =
      ∑ i ∈ Finset.range n, (n - (i + 1)) := rfl
  rw [hbridge]
  have hr : ∑ i ∈ Finset.range n, (n - (i + 1)) =
      ∑ i ∈ Finset.range n, i := by
    have hcongr : ∑ i ∈ Finset.range n, (n - (i + 1)) =
        ∑ i ∈ Finset.range n, (n - 1 - i) := by
      apply Finset.sum_congr rfl
      intro i _
      omega
    rw [hcongr]
    exact Finset.sum_range_reflect (fun j => j) n
  rw [hr, mul_comm]
  exact Finset.sum_range_id_mul_two n

lemma fdiv_allPairs (n : Nat) :
    Int.fdiv ((n : Int) * ((n : Int) - 1)) 2 = ((allPairs n).length : Int) := by
  have h2 : 2 * (allPairs n).length = n * (n - 1) := allPairs_length n
  have hcast : (n : Int) * ((n : Int) - 1) =
      (2 : Int) * ((allPairs n).length : Int) := by
    rcases Nat.eq_zero_or_pos n with rfl | hn
    · have h0 : (allPairs 0).length = 0 := by
        have := allPairs_length 0
        omega
      rw [h0]
      norm_num
    · have h1 : ((n : Int) - 1) = ((n - 1 : Nat) : Int) := by omega
      rw [h1, ← Nat.cast_mul, ← h2]
      push_cast
      ring
  rw [hcast, Int.mul_fdiv_cancel_left _ (by norm_num)]

lemma pairWeights_step {a b : Nat} {tl : List (Nat × Nat)} {s s1 : RState}
    {w : Int} (hri : randint 1 100 s = some (w, s1)) :
    pairWeights ((a, b) :: tl) s =
      match pairWeights tl s1 with
      | none => none
      | some (es, s2) => some ((a, b, w) :: es, s2) := by
  rw [pairWeights]
  split
  · rename_i h2
    rw [hri] at h2
    cases h2
  · rename_i w2 s12 h2
    rw [hri] at h2
    simp at h2
    obtain ⟨rfl, rfl⟩ := h2
    rfl

lemma pairWeights_total :
    ∀ (pairs : List (Nat × Nat)) (s : RState),
      ∃ es s2, pairWeights pairs s = some (es, s2) := by
  intro pairs
  induction pairs with
  | nil =>
    intro s
    exact ⟨[], s, by rw [pairWeights]⟩
  | cons p tl ih =>
    intro s
    obtain ⟨a, b⟩ := p
    rcases randint_isSome (by norm_num : (1 : Int) ≤ 100) s with ⟨w, s1, hri⟩
    rcases ih s1 with ⟨es, s2, hes⟩
    refine ⟨(a, b, w) :: es, s2, ?_⟩
    rw [pairWeights_step hri, hes]

lemma pairWeights_covers :
    ∀ (pairs : List (Nat × Nat)) (s : RState) (es : List (Nat × Nat × Int))
      (s2 : RState), pairWeights pairs s = some (es, s2) →
      ∀ p ∈ pairs, ∃ w, (p.1, p.2, w) ∈ es := by
  intro pairs
  induction pairs with
  | nil =>
    intro s es s2 h p hp
    simp at hp
  | cons q tl ih =>
    intro s es s2 h p hp
    rcases q with ⟨a, b⟩
    rw [pairWeights] at h
    split at h
    · cases h
    · rename_i w s1 heq
      split at h
      · cases h
      · rename_i es1 s3 heq2
        simp only [Option.some.injEq, Prod.mk.injEq] at h
        obtain ⟨h1, -⟩ := h
        subst h1
        rcases List.mem_cons.mp hp with heqp | hmem
        · subst heqp
          exact ⟨w, by simp⟩
        · rcases ih s1 es1 s3 heq2 p hmem with ⟨w2, hw2⟩
          exact ⟨w2, by simp [hw2]⟩

lemma pairWeights_length :
    ∀ (pairs : List (Nat × Nat)) (s : RState) (es : List (Nat × Nat × Int))
      (s2 : RState), pairWeights pairs s = some (es, s2) →
      es.length = pairs.length := by
  intro pairs
  induction pairs with
  | nil =>
    intro s es s2 h
    rw [pairWeights] at h
    simp at h
    rw [h.1]
    rfl
  | cons q tl ih =>
    intro s es s2 h
    rcases q with ⟨a, b⟩
    rw [pairWeights] at h
    split at h
    · cases h
    · rename_i w s1 heq
      split at h
      · cases h
      · rename_i es1 s3 heq2
        simp only [Option.some.injEq, Prod.mk.injEq] at h
        rw [← h.1]
        simp [ih s1 es1 s3 heq2]

lemma removeRandomEdges_total (target : Int) (htarget : 0 ≤ target) :
    ∀ (edges : List (Nat × Nat × Int)) (s : RState),
      ∃ es2 s2, removeRandomEdges target edges s = some (es2, s2) := by
  intro edges s
  induction edges, s using removeRandomEdges.induct target with
  | case1 edges s hgt heq =>
    exfalso
    unfold randint at heq
    rw [if_neg (by omega)] at heq
    cases heq
  | case2 edges s hgt i s1 heq ih =>
    rcases ih with ⟨es2, s2, h⟩
    exact ⟨es2, s2, by rw [removeRandomEdges_step hgt heq]; exact h⟩
  | case3 edges s hle =>
    exact ⟨edges, s, removeRandomEdges_done hle⟩

lemma attachEdges_total (lo : Nat) :
    ∀ (i stop : Nat) (edges : List (Nat × Nat × Int)) (s : RState),
      lo < i →
      ∃ es s2, attachEdges lo i stop edges s = some (es, s2) := by
  intro i stop edges s
  induction i, stop, edges, s using attachEdges.induct lo with
  | case1 i stop edges s hlt heq =>
    intro hi
    exfalso
    unfold randint at heq
    rw [if_neg (by omega)] at heq
    cases heq
  | case2 i stop edges s hlt p s1 heq hw =>
    intro hi
    exfalso
    unfold randint at hw
    rw [if_neg (by omega)] at hw
    cases hw
  | case3 i stop edges s hlt p s1 heq w s3 hw ih =>
    intro hi
    rcases ih (by omega) with ⟨es, s2, h⟩
    exact ⟨es, s2, by rw [attachEdges_step hlt heq hw]; exact h⟩
  | case4 i stop edges s hge =>
    intro hi
    exact ⟨edges, s, attachEdges_done hge⟩

lemma sporePhase_total (nvN scN : Nat) :
    ∀ (spore offset : Nat) (edges : List (Nat × Nat × Int)) (s : RState),
      ∃ es s2, sporePhase nvN scN spore offset edges s = some (es, s2) := by
  intro spore offset edges s
  induction spore, offset, edges, s using sporePhase.induct nvN scN with
  | case1 spore offset edges s hlt nsv heq =>
    exfalso
    rcases attachEdges_total offset (offset + 1) (offset + nsv) edges s
      (by omega) with ⟨es2, s2, h2⟩
    rw [h2] at heq
    cases heq
  | case2 spore offset edges s hlt nsv edges2 s1 heq ih =>
    rcases ih with ⟨es, s2, h⟩
    exact ⟨es, s2, by rw [sporePhase_step hlt heq]; exact h⟩
  | case3 spore offset edges s hge =>
    exact ⟨edges, s, sporePhase_done hge⟩

lemma treePhase_total (nv : Nat) :
    ∀ (i : Nat) (edges remaining : List (Nat × Nat × Int)) (s : RState),
      1 ≤ i →
      (∀ a b : Nat, a < b → b < nv → i ≤ b → ∃ w, (a, b, w) ∈ remaining) →
      ∃ es rem2 s2, treePhase nv i edges remaining s = some (es, rem2, s2) := by
  intro i edges remaining s
  induction i, edges, remaining, s using treePhase.induct nv with
  | case1 i edges remaining s hlt heq =>
    intro hi hinv
    exfalso
    unfold randint at heq
    rw [if_neg (by omega)] at heq
    cases heq
  | case2 i edges remaining s hlt other s1 heq hfind =>
    intro hi hinv
    exfalso
    have hb := randint_bounds heq
    rcases hinv other.toNat i (by omega) hlt le_rfl with ⟨w, hw⟩
    have hnone := List.find?_eq_none.mp hfind _ hw
    simp at hnone
  | case3 i edges remaining s hlt other s1 heq sel hfind ih =>
    intro hi hinv
    have hpred := List.find?_some hfind
    simp at hpred
    have hinv2 : ∀ a b : Nat, a < b → b < nv → i + 1 ≤ b →
        ∃ w, (a, b, w) ∈ remaining.erase sel := by
      intro a b hab hbnv hib
      rcases hinv a b hab hbnv (by omega) with ⟨w, hw⟩
      refine ⟨w, (List.mem_erase_of_ne ?_).mpr hw⟩
      intro hcontra
      rw [← hcontra] at hpred
      simp at hpred
      omega
    rcases ih (by omega) hinv2 with ⟨es, rem2, s2, h⟩
    exact ⟨es, rem2, s2, by rw [treePhase_step hlt heq hfind]; exact h⟩
  | case4 i edges remaining s hge =>
    intro hi hinv
    exact ⟨edges, remaining, s, treePhase_done hge⟩

lemma treePhase_length (nv : Nat) :
    ∀ (i : Nat) (edges remaining : List (Nat × Nat × Int)) (s : RState)
      (es rem2 : List (Nat × Nat × Int)) (s2 : RState),
      treePhase nv i edges remaining s = some (es, rem2, s2) →
      es.length + rem2.length = edges.length + remaining.length := by
  intro i edges remaining s
  induction i, edges, remaining, s using treePhase.induct nv with
  | case1 i edges remaining s hlt heq =>
    intro es rem2 s2 h
    rw [treePhase, if_pos hlt] at h
    split at h
    · cases h
    · rename_i o2 s12 heq2
      rw [heq] at heq2
      cases heq2
  | case2 i edges remaining s hlt other s1 heq hfind =>
    intro es rem2 s2 h
    rw [treePhase, if_pos hlt] at h
    split at h
    · cases h
    · rename_i o2 s12 heq2
      rw [heq] at heq2
      simp at heq2
      obtain ⟨rfl, rfl⟩ := heq2
      split at h
      · cases h
      · rename_i sel2 hfind2
        rw [hfind] at hfind2
        cases hfind2
  | case3 i edges remaining s hlt other s1 heq sel hfind ih =>
    intro es rem2 s2 h
    rw [treePhase_step hlt heq hfind] at h
    have hsel : sel ∈ remaining := List.mem_of_find?_eq_some hfind
    have hrem : remaining.length ≥ 1 := by
      cases remaining
      · simp at hsel
      · simp
    have hlen : (remaining.erase sel).length = remaining.length - 1 :=
      List.length_erase_of_mem hsel
    have hrec := ih es rem2 s2 h
    rw [List.length_append, hlen] at hrec
    simp at hrec
    omega
  | case4 i edges remaining s hge =>
    intro es rem2 s2 h
    rw [treePhase_done hge] at h
    simp at h
    rw [← h.1, ← h.2.1]

lemma fillPhase_total (target : Int) :
    ∀ (edges remaining : List (Nat × Nat × Int)) (s : RState),
      target ≤ (edges.length : Int) + (remaining.length : Int) →
      ∃ es s2, fillPhase target edges remaining s = some (es, s2) := by
  intro edges remaining s
  induction edges, remaining, s using fillPhase.induct target with
  | case1 edges remaining s hlt heq =>
    intro hsum
    exfalso
    unfold randint at heq
    rw [if_neg (by omega)] at heq
    cases heq
  | case2 edges remaining s hlt i s1 heq hget =>
    intro hsum
    exfalso
    have hb := randint_bounds heq
    have hlen : remaining.length ≤ i.toNat := by
      rcases List.get?_eq_none.mp hget with h2
      exact h2
    omega
  | case3 edges remaining s hlt i s1 heq sel hget ih =>
    intro hsum
    have hsel : sel ∈ remaining := List.get?_mem hget
    have hrem : remaining.length ≥ 1 := by
      cases remaining
      · simp at hsel
      · simp
    have hlen : (remaining.erase sel).length = remaining.length - 1 :=
      List.length_erase_of_mem hsel
    rcases ih (by
      rw [List.length_append, hlen]
      simp
      omega) with ⟨es, s2, h⟩
    exact ⟨es, s2, by rw [fillPhase_step hlt heq hget]; exact h⟩
  | case4 edges remaining s hge =>
    intro hsum
    exact ⟨edges, s, fillPhase_done hge⟩

lemma resolve_nv {nv0 : Int} (s0 : RState) (hv : nv0 = -1 ∨ 1 ≤ nv0) :
    ∃ nv s1, (if nv0 = -1 then randint 5 10 s0 else some (nv0, s0)) =
      some (nv, s1) ∧ 1 ≤ nv ∧ (¬ nv0 = -1 → nv = nv0) ∧
      (nv0 = -1 → 5 ≤ nv) := by
  by_cases h : nv0 = -1
  · rw [if_pos h]
    rcases randint_isSome (by norm_num : (5 : Int) ≤ 10) s0 with ⟨v, s1, hr⟩
    have hb := randint_bounds hr
    exact ⟨v, s1, hr, by omega, fun hc => absurd h hc, fun _ => by omega⟩
  · rw [if_neg h]
    exact ⟨nv0, s0, rfl, by omega, fun _ => rfl, fun hc => absurd hc h⟩

/-- The spec's feasibility-bound table for graph generation: which
resolved (vertex count, edge count) pairs each generation type accepts.
Transcribed from the specification's table to compare with the code's
infeasibility checks. -/
def Feasible (ty : String) (nv ne : Int) : Prop :=
  match ty with
  | "any" => ne ≤ Int.fdiv (nv * (nv - 1)) 2
  | "complete" => ne = Int.fdiv (nv * (nv - 1)) 2
  | "connected" => nv - 1 ≤ ne ∧ ne ≤ Int.fdiv (nv * (nv - 1)) 2
  | "acyclic" => ne ≤ nv - 1
  | "tree" => ne = nv - 1
  | "bipartite" => ne ≤ Int.fdiv (nv * nv) 4
  | _ => False

/-- The count-resolution prefix of each generator branch: the vertex and
edge counts after the "unspecified" sentinels are replaced by the
algorithm-chosen (possibly random) defaults, with the remaining
randomness state. -/
def resolveCounts (ty : String) (nv0 ne0 : Int) (s0 : RState) :
    Option (Int × Int × RState) :=
  match ty with
  | "any" =>
    match (if nv0 = -1 then randint 5 10 s0 else some (nv0, s0)) with
    | none => none
    | some (nv, s1) =>
      match (if ne0 = -1 then randint 5 (Int.fdiv (nv * (nv - 1)) 2) s1
        else some (ne0, s1)) with
      | none => none
      | some (ne, s2) => some (nv, ne, s2)
  | "complete" =>
    match (if nv0 = -1 then randint 5 10 s0 else some (nv0, s0)) with
    | none => none
    | some (nv, s1) =>
      some (nv, if ne0 = -1 then Int.fdiv (nv * (nv - 1)) 2 else ne0, s1)
  | "connected" =>
    match (if nv0 = -1 then randint 5 10 s0 else some (nv0, s0)) with
    | none => none
    | some (nv, s1) =>
      match (if ne0 = -1 then
          randint (nv - 1) (Int.fdiv (nv * (nv - 1)) 2) s1
        else some (ne0, s1)) with
      | none => none
      | some (ne, s2) => some (nv, ne, s2)
  | "acyclic" =>
    match (if nv0 = -1 then randint 5 10 s0 else some (nv0, s0)) with
    | none => none
    | some (nv, s1) =>
      match (if ne0 = -1 then randint 4 (nv - 1) s1
        else some (ne0, s1)) with
      | none => none
      | some (ne, s2) => some (nv, ne, s2)
  | "tree" =>
    match (if nv0 = -1 then randint 5 10 s0 else some (nv0, s0)) with
    | none => none
    | some (nv, s1) =>
      some (nv, if ne0 = -1 then nv - 1 else ne0, s1)
  | "bipartite" =>
    match (if nv0 = -1 then randint 5 10 s0 else some (nv0, s0)) with
    | none => none
    | some (nv, s1) =>
      match (if ne0 = -1 then randint 4 (Int.fdiv (nv * nv) 4) s1
        else some (ne0, s1)) with
      | none => none
      | some (ne, s2) => some (nv, ne, s2)
  | _ => none

/-- Amended C3: on every request that passes the parameter validator,
generation returns a result instead of raising — a graph description
when the resolved (vertex, edge) counts satisfy the spec's feasibility
bound for the requested type, and the structured infeasibility error
record (never a graph, partial or otherwise) when they do not —
provided the edge count is specified or the type's default edge-count
range is non-empty (at least 4 vertices for "any" and "bipartite", at
least 5 for "acyclic", or unspecified vertices, which default to at
least 5).  Outside this proviso the original claim fails: see the
counterexample. -/
theorem C3_generation_total_amended (ty : String) (nv0 ne0 : Int)
    (s0 : RState)
    (hval : validate_parameters ty nv0 ne0 = none)
    (hdef : ne0 = -1 →
      (ty = "any" → nv0 = -1 ∨ 4 ≤ nv0) ∧
      (ty = "acyclic" → nv0 = -1 ∨ 5 ≤ nv0) ∧
      (ty = "bipartite" → nv0 = -1 ∨ 4 ≤ nv0)) :
    ∃ r, make_random_graph ty nv0 ne0 s0 = some r ∧
      ∀ nv ne s2, resolveCounts ty nv0 ne0 s0 = some (nv, ne, s2) →
        (Feasible ty nv ne → ∃ g, r = GenResult.graph g) ∧
        (¬ Feasible ty nv ne →
          r = GenResult.error "number of vertices and edges is illegal") := by
  obtain ⟨hv, he, hev⟩ := validate_none_facts hval
  rcases validate_none_ty hval with rfl | rfl | rfl | rfl | rfl | rfl
  · -- "any"
    rcases resolve_nv s0 hv with ⟨nv, s1, hnv, hnv1, hnvspec, hnvdef⟩
    have hnv4 : ne0 = -1 → 4 ≤ nv := by
      intro h
      rcases (hdef h).1 rfl with h2 | h2
      · have := hnvdef h2
        omega
      · have := hnvspec (by omega)
        omega
    obtain ⟨ne, s2, hne, hne0⟩ :
        ∃ ne s2, (if ne0 = -1 then
            randint 5 (Int.fdiv (nv * (nv - 1)) 2) s1
          else some (ne0, s1)) = some (ne, s2) ∧ 0 ≤ ne := by
      by_cases h : ne0 = -1
      · rw [if_pos h]
        have h4 := hnv4 h
        have h12 : (12 : Int) ≤ nv * (nv - 1) := by nlinarith
        have hfd : Int.fdiv (nv * (nv - 1)) 2 = (nv * (nv - 1)) / 2 :=
          Int.fdiv_eq_ediv _ (by norm_num)
        have h5 : (5 : Int) ≤ Int.fdiv (nv * (nv - 1)) 2 := by
          rw [hfd]
          obtain ⟨P, hP⟩ : ∃ x, nv * (nv - 1) = x := ⟨_, rfl⟩
          rw [hP] at h12 ⊢
          omega
        rcases randint_isSome h5 s1 with ⟨v, s2, hr⟩
        have hb := randint_bounds hr
        exact ⟨v, s2, hr, by omega⟩
      · rw [if_neg h]
        exact ⟨ne0, s1, rfl, by omega⟩
    have hres : resolveCounts "any" nv0 ne0 s0 = some (nv, ne, s2) := by
      rw [resolveCounts]
      simp only [hnv, hne]
    rw [make_random_graph]
    simp only [hnv, hne]
    by_cases hfeas : ne > Int.fdiv (nv * (nv - 1)) 2
    · rw [if_pos hfeas]
      refine ⟨_, rfl, ?_⟩
      intro nv2 ne2 s22 hres2
      rw [hres] at hres2
      simp only [Option.some.injEq, Prod.mk.injEq] at hres2
      obtain ⟨rfl, rfl, rfl⟩ := hres2
      refine ⟨?_, fun h2 => rfl⟩
      intro hf
      exfalso
      replace hf : ne ≤ Int.fdiv (nv * (nv - 1)) 2 := hf
      omega
    · rw [if_neg hfeas]
      rcases pairWeights_total (allPairs nv.toNat) s2 with ⟨es, s3, hpw⟩
      rcases removeRandomEdges_total ne hne0 es s3 with ⟨es2, s4, hrm⟩
      simp only [hpw, hrm]
      refine ⟨_, rfl, ?_⟩
      intro nv2 ne2 s22 hres2
      rw [hres] at hres2
      simp only [Option.some.injEq, Prod.mk.injEq] at hres2
      obtain ⟨rfl, rfl, rfl⟩ := hres2
      refine ⟨fun hf => ⟨_, rfl⟩, ?_⟩
      intro hnf
      exact absurd (show Feasible "any" nv ne from not_lt.mp hfeas) hnf
  · -- "complete"
    rcases resolve_nv s0 hv with ⟨nv, s1, hnv, hnv1, hnvspec, hnvdef⟩
    obtain ⟨ne, hnedef⟩ : ∃ x, (if ne0 = -1 then
        Int.fdiv (nv * (nv - 1)) 2 else ne0) = x := ⟨_, rfl⟩
    have hres : resolveCounts "complete" nv0 ne0 s0 = some (nv, ne, s1) := by
      rw [resolveCounts]
      simp only [hnv, hnedef]
    rw [make_random_graph]
    simp only [hnv, hnedef]
    by_cases h : ne ≠ Int.fdiv (nv * (nv - 1)) 2
    · rw [if_pos h]
      refine ⟨_, rfl, ?_⟩
      intro nv2 ne2 s22 hres2
      rw [hres] at hres2
      simp only [Option.some.injEq, Prod.mk.injEq] at hres2
      obtain ⟨rfl, rfl, rfl⟩ := hres2
      refine ⟨?_, fun h2 => rfl⟩
      intro hf
      exfalso
      replace hf : ne = Int.fdiv (nv * (nv - 1)) 2 := hf
      exact h hf
    · rw [if_neg h]
      rcases pairWeights_total (allPairs nv.toNat) s1 with ⟨es, s3, hpw⟩
      simp only [hpw]
      refine ⟨_, rfl, ?_⟩
      intro nv2 ne2 s22 hres2
      rw [hres] at hres2
      simp only [Option.some.injEq, Prod.mk.injEq] at hres2
      obtain ⟨rfl, rfl, rfl⟩ := hres2
      refine ⟨fun hf => ⟨_, rfl⟩, ?_⟩
      intro hnf
      exact absurd (show Feasible "complete" nv ne from not_not.mp h) hnf
  · -- "connected"
    rcases resolve_nv s0 hv with ⟨nv, s1, hnv, hnv1, hnvspec, hnvdef⟩
    obtain ⟨ne, s2, hne, hne0⟩ :
        ∃ ne s2, (if ne0 = -1 then
            randint (nv - 1) (Int.fdiv (nv * (nv - 1)) 2) s1
          else some (ne0, s1)) = some (ne, s2) ∧ 0 ≤ ne := by
      by_cases h : ne0 = -1
      · rw [if_pos h]
        have hkey : 2 * (nv - 1) ≤ nv * (nv - 1) := by
          rcases lt_or_ge nv 2 with h2 | h2
          · have hnv1eq : nv = 1 := by omega
            rw [hnv1eq]
            norm_num
          · nlinarith
        have hfd : Int.fdiv (nv * (nv - 1)) 2 = (nv * (nv - 1)) / 2 :=
          Int.fdiv_eq_ediv _ (by norm_num)
        have hlohi : nv - 1 ≤ Int.fdiv (nv * (nv - 1)) 2 := by
          rw [hfd]
          obtain ⟨P, hP⟩ : ∃ x, nv * (nv - 1) = x := ⟨_, rfl⟩
          rw [hP] at hkey ⊢
          omega
        rcases randint_isSome hlohi s1 with ⟨v, s2, hr⟩
        have hb := randint_bounds hr
        exact ⟨v, s2, hr, by omega⟩
      · rw [if_neg h]
        exact ⟨ne0, s1, rfl, by omega⟩
    have hres : resolveCounts "connected" nv0 ne0 s0 = some (nv, ne, s2) := by
      rw [resolveCounts]
      simp only [hnv, hne]
    rw [make_random_graph]
    simp only [hnv, hne]
    by_cases hfeas : ne > Int.fdiv (nv * (nv - 1)) 2 ∨ ne < nv - 1
    · rw [if_pos hfeas]
      refine ⟨_, rfl, ?_⟩
      intro nv2 ne2 s22 hres2
      rw [hres] at hres2
      simp only [Option.some.injEq, Prod.mk.injEq] at hres2
      obtain ⟨rfl, rfl, rfl⟩ := hres2
      refine ⟨?_, fun h2 => rfl⟩
      intro hf
      exfalso
      replace hf : nv - 1 ≤ ne ∧ ne ≤ Int.fdiv (nv * (nv - 1)) 2 := hf
      rcases hfeas with h | h
      · omega
      · omega
    · rw [if_neg hfeas]
      push_neg at hfeas
      rcases pairWeights_total (allPairs nv.toNat) s2 with ⟨pool, s3, hpw⟩
      have hcov := pairWeights_covers _ _ _ _ hpw
      have hplen := pairWeights_length _ _ _ _ hpw
      rcases treePhase_total nv.toNat 1 [] pool s3 le_rfl (by
        intro a b hab hbn hib
        rcases hcov (a, b) (allPairs_mem_of_lt hab hbn) with ⟨w, hw⟩
        exact ⟨w, hw⟩) with ⟨es, rem, s4, htp⟩
      have htlen := treePhase_length nv.toNat 1 [] pool s3 es rem s4 htp
      simp at htlen
      have hfill : ne ≤ (es.length : Int) + (rem.length : Int) := by
        have hfd : Int.fdiv ((nv.toNat : Int) * ((nv.toNat : Int) - 1)) 2 =
            ((allPairs nv.toNat).length : Int) := fdiv_allPairs nv.toNat
        have hnvcast : ((nv.toNat : Nat) : Int) = nv :=
          Int.toNat_of_nonneg (by omega)
        rw [hnvcast] at hfd
        have hfeas1 := hfeas.1
        omega
      rcases fillPhase_total ne es rem s4 hfill with ⟨es2, s5, hfp⟩
      simp only [hpw, htp, hfp]
      refine ⟨_, rfl, ?_⟩
      intro nv2 ne2 s22 hres2
      rw [hres] at hres2
      simp only [Option.some.injEq, Prod.mk.injEq] at hres2
      obtain ⟨rfl, rfl, rfl⟩ := hres2
      refine ⟨fun hf => ⟨_, rfl⟩, ?_⟩
      intro hnf
      exact absurd
        (show Feasible "connected" nv ne from ⟨hfeas.2, hfeas.1⟩) hnf
  · -- "acyclic"
    rcases resolve_nv s0 hv with ⟨nv, s1, hnv, hnv1, hnvspec, hnvdef⟩
    have hnv5 : ne0 = -1 → 5 ≤ nv := by
      intro h
      rcases (hdef h).2.1 rfl with h2 | h2
      · exact hnvdef h2
      · have := hnvspec (by omega)
        omega
    obtain ⟨ne, s2, hne⟩ :
        ∃ ne s2, (if ne0 = -1 then randint 4 (nv - 1) s1
          else some (ne0, s1)) = some (ne, s2) := by
      by_cases h : ne0 = -1
      · rw [if_pos h]
        have h5 := hnv5 h
        rcases randint_isSome (by omega : (4 : Int) ≤ nv - 1) s1 with
          ⟨v, s2, hr⟩
        exact ⟨v, s2, hr⟩
      · rw [if_neg h]
        exact ⟨ne0, s1, rfl⟩
    have hres : resolveCounts "acyclic" nv0 ne0 s0 = some (nv, ne, s2) := by
      rw [resolveCounts]
      simp only [hnv, hne]
    rw [make_random_graph]
    simp only [hnv, hne]
    by_cases hfeas : ne > nv - 1
    · rw [if_pos hfeas]
      refine ⟨_, rfl, ?_⟩
      intro nv2 ne2 s22 hres2
      rw [hres] at hres2
      simp only [Option.some.injEq, Prod.mk.injEq] at hres2
      obtain ⟨rfl, rfl, rfl⟩ := hres2
      refine ⟨?_, fun h2 => rfl⟩
      intro hf
      exfalso
      replace hf : ne ≤ nv - 1 := hf
      omega
    · rw [if_neg hfeas]
      rcases sporePhase_total nv.toNat (nv - ne).toNat 0 0 [] s2 with
        ⟨es, s3, hsp⟩
      simp only [hsp]
      refine ⟨_, rfl, ?_⟩
      intro nv2 ne2 s22 hres2
      rw [hres] at hres2
      simp only [Option.some.injEq, Prod.mk.injEq] at hres2
      obtain ⟨rfl, rfl, rfl⟩ := hres2
      refine ⟨fun hf => ⟨_, rfl⟩, ?_⟩
      intro hnf
      exact absurd (show Feasible "acyclic" nv ne from not_lt.mp hfeas) hnf
  · -- "tree"
    rcases resolve_nv s0 hv with ⟨nv, s1, hnv, hnv1, hnvspec, hnvdef⟩
    obtain ⟨ne, hnedef⟩ : ∃ x, (if ne0 = -1 then nv - 1 else ne0) = x :=
      ⟨_, rfl⟩
    have hres : resolveCounts "tree" nv0 ne0 s0 = some (nv, ne, s1) := by
      rw [resolveCounts]
      simp only [hnv, hnedef]
    rw [make_random_graph]
    simp only [hnv, hnedef]
    by_cases h : ne ≠ nv - 1
    · rw [if_pos h]
      refine ⟨_, rfl, ?_⟩
      intro nv2 ne2 s22 hres2
      rw [hres] at hres2
      simp only [Option.some.injEq, Prod.mk.injEq] at hres2
      obtain ⟨rfl, rfl, rfl⟩ := hres2
      refine ⟨?_, fun h2 => rfl⟩
      intro hf
      exfalso
      replace hf : ne = nv - 1 := hf
      exact h hf
    · rw [if_neg h]
      rcases attachEdges_total 0 1 nv.toNat [] s1 (by omega) with
        ⟨es, s2, hae⟩
      simp only [hae]
      refine ⟨_, rfl, ?_⟩
      intro nv2 ne2 s22 hres2
      rw [hres] at hres2
      simp only [Option.some.injEq, Prod.mk.injEq] at hres2
      obtain ⟨rfl, rfl, rfl⟩ := hres2
      refine ⟨fun hf => ⟨_, rfl⟩, ?_⟩
      intro hnf
      exact absurd (show Feasible "tree" nv ne from not_not.mp h) hnf
  · -- "bipartite"
    rcases resolve_nv s0 hv with ⟨nv, s1, hnv, hnv1, hnvspec, hnvdef⟩
    have hnv4 : ne0 = -1 → 4 ≤ nv := by
      intro h
      rcases (hdef h).2.2 rfl with h2 | h2
      · have := hnvdef h2
        omega
      · have := hnvspec (by omega)
        omega
    obtain ⟨ne, s2, hne, hne0⟩ :
        ∃ ne s2, (if ne0 = -1 then
            randint 4 (Int.fdiv (nv * nv) 4) s1
          else some (ne0, s1)) = some (ne, s2) ∧ 0 ≤ ne := by
      by_cases h : ne0 = -1
      · rw [if_pos h]
        have h4 := hnv4 h
        have h16 : (16 : Int) ≤ nv * nv := by nlinarith
        have hfd : Int.fdiv (nv * nv) 4 = (nv * nv) / 4 :=
          Int.fdiv_eq_ediv _ (by norm_num)
        have hge4 : (4 : Int) ≤ Int.fdiv (nv * nv) 4 := by
          rw [hfd]
          obtain ⟨P, hP⟩ : ∃ x, nv * nv = x := ⟨_, rfl⟩
          rw [hP] at h16 ⊢
          omega
        rcases randint_isSome hge4 s1 with ⟨v, s2, hr⟩
        have hb := randint_bounds hr
        exact ⟨v, s2, hr, by omega⟩
      · rw [if_neg h]
        exact ⟨ne0, s1, rfl, by omega⟩
    have hres : resolveCounts "bipartite" nv0 ne0 s0 = some (nv, ne, s2) := by
      rw [resolveCounts]
      simp only [hnv, hne]
    rw [make_random_graph]
    simp only [hnv, hne]
    by_cases hfeas : ne > Int.fdiv (nv * nv) 4
    · rw [if_pos hfeas]
      refine ⟨_, rfl, ?_⟩
      intro nv2 ne2 s22 hres2
      rw [hres] at hres2
      simp only [Option.some.injEq, Prod.mk.injEq] at hres2
      obtain ⟨rfl, rfl, rfl⟩ := hres2
      refine ⟨?_, fun h2 => rfl⟩
      intro hf
      exfalso
      replace hf : ne ≤ Int.fdiv (nv * nv) 4 := hf
      omega
    · rw [if_neg hfeas]
      rcases pairWeights_total (biPairs nv.toNat) s2 with ⟨es, s3, hpw⟩
      rcases removeRandomEdges_total ne hne0 es s3 with ⟨es2, s4, hrm⟩
      simp only [hpw, hrm]
      refine ⟨_, rfl, ?_⟩
      intro nv2 ne2 s22 hres2
      rw [hres] at hres2
      simp only [Option.some.injEq, Prod.mk.injEq] at hres2
      obtain ⟨rfl, rfl, rfl⟩ := hres2
      refine ⟨fun hf => ⟨_, rfl⟩, ?_⟩
      intro hnf
      exact absurd (show Feasible "bipartite" nv ne from not_lt.mp hfeas) hnf


/-- Counterexample to C3 as stated: the request (type "acyclic", 3
vertices, unspecified edge count) passes the parameter validator, yet
generation raises (ValueError from randint on the empty default range
[4, 2]) instead of returning a graph or an error record. -/
theorem C3_generation_counterexample :
    validate_parameters "acyclic" 3 (-1) = none ∧
    make_random_graph "acyclic" 3 (-1) ⟨fun _ => 0, 0⟩ = none := by
  constructor
  · rfl
  · rfl

/-- Witness for the amended C3: a concrete feasible request yields a
graph result, and a concrete infeasible one (3 vertices, 5 edges for a
tree) yields the structured error record. -/
theorem C3_generation_total_amended_witness :
    (validate_parameters "tree" 3 (-1) = none ∧
      ∃ r, make_random_graph "tree" 3 (-1) ⟨fun _ => 0, 0⟩ = some r ∧
        ∀ nv ne s2, resolveCounts "tree" 3 (-1) ⟨fun _ => 0, 0⟩ =
            some (nv, ne, s2) →
          (Feasible "tree" nv ne → ∃ g, r = GenResult.graph g) ∧
          (¬ Feasible "tree" nv ne →
            r = GenResult.error "number of vertices and edges is illegal")) ∧
    make_random_graph "tree" 3 5 ⟨fun _ => 0, 0⟩ =
      some (GenResult.error "number of vertices and edges is illegal") := by
  constructor
  · exact ⟨by rfl,
      C3_generation_total_amended "tree" 3 (-1) ⟨fun _ => 0, 0⟩ (by rfl)
        (fun _ => ⟨fun hc => absurd hc (by decide),
          fun hc => absurd hc (by decide), fun hc => absurd hc (by decide)⟩)⟩
  · obtain ⟨r, hmk, hspec⟩ :=
      C3_generation_total_amended "tree" 3 5 ⟨fun _ => 0, 0⟩ (by rfl)
        (fun hc => absurd hc (by decide))
    have h2 := (hspec 3 5 ⟨fun _ => 0, 0⟩ (by rfl)).2
      (fun hf => absurd (show (5 : Int) = 3 - 1 from hf) (by decide))
    rw [hmk, h2]

/-! ### C1: Dijkstra path validity -/

lemma extractMin_none {α : Type} (lt : α → α → Bool) :
    ∀ l : List α, extractMin lt l = none → l = [] := by
  intro l h
  cases l with
  | nil => rfl
  | cons x xs =>
    rw [extractMin] at h
    rcases hrec : extractMin lt xs with _ | ⟨m, rest⟩
    · rw [hrec] at h
      replace h : some (x, ([] : List α)) = none := h
      cases h
    · rw [hrec] at h
      replace h : (if lt m x = true then some (m, x :: rest)
          else some (x, xs)) = none := h
      by_cases hlt : lt m x = true
      · rw [if_pos hlt] at h
        cases h
      · rw [if_neg hlt] at h
        cases h

lemma extractMin_perm {α : Type} (lt : α → α → Bool) :
    ∀ (l : List α) (m : α) (rest : List α),
      extractMin lt l = some (m, rest) → l.Perm (m :: rest) := by
  intro l
  induction l with
  | nil =>
    intro m rest h
    rw [extractMin] at h
    cases h
  | cons x xs ih =>
    intro m rest h
    rw [extractMin] at h
    rcases hrec : extractMin lt xs with _ | ⟨m2, rest2⟩
    · rw [hrec] at h
      replace h : some (x, ([] : List α)) = some (m, rest) := h
      simp only [Option.some.injEq, Prod.mk.injEq] at h
      obtain ⟨rfl, rfl⟩ := h
      rw [extractMin_none lt xs hrec]
    · rw [hrec] at h
      replace h : (if lt m2 x = true then some (m2, x :: rest2)
          else some (x, xs)) = some (m, rest) := h
      by_cases hlt : lt m2 x = true
      · rw [if_pos hlt] at h
        simp only [Option.some.injEq, Prod.mk.injEq] at h
        obtain ⟨h1, h2⟩ := h
        rw [← h1, ← h2]
        exact ((ih m2 rest2 hrec).cons x).trans (List.Perm.swap m2 x rest2)
      · rw [if_neg hlt] at h
        simp only [Option.some.injEq, Prod.mk.injEq] at h
        obtain ⟨h1, h2⟩ := h
        rw [← h1, ← h2]

lemma extractMin_pairLt_notlt :
    ∀ (l : List (Int × Nat)) (e : Int × Nat) (rest : List (Int × Nat)),
      extractMin pairLt l = some (e, rest) →
      ∀ p ∈ l, pairLt p e = false := by
  intro l
  induction l with
  | nil =>
    intro e rest h
    rw [extractMin] at h
    cases h
  | cons x xs ih =>
    intro e rest h p hp
    rw [extractMin] at h
    rcases hrec : extractMin pairLt xs with _ | ⟨m2, rest2⟩
    · rw [hrec] at h
      replace h : some (x, ([] : List (Int × Nat))) = some (e, rest) := h
      simp only [Option.some.injEq, Prod.mk.injEq] at h
      obtain ⟨rfl, rfl⟩ := h
      have hxs := extractMin_none _ xs hrec
      subst hxs
      simp at hp
      subst hp
      simp [pairLt]
    · rw [hrec] at h
      replace h : (if pairLt m2 x = true then some (m2, x :: rest2)
          else some (x, xs)) = some (e, rest) := h
      by_cases hlt : pairLt m2 x = true
      · rw [if_pos hlt] at h
        simp only [Option.some.injEq, Prod.mk.injEq] at h
        obtain ⟨rfl, rfl⟩ := h
        rcases List.mem_cons.mp hp with rfl | hmem
        · simp [pairLt] at hlt ⊢
          omega
        · exact ih _ rest2 hrec p hmem
      · rw [if_neg hlt] at h
        simp only [Option.some.injEq, Prod.mk.injEq] at h
        obtain ⟨rfl, rfl⟩ := h
        rcases List.mem_cons.mp hp with rfl | hmem
        · simp [pairLt]
        · have h1 := ih m2 rest2 hrec p hmem
          simp [pairLt] at hlt h1 ⊢
          omega

/-- The accumulated weight of a path through the adjacency model;
`none` when some consecutive pair is not adjacent. -/
def pathWeight (al : AL) : List Nat → Option Int
  | [] => some 0
  | [_] => some 0
  | a :: b :: tl =>
    match alook2 al a b with
    | none => none
    | some w => (pathWeight al (b :: tl)).map (fun W => w + W)

lemma pathWeight_snoc (al : AL) :
    ∀ (l : List Nat) (u v : Nat) (w W : Int),
      l.getLast? = some u → alook2 al u v = some w →
      pathWeight al l = some W →
      pathWeight al (l ++ [v]) = some (W + w) := by
  intro l
  induction l with
  | nil =>
    intro u v w W hlast
    simp at hlast
  | cons a tl ih =>
    intro u v w W hlast hadj hW
    cases tl with
    | nil =>
      simp at hlast
      subst hlast
      rw [pathWeight] at hW
      simp at hW
      subst hW
      simp only [List.cons_append, List.nil_append]
      rw [pathWeight, hadj, pathWeight]
      simp
    | cons b tl2 =>
      rw [pathWeight] at hW
      rcases hab : alook2 al a b with _ | w1
      · rw [hab] at hW
        cases hW
      · rw [hab] at hW
        simp only [Option.map_eq_some'] at hW
        rcases hW with ⟨W1, hW1, hWeq⟩
        have hlast2 : (b :: tl2).getLast? = some u := by
          rw [List.getLast?_cons_cons] at hlast
          exact hlast
        have hrec := ih u v w W1 hlast2 hadj hW1
        simp only [List.cons_append]
        rw [pathWeight]
        have hrec2 : pathWeight al ((b :: tl2) ++ [v]) = some (W1 + w) :=
          hrec
        simp only [List.cons_append] at hrec2
        rw [hab, hrec2]
        simp
        omega

lemma insEdge_inner_nodup {al : AL} {a b : Nat} {w : Int} {al2 : AL}
    (h : insEdge al a b w = some al2)
    (hn : ∀ u m, alook al u = some m → (alKeys m).Nodup) :
    ∀ u m, alook al2 u = some m → (alKeys m).Nodup := by
  unfold insEdge at h
  rcases hm : alook al a with _ | m0
  · rw [hm] at h
    simp at h
  · rw [hm] at h
    simp at h
    subst h
    intro u m hu
    rw [alook_aupd] at hu
    by_cases hua : u = a
    · rw [if_pos hua] at hu
      injection hu with hu
      subst hu
      have hm0 := hn a m0 hm
      by_cases hb : b ∈ alKeys m0
      · rw [alKeys_aupd_of_mem _ _ _ hb]
        exact hm0
      · rw [alKeys_aupd_of_not_mem _ _ _ hb]
        refine List.Nodup.append hm0 (by simp) ?_
        intro x hx
        simp
        intro hxb
        subst hxb
        exact hb hx
    · rw [if_neg hua] at hu
      exact hn u m hu

lemma foldlM_edgeStep_pres (P : AL → Prop) :
    ∀ (edges : List (Nat × Nat × Int)),
      (∀ al e al2, e ∈ edges → P al → edgeStep al e = some al2 → P al2) →
      ∀ (al0 al : AL), P al0 → edges.foldlM edgeStep al0 = some al →
        P al := by
  intro edges
  induction edges with
  | nil =>
    intro hstep al0 al h0 h
    simp [List.foldlM] at h
    rw [← h]
    exact h0
  | cons e tl ih =>
    intro hstep al0 al h0 h
    rcases hstep0 : edgeStep al0 e with _ | almid
    · rw [List.foldlM_cons, hstep0] at h
      cases h
    · rw [List.foldlM_cons, hstep0] at h
      exact ih (fun al e2 al2 he2 => hstep al e2 al2 (by simp [he2]))
        almid al (hstep al0 e almid (by simp) h0 hstep0) h

lemma buildAL_inner_nodup {g : GraphData} {al : AL}
    (h : buildAL g = some al) :
    ∀ u m, alook al u = some m → (alKeys m).Nodup := by
  unfold buildAL at h
  refine foldlM_edgeStep_pres
    (fun al => ∀ u m, alook al u = some m → (alKeys m).Nodup)
    g.edges ?_ (initAL g) al ?_ h
  · intro al1 e al2 he h1 hstep
    unfold edgeStep at hstep
    rcases h1m : insEdge al1 e.1 e.2.1 e.2.2 with _ | almid
    · rw [h1m] at hstep
      simp at hstep
    · rw [h1m] at hstep
      simp at hstep
      exact insEdge_inner_nodup hstep (insEdge_inner_nodup h1m h1)
  · intro u m hu
    have main : ∀ (vs : List Nat) (al0 : AL),
        (∀ k m2, alook al0 k = some m2 → (alKeys m2).Nodup) →
        ∀ k m2, alook (vs.foldl (fun al v => aupd al v []) al0) k =
          some m2 → (alKeys m2).Nodup := by
      intro vs
      induction vs with
      | nil => intro al0 hbase; exact hbase
      | cons v tl ihv =>
        intro al0 hbase
        rw [List.foldl_cons]
        apply ihv
        intro k m2 hk
        rw [alook_aupd] at hk
        by_cases hkv : k = v
        · rw [if_pos hkv] at hk
          injection hk with hk
          rw [← hk]
          simp [alKeys]
        · rw [if_neg hkv] at hk
          exact hbase k m2 hk
    exact main g.vertices [] (by intro k m2 hc; simp [alook] at hc) u m hu

lemma buildAL_weights {g : GraphData} {al : AL}
    (h : buildAL g = some al) :
    ∀ x y w, alook2 al x y = some w → ∃ e ∈ g.edges, w = e.2.2 := by
  unfold buildAL at h
  refine foldlM_edgeStep_pres
    (fun al => ∀ x y w, alook2 al x y = some w → ∃ e ∈ g.edges, w = e.2.2)
    g.edges ?_ (initAL g) al ?_ h
  · intro al1 e al2 he h1 hstep
    intro x y w hw
    rw [(edgeStep_some_spec hstep).2 x y] at hw
    by_cases hc1 : x = e.2.1 ∧ y = e.1
    · rw [if_pos hc1] at hw
      injection hw with hw
      exact ⟨e, he, hw.symm⟩
    · rw [if_neg hc1] at hw
      by_cases hc2 : x = e.1 ∧ y = e.2.1
      · rw [if_pos hc2] at hw
        injection hw with hw
        exact ⟨e, he, hw.symm⟩
      · rw [if_neg hc2] at hw
        exact h1 x y w hw
  · intro x y w hw
    rw [alook2_initAL] at hw
    cases hw

lemma rtg_mem_of_closed {al : AL} {root x : Nat} {S : List Nat}
    (hroot : root ∈ S)
    (hclosed : ∀ u ∈ S, ∀ y, ALAdj al u y → y ∈ S)
    (h : Relation.ReflTransGen (ALAdj al) root x) : x ∈ S := by
  induction h with
  | refl => exact hroot
  | tail hxy hy ih => exact hclosed _ ih _ hy

lemma alook_none_not_mem {α : Type} {l : NdMap α} {k : Nat}
    (h : alook l k = none) : k ∉ alKeys l := by
  intro hm
  rcases alook_isSome_of_mem hm with ⟨v, hv⟩
  rw [hv] at h
  cases h

lemma relaxAll_cons_fresh {cur d : Nat} {w : Int} {tl : NdMap Int}
    {dist : NdMap Int} {pred : NdMap (Option Nat)} {pq : List (Int × Nat)}
    {dcur : Int} (hdc : alook dist cur = some dcur)
    (hdd : alook dist d = none) :
    relaxAll cur ((d, w) :: tl) dist pred pq =
      relaxAll cur tl (aupd dist d (w + dcur)) (aupd pred d (some cur))
        (pq ++ [(w + dcur, d)]) := by
  rw [relaxAll]
  split
  · rename_i h2
    rw [hdc] at h2
    cases h2
  · rename_i dcur2 h2
    rw [hdc] at h2
    simp at h2
    subst h2
    split
    · rfl
    · rename_i dd h3
      rw [hdd] at h3
      cases h3

lemma relaxAll_cons_update {cur d : Nat} {w : Int} {tl : NdMap Int}
    {dist : NdMap Int} {pred : NdMap (Option Nat)} {pq : List (Int × Nat)}
    {dcur dd : Int} (hdc : alook dist cur = some dcur)
    (hdd : alook dist d = some dd) (hlt : w + dcur < dd) :
    relaxAll cur ((d, w) :: tl) dist pred pq =
      relaxAll cur tl (aupd dist d (w + dcur)) (aupd pred d (some cur))
        (pq ++ [(w + dcur, d)]) := by
  rw [relaxAll]
  split
  · rename_i h2
    rw [hdc] at h2
    cases h2
  · rename_i dcur2 h2
    rw [hdc] at h2
    simp at h2
    subst h2
    split
    · rename_i h3
      rw [hdd] at h3
    · rename_i dd2 h3
      rw [hdd] at h3
      simp at h3
      subst h3
      rw [if_pos hlt]

lemma relaxAll_cons_skip {cur d : Nat} {w : Int} {tl : NdMap Int}
    {dist : NdMap Int} {pred : NdMap (Option Nat)} {pq : List (Int × Nat)}
    {dcur dd : Int} (hdc : alook dist cur = some dcur)
    (hdd : alook dist d = some dd) (hge : ¬ w + dcur < dd) :
    relaxAll cur ((d, w) :: tl) dist pred pq =
      relaxAll cur tl dist pred pq := by
  rw [relaxAll]
  split
  · rename_i h2
    rw [hdc] at h2
    cases h2
  · rename_i dcur2 h2
    rw [hdc] at h2
    simp at h2
    subst h2
    split
    · rename_i h3
      rw [hdd] at h3
      cases h3
    · rename_i dd2 h3
      rw [hdd] at h3
      simp at h3
      subst h3
      rw [if_neg hge]

/-- The working invariant of the Dijkstra loop state: pred/dist key
agreement, root anchoring, per-entry edge consistency (with the visit
order recorded through `vis`), visited distances below all heap keys,
heap entries backed by current distances, unvisited distances present in
the heap, non-negativity, reachability soundness, and visit-list
sanity. -/
def DijkInv (al : AL) (root : Nat) (vis : List Nat) (dist : NdMap Int)
    (pred : NdMap (Option Nat)) (pq : List (Int × Nat)) : Prop :=
  alKeys pred = alKeys dist ∧
  alook dist root = some 0 ∧ alook pred root = some none ∧
  (∀ v, alook pred v = some none → v = root) ∧
  (∀ v u, alook pred v = some (some u) →
    ∃ w du, alook2 al u v = some w ∧ alook dist u = some du ∧
      alook dist v = some (w + du) ∧ u ∈ vis ∧
      (v ∈ vis → List.indexOf u vis < List.indexOf v vis)) ∧
  (∀ y ∈ vis, ∃ dy, alook dist y = some dy ∧ ∀ p ∈ pq, dy ≤ p.1) ∧
  (∀ p ∈ pq, (∃ dx, alook dist p.2 = some dx ∧ dx ≤ p.1) ∧
    p.2 ∈ alKeys al) ∧
  (∀ x ∈ alKeys dist, x ∉ vis →
    ∃ k, alook dist x = some k ∧ (k, x) ∈ pq) ∧
  (∀ v dv, alook dist v = some dv → 0 ≤ dv) ∧
  (∀ x ∈ alKeys dist, Relation.ReflTransGen (ALAdj al) root x) ∧
  vis.Nodup ∧
  (∀ y ∈ vis, y ∈ alKeys dist)

lemma relaxAll_spec (al : AL) (root : Nat) (vis : List Nat) (cur : Nat)
    (hcv : cur ∈ vis) :
    ∀ (nbrs : NdMap Int) (dist : NdMap Int) (pred : NdMap (Option Nat))
      (pq : List (Int × Nat)) (dcur : Int),
      alook dist cur = some dcur →
      (∀ p ∈ nbrs, 0 ≤ p.2) →
      (∀ p ∈ nbrs, alook2 al cur p.1 = some p.2) →
      (∀ p ∈ nbrs, p.1 ∈ alKeys al) →
      (∀ y ∈ vis, ∀ dy, alook dist y = some dy → dy ≤ dcur) →
      DijkInv al root vis dist pred pq →
      ∃ dist2 pred2 pq2,
        relaxAll cur nbrs dist pred pq = some (dist2, pred2, pq2) ∧
        DijkInv al root vis dist2 pred2 pq2 ∧
        (∀ y ∈ vis, alook dist2 y = alook dist y) ∧
        (∀ x ∈ alKeys dist, x ∈ alKeys dist2) ∧
        (∀ p ∈ nbrs, p.1 ∈ alKeys dist2) := by
  intro nbrs
  induction nbrs with
  | nil =>
    intro dist pred pq dcur hdc hw hadj hcl hvd hinv
    exact ⟨dist, pred, pq, by rw [relaxAll], hinv,
      fun y _ => rfl, fun x hx => hx, by simp⟩
  | cons p tl ih =>
    obtain ⟨d, w⟩ := p
    intro dist pred pq dcur hdc hw hadj hcl hvd hinv
    obtain ⟨I1, I2a, I2b, I2c, I3, I4, I5, I6, I7, I10, I11, I12⟩ := hinv
    have hw0 : (0 : Int) ≤ w := hw (d, w) (by simp)
    have hadj0 : alook2 al cur d = some w := hadj (d, w) (by simp)
    have hcl0 : d ∈ alKeys al := hcl (d, w) (by simp)
    have hdcur0 : (0 : Int) ≤ dcur := I7 cur dcur hdc
    rcases hdd : alook dist d with _ | dd
    · -- d has no distance yet: fresh insertion
      have hdnk : d ∉ alKeys dist := alook_none_not_mem hdd
      have hdnv : d ∉ vis := fun hdv => hdnk (I12 d hdv)
      have hcd : cur ≠ d := by
        intro h
        rw [h, hdd] at hdc
        cases hdc
      have hdnkp : d ∉ alKeys pred := by
        rw [I1]
        exact hdnk
      have hldist : ∀ x, alook (aupd dist d (w + dcur)) x =
          if x = d then some (w + dcur) else alook dist x :=
        fun x => alook_aupd dist d (w + dcur) x
      have hlpred : ∀ x, alook (aupd pred d (some cur)) x =
          if x = d then some (some cur) else alook pred x :=
        fun x => alook_aupd pred d (some cur) x
      have hdc2 : alook (aupd dist d (w + dcur)) cur = some dcur := by
        rw [hldist, if_neg hcd]
        exact hdc
      have hkeys2 : alKeys (aupd dist d (w + dcur)) = alKeys dist ++ [d] :=
        alKeys_aupd_of_not_mem _ _ _ hdnk
      have hinv2 : DijkInv al root vis (aupd dist d (w + dcur))
          (aupd pred d (some cur)) (pq ++ [(w + dcur, d)]) := by
        refine ⟨?_, ?_, ?_, ?_, ?_, ?_, ?_, ?_, ?_, ?_, I11, ?_⟩
        · rw [alKeys_aupd_of_not_mem _ _ _ hdnkp, hkeys2, I1]
        · rw [hldist, if_neg (show root ≠ d from fun h => hdnk (h ▸ mem_alKeys_of_alook I2a))]
          exact I2a
        · rw [hlpred, if_neg (show root ≠ d from fun h => hdnkp (h ▸ mem_alKeys_of_alook I2b))]
          exact I2b
        · intro v hv
          rw [hlpred] at hv
          by_cases hv2 : v = d
          · rw [if_pos hv2] at hv
            cases hv
          · rw [if_neg hv2] at hv
            exact I2c v hv
        · intro v u hvu
          rw [hlpred] at hvu
          by_cases hv : v = d
          · rw [if_pos hv] at hvu
            injection hvu with hvu
            injection hvu with hvu
            subst hvu
            subst hv
            refine ⟨w, dcur, hadj0, hdc2, ?_, hcv,
              fun hdv => absurd hdv hdnv⟩
            rw [hldist, if_pos rfl]
          · rw [if_neg hv] at hvu
            rcases I3 v u hvu with ⟨w2, du, hw2, hdu, hdv2, huv, hidx⟩
            have hud : u ≠ d := fun h => hdnv (h ▸ huv)
            refine ⟨w2, du, hw2, ?_, ?_, huv, hidx⟩
            · rw [hldist, if_neg hud]
              exact hdu
            · rw [hldist, if_neg hv]
              exact hdv2
        · intro y hy
          rcases I4 y hy with ⟨dy, hdy, hdyb⟩
          have hyd : y ≠ d := fun h => hdnv (h ▸ hy)
          refine ⟨dy, by rw [hldist, if_neg hyd]; exact hdy, ?_⟩
          intro q hq
          rcases List.mem_append.mp hq with hq2 | hq2
          · exact hdyb q hq2
          · simp at hq2
            subst hq2
            have := hvd y hy dy hdy
            simp
            omega
        · intro q hq
          rcases List.mem_append.mp hq with hq2 | hq2
          · rcases I5 q hq2 with ⟨⟨dx, hdx, hdxle⟩, hqal⟩
            have hqd : q.2 ≠ d :=
              fun h => hdnk (h ▸ mem_alKeys_of_alook hdx)
            exact ⟨⟨dx, by rw [hldist, if_neg hqd]; exact hdx, hdxle⟩, hqal⟩
          · simp at hq2
            subst hq2
            refine ⟨⟨w + dcur, ?_, by simp⟩, hcl0⟩
            simp only
            rw [hldist, if_pos rfl]
        · intro x hx hxv
          rw [hkeys2] at hx
          rcases List.mem_append.mp hx with hx2 | hx2
          · rcases I6 x hx2 hxv with ⟨k, hk, hkpq⟩
            have hxd : x ≠ d := fun h => hdnk (h ▸ hx2)
            exact ⟨k, by rw [hldist, if_neg hxd]; exact hk, by simp [hkpq]⟩
          · simp at hx2
            subst hx2
            exact ⟨w + dcur, by rw [hldist, if_pos rfl], by simp⟩
        · intro v dv hdv2
          rw [hldist] at hdv2
          by_cases hv : v = d
          · rw [if_pos hv] at hdv2
            injection hdv2 with hdv2
            omega
          · rw [if_neg hv] at hdv2
            exact I7 v dv hdv2
        · intro x hx
          rw [hkeys2] at hx
          rcases List.mem_append.mp hx with hx2 | hx2
          · exact I10 x hx2
          · simp at hx2
            subst hx2
            exact Relation.ReflTransGen.tail
              (I10 cur (mem_alKeys_of_alook hdc)) ⟨w, hadj0⟩
        · intro y hy
          rw [hkeys2]
          exact List.mem_append.mpr (Or.inl (I12 y hy))
      rcases ih (aupd dist d (w + dcur)) (aupd pred d (some cur))
        (pq ++ [(w + dcur, d)]) dcur hdc2
        (fun q hq => hw q (by simp [hq]))
        (fun q hq => hadj q (by simp [hq]))
        (fun q hq => hcl q (by simp [hq]))
        (by
          intro y hy dy hdy
          rw [hldist, if_neg (show y ≠ d from fun h => hdnv (h ▸ hy))] at hdy
          exact hvd y hy dy hdy)
        hinv2 with ⟨dist2, pred2, pq2, heq, hinv3, hpres, hmono, hnb⟩
      refine ⟨dist2, pred2, pq2, ?_, hinv3, ?_, ?_, ?_⟩
      · rw [relaxAll_cons_fresh hdc hdd]
        exact heq
      · intro y hy
        rw [hpres y hy, hldist, if_neg (show y ≠ d from fun h => hdnv (h ▸ hy))]
      · intro x hx
        apply hmono
        rw [hkeys2]
        exact List.mem_append.mpr (Or.inl hx)
      · intro q hq
        rcases List.mem_cons.mp hq with rfl | hq2
        · apply hmono
          rw [hkeys2]
          simp
        · exact hnb q hq2
    · -- d has a distance
      by_cases hlt : w + dcur < dd
      · -- strictly better: overwrite
        have hdk : d ∈ alKeys dist := mem_alKeys_of_alook hdd
        have hdnv : d ∉ vis := by
          intro hdv
          have := hvd d hdv dd hdd
          omega
        have hcd : cur ≠ d := by
          intro h
          rw [h] at hdc
          rw [hdc] at hdd
          injection hdd with hdd
          omega
        have hdkp : d ∈ alKeys pred := by
          rw [I1]
          exact hdk
        have hldist : ∀ x, alook (aupd dist d (w + dcur)) x =
            if x = d then some (w + dcur) else alook dist x :=
          fun x => alook_aupd dist d (w + dcur) x
        have hlpred : ∀ x, alook (aupd pred d (some cur)) x =
            if x = d then some (some cur) else alook pred x :=
          fun x => alook_aupd pred d (some cur) x
        have hdc2 : alook (aupd dist d (w + dcur)) cur = some dcur := by
          rw [hldist, if_neg hcd]
          exact hdc
        have hkeys2 : alKeys (aupd dist d (w + dcur)) = alKeys dist :=
          alKeys_aupd_of_mem _ _ _ hdk
        have hrd : root ≠ d := by
          intro h
          rw [← h] at hdd
          rw [I2a] at hdd
          injection hdd with hdd
          omega
        have hinv2 : DijkInv al root vis (aupd dist d (w + dcur))
            (aupd pred d (some cur)) (pq ++ [(w + dcur, d)]) := by
          refine ⟨?_, ?_, ?_, ?_, ?_, ?_, ?_, ?_, ?_, ?_, I11, ?_⟩
          · rw [alKeys_aupd_of_mem _ _ _ hdkp, hkeys2, I1]
          · rw [hldist, if_neg hrd]
            exact I2a
          · rw [hlpred, if_neg hrd]
            exact I2b
          · intro v hv
            rw [hlpred] at hv
            by_cases hv2 : v = d
            · rw [if_pos hv2] at hv
              cases hv
            · rw [if_neg hv2] at hv
              exact I2c v hv
          · intro v u hvu
            rw [hlpred] at hvu
            by_cases hv : v = d
            · rw [if_pos hv] at hvu
              injection hvu with hvu
              injection hvu with hvu
              subst hvu
              subst hv
              refine ⟨w, dcur, hadj0, hdc2, ?_, hcv,
                fun hdv => absurd hdv hdnv⟩
              rw [hldist, if_pos rfl]
            · rw [if_neg hv] at hvu
              rcases I3 v u hvu with ⟨w2, du, hw2, hdu, hdv2, huv, hidx⟩
              have hud : u ≠ d := fun h => hdnv (h ▸ huv)
              refine ⟨w2, du, hw2, ?_, ?_, huv, hidx⟩
              · rw [hldist, if_neg hud]
                exact hdu
              · rw [hldist, if_neg hv]
                exact hdv2
          · intro y hy
            rcases I4 y hy with ⟨dy, hdy, hdyb⟩
            have hyd : y ≠ d := fun h => hdnv (h ▸ hy)
            refine ⟨dy, by rw [hldist, if_neg hyd]; exact hdy, ?_⟩
            intro q hq
            rcases List.mem_append.mp hq with hq2 | hq2
            · exact hdyb q hq2
            · simp at hq2
              subst hq2
              have := hvd y hy dy hdy
              simp
              omega
          · intro q hq
            rcases List.mem_append.mp hq with hq2 | hq2
            · rcases I5 q hq2 with ⟨⟨dx, hdx, hdxle⟩, hqal⟩
              by_cases hqd : q.2 = d
              · refine ⟨⟨w + dcur, ?_, ?_⟩, hqal⟩
                · rw [hldist, if_pos hqd]
                · rw [hqd, hdd] at hdx
                  injection hdx with hdx
                  omega
              · exact ⟨⟨dx, by rw [hldist, if_neg hqd]; exact hdx, hdxle⟩,
                  hqal⟩
            · simp at hq2
              subst hq2
              refine ⟨⟨w + dcur, ?_, by simp⟩, hcl0⟩
              simp only
              rw [hldist, if_pos rfl]
          · intro x hx hxv
            rw [hkeys2] at hx
            by_cases hxd : x = d
            · subst hxd
              exact ⟨w + dcur, by rw [hldist, if_pos rfl], by simp⟩
            · rcases I6 x hx hxv with ⟨k, hk, hkpq⟩
              exact ⟨k, by rw [hldist, if_neg hxd]; exact hk,
                by simp [hkpq]⟩
          · intro v dv hdv2
            rw [hldist] at hdv2
            by_cases hv : v = d
            · rw [if_pos hv] at hdv2
              injection hdv2 with hdv2
              omega
            · rw [if_neg hv] at hdv2
              exact I7 v dv hdv2
          · intro x hx
            rw [hkeys2] at hx
            exact I10 x hx
          · intro y hy
            rw [hkeys2]
            exact I12 y hy
        rcases ih (aupd dist d (w + dcur)) (aupd pred d (some cur))
          (pq ++ [(w + dcur, d)]) dcur hdc2
          (fun q hq => hw q (by simp [hq]))
          (fun q hq => hadj q (by simp [hq]))
          (fun q hq => hcl q (by simp [hq]))
          (by
            intro y hy dy hdy
            rw [hldist, if_neg (show y ≠ d from fun h => hdnv (h ▸ hy))] at hdy
            exact hvd y hy dy hdy)
          hinv2 with ⟨dist2, pred2, pq2, heq, hinv3, hpres, hmono, hnb⟩
        refine ⟨dist2, pred2, pq2, ?_, hinv3, ?_, ?_, ?_⟩
        · rw [relaxAll_cons_update hdc hdd hlt]
          exact heq
        · intro y hy
          rw [hpres y hy, hldist, if_neg (show y ≠ d from fun h => hdnv (h ▸ hy))]
        · intro x hx
          apply hmono
          rw [hkeys2]
          exact hx
        · intro q hq
          rcases List.mem_cons.mp hq with rfl | hq2
          · apply hmono
            rw [hkeys2]
            exact hdk
          · exact hnb q hq2
      · -- not better: skip
        rcases ih dist pred pq dcur hdc
          (fun q hq => hw q (by simp [hq]))
          (fun q hq => hadj q (by simp [hq]))
          (fun q hq => hcl q (by simp [hq]))
          hvd
          ⟨I1, I2a, I2b, I2c, I3, I4, I5, I6, I7, I10, I11, I12⟩ with
          ⟨dist2, pred2, pq2, heq, hinv3, hpres, hmono, hnb⟩
        refine ⟨dist2, pred2, pq2, ?_, hinv3, hpres, hmono, ?_⟩
        · rw [relaxAll_cons_skip hdc hdd hlt]
          exact heq
        · intro q hq
          rcases List.mem_cons.mp hq with rfl | hq2
          · exact hmono d (mem_alKeys_of_alook hdd)
          · exact hnb q hq2

lemma indexOf_append_self {l : List Nat} {a : Nat} (h : a ∉ l) :
    List.indexOf a (l ++ [a]) = l.length := by
  induction l with
  | nil => simp
  | cons x t ih =>
    have hax : x ≠ a := fun he => h (by simp [he])
    simp only [List.cons_append]
    rw [List.indexOf_cons_ne _ hax, ih (fun hm => h (by simp [hm]))]
    rfl

lemma alook_of_mem_nodup {α : Type} :
    ∀ {m : NdMap α}, (alKeys m).Nodup →
      ∀ {k : Nat} {w : α}, (k, w) ∈ m → alook m k = some w := by
  intro m
  induction m with
  | nil =>
    intro _ k w hm
    simp at hm
  | cons p tl ih =>
    intro hn k w hm
    obtain ⟨k0, w0⟩ := p
    simp only [alKeys, List.map_cons, List.nodup_cons] at hn
    rcases List.mem_cons.mp hm with heq | hmem
    · injection heq with h1 h2
      subst h1
      subst h2
      unfold alook
      rw [List.find?_cons_of_pos _ (by simp)]
      rfl
    · by_cases hkk : k0 = k
      · exfalso
        subst hkk
        exact hn.1 (List.mem_map_of_mem _ hmem)
      · unfold alook
        rw [List.find?_cons_of_neg _ (by simp [hkk])]
        exact ih hn.2 hmem

lemma dijkstraLoop_done {al : AL} {visited : List Nat} {dist : NdMap Int}
    {pred : NdMap (Option Nat)} {pq : List (Int × Nat)}
    (h : extractMin pairLt pq = none) :
    dijkstraLoop al visited dist pred pq = some (dist, pred) := by
  rw [dijkstraLoop]
  split
  · rfl
  · rename_i e rest h2
    rw [h] at h2
    cases h2

lemma dijkstraLoop_skip {al : AL} {visited : List Nat} {dist : NdMap Int}
    {pred : NdMap (Option Nat)} {pq : List (Int × Nat)} {e : Int × Nat}
    {rest : List (Int × Nat)}
    (h : extractMin pairLt pq = some (e, rest)) (hv : e.2 ∈ visited) :
    dijkstraLoop al visited dist pred pq =
      dijkstraLoop al visited dist pred rest := by
  rw [dijkstraLoop]
  split
  · rename_i h2
    rw [h] at h2
    cases h2
  · rename_i e2 rest2 h2
    rw [h] at h2
    simp at h2
    obtain ⟨rfl, rfl⟩ := h2
    rw [if_pos hv]

lemma dijkstraLoop_step {al : AL} {visited : List Nat} {dist : NdMap Int}
    {pred : NdMap (Option Nat)} {pq : List (Int × Nat)} {e : Int × Nat}
    {rest : List (Int × Nat)} {nbrs : NdMap Int} {dist2 : NdMap Int}
    {pred2 : NdMap (Option Nat)} {pq2 : List (Int × Nat)}
    (h : extractMin pairLt pq = some (e, rest)) (hv : e.2 ∉ visited)
    (hl : alook al e.2 = some nbrs)
    (hr : relaxAll e.2 nbrs dist pred rest = some (dist2, pred2, pq2)) :
    dijkstraLoop al visited dist pred pq =
      dijkstraLoop al (visited ++ [e.2]) dist2 pred2 pq2 := by
  rw [dijkstraLoop]
  split
  · rename_i h2
    rw [h] at h2
    cases h2
  · rename_i e2 rest2 h2
    rw [h] at h2
    simp at h2
    obtain ⟨rfl, rfl⟩ := h2
    rw [if_neg hv]
    split
    · rename_i h3
      rw [hl] at h3
      cases h3
    · rename_i nbrs2 h3
      rw [hl] at h3
      simp at h3
      subst h3
      rw [hr]

lemma dijkstra_step_setup (al : AL) (root : Nat)
    (hclosed : ∀ x y, ALAdj al x y → y ∈ alKeys al)
    (hnodup : ∀ u m, alook al u = some m → (alKeys m).Nodup)
    (hnn : ∀ x y w, alook2 al x y = some w → 0 ≤ w)
    {visited : List Nat} {dist : NdMap Int} {pred : NdMap (Option Nat)}
    {pq : List (Int × Nat)} {e : Int × Nat} {rest : List (Int × Nat)}
    {nbrs : NdMap Int}
    (hpop : extractMin pairLt pq = some (e, rest))
    (hv : e.2 ∉ visited)
    (hl : alook al e.2 = some nbrs)
    (hinv : DijkInv al root visited dist pred pq)
    (h9 : ∀ u ∈ visited, ∀ nbrs0, alook al u = some nbrs0 →
      ∀ p ∈ nbrs0, p.1 ∈ alKeys dist) :
    ∃ dist2 pred2 pq2,
      relaxAll e.2 nbrs dist pred rest = some (dist2, pred2, pq2) ∧
      DijkInv al root (visited ++ [e.2]) dist2 pred2 pq2 ∧
      (∀ u ∈ visited ++ [e.2], ∀ nbrs0, alook al u = some nbrs0 →
        ∀ p ∈ nbrs0, p.1 ∈ alKeys dist2) := by
  obtain ⟨I1, I2a, I2b, I2c, I3, I4, I5, I6, I7, I10, I11, I12⟩ := hinv
  have hperm := extractMin_perm pairLt pq e rest hpop
  have hepq : e ∈ pq := hperm.symm.subset (by simp)
  have hrest_sub : ∀ p ∈ rest, p ∈ pq :=
    fun p hp => hperm.symm.subset (by simp [hp])
  obtain ⟨⟨dx, hdx, hdxle⟩, heal⟩ := I5 e hepq
  obtain ⟨k2, hk2, hk2pq⟩ := I6 e.2 (mem_alKeys_of_alook hdx) hv
  have hk2dx : k2 = dx := by
    rw [hdx] at hk2
    injection hk2 with h
    exact h.symm
  rw [hk2dx] at hk2pq
  have hnotlt := extractMin_pairLt_notlt pq e rest hpop (dx, e.2) hk2pq
  have hdxe : dx = e.1 := by
    simp [pairLt] at hnotlt
    omega
  have hinvR : DijkInv al root (visited ++ [e.2]) dist pred rest := by
    refine ⟨I1, I2a, I2b, I2c, ?_, ?_, ?_, ?_, I7, I10, ?_, ?_⟩
    · intro v u hvu
      rcases I3 v u hvu with ⟨w2, du, hw2, hdu, hdv2, huv, hidx⟩
      refine ⟨w2, du, hw2, hdu, hdv2, by simp [huv], ?_⟩
      intro hvv
      have hue : u ≠ e.2 := fun h => hv (h ▸ huv)
      rw [List.indexOf_append_of_mem huv]
      rcases List.mem_append.mp hvv with hv2 | hv2
      · rw [List.indexOf_append_of_mem hv2]
        exact hidx hv2
      · simp at hv2
        subst hv2
        rw [indexOf_append_self hv]
        exact List.indexOf_lt_length.mpr huv
    · intro y hy
      rcases List.mem_append.mp hy with hy2 | hy2
      · rcases I4 y hy2 with ⟨dy, hdy, hdyb⟩
        exact ⟨dy, hdy, fun p hp => hdyb p (hrest_sub p hp)⟩
      · simp at hy2
        subst hy2
        refine ⟨dx, hdx, ?_⟩
        intro p hp
        have hnlt := extractMin_pairLt_notlt pq e rest hpop p
          (hrest_sub p hp)
        simp [pairLt] at hnlt
        omega
    · exact fun p hp => I5 p (hrest_sub p hp)
    · intro x hx hxv
      have hxvold : x ∉ visited := fun h => hxv (by simp [h])
      have hxe : x ≠ e.2 := fun h => hxv (by simp [h])
      rcases I6 x hx hxvold with ⟨k3, hk3, hk3pq⟩
      rcases List.mem_cons.mp (hperm.subset hk3pq) with heq2 | hmem2
      · exact absurd (congrArg Prod.snd heq2) hxe
      · exact ⟨k3, hk3, hmem2⟩
    · refine List.Nodup.append I11 (by simp) ?_
      intro a ha
      simp
      intro hae
      subst hae
      exact hv ha
    · intro y hy
      rcases List.mem_append.mp hy with hy2 | hy2
      · exact I12 y hy2
      · simp at hy2
        subst hy2
        exact mem_alKeys_of_alook hdx
  have hnodup2 := hnodup e.2 nbrs hl
  have hadjs : ∀ p ∈ nbrs, alook2 al e.2 p.1 = some p.2 := by
    intro p hp
    unfold alook2
    rw [hl]
    exact alook_of_mem_nodup hnodup2 hp
  have hws : ∀ p ∈ nbrs, 0 ≤ p.2 := fun p hp => hnn _ _ _ (hadjs p hp)
  have hcls : ∀ p ∈ nbrs, p.1 ∈ alKeys al :=
    fun p hp => hclosed e.2 p.1 ⟨p.2, hadjs p hp⟩
  have hvds : ∀ y ∈ visited ++ [e.2], ∀ dy, alook dist y = some dy →
      dy ≤ dx := by
    intro y hy dy hdy
    rcases List.mem_append.mp hy with hy2 | hy2
    · rcases I4 y hy2 with ⟨dy2, hdy2, hdyb⟩
      rw [hdy2] at hdy
      injection hdy with hdy
      subst hdy
      have := hdyb e hepq
      omega
    · simp at hy2
      subst hy2
      rw [hdx] at hdy
      injection hdy with hdy
      omega
  rcases relaxAll_spec al root (visited ++ [e.2]) e.2 (by simp) nbrs dist
    pred rest dx hdx hws hadjs hcls hvds hinvR with
    ⟨dist2, pred2, pq2, heq, hinv3, hpres, hmono, hnb⟩
  refine ⟨dist2, pred2, pq2, heq, hinv3, ?_⟩
  intro u hu nbrs0 hnb0 p hp
  rcases List.mem_append.mp hu with hu2 | hu2
  · exact hmono _ (h9 u hu2 nbrs0 hnb0 p hp)
  · simp at hu2
    subst hu2
    rw [hl] at hnb0
    injection hnb0 with hnb0
    subst hnb0
    exact hnb p hp

lemma dijkstraLoop_spec (al : AL) (root : Nat)
    (hclosed : ∀ x y, ALAdj al x y → y ∈ alKeys al)
    (hnodup : ∀ u m, alook al u = some m → (alKeys m).Nodup)
    (hnn : ∀ x y w, alook2 al x y = some w → 0 ≤ w) :
    ∀ (visited : List Nat) (dist : NdMap Int) (pred : NdMap (Option Nat))
      (pq : List (Int × Nat)),
      DijkInv al root visited dist pred pq →
      (∀ u ∈ visited, ∀ nbrs0, alook al u = some nbrs0 →
        ∀ p ∈ nbrs0, p.1 ∈ alKeys dist) →
      ∃ dist2 pred2,
        dijkstraLoop al visited dist pred pq = some (dist2, pred2) ∧
        ∃ vis2, DijkInv al root vis2 dist2 pred2 [] ∧
          ∀ u ∈ vis2, ∀ nbrs0, alook al u = some nbrs0 →
            ∀ p ∈ nbrs0, p.1 ∈ alKeys dist2 := by
  intro visited dist pred pq
  induction visited, dist, pred, pq using dijkstraLoop.induct al with
  | case1 visited dist pred pq hpop =>
    intro hinv h9
    have hpq : pq = [] := extractMin_none pairLt pq hpop
    subst hpq
    exact ⟨dist, pred, dijkstraLoop_done hpop, visited, hinv, h9⟩
  | case2 visited dist pred pq e rest hpop hv ih =>
    intro hinv h9
    obtain ⟨I1, I2a, I2b, I2c, I3, I4, I5, I6, I7, I10, I11, I12⟩ := hinv
    have hperm := extractMin_perm pairLt pq e rest hpop
    have hrest_sub : ∀ p ∈ rest, p ∈ pq :=
      fun p hp => hperm.symm.subset (by simp [hp])
    have hinv2 : DijkInv al root visited dist pred rest := by
      refine ⟨I1, I2a, I2b, I2c, I3, ?_, ?_, ?_, I7, I10, I11, I12⟩
      · intro y hy
        rcases I4 y hy with ⟨dy, hdy, hdyb⟩
        exact ⟨dy, hdy, fun p hp => hdyb p (hrest_sub p hp)⟩
      · exact fun p hp => I5 p (hrest_sub p hp)
      · intro x hx hxv
        rcases I6 x hx hxv with ⟨k, hk, hkpq⟩
        rcases List.mem_cons.mp (hperm.subset hkpq) with heq | hmem
        · exact absurd (hv) (by
            have : x = e.2 := congrArg Prod.snd heq
            rw [← this]
            exact hxv)
        · exact ⟨k, hk, hmem⟩
    rcases ih hinv2 h9 with ⟨dist2, pred2, heq, hfin⟩
    exact ⟨dist2, pred2, by rw [dijkstraLoop_skip hpop hv]; exact heq, hfin⟩
  | case3 visited dist pred pq e rest hpop hv hl =>
    intro hinv h9
    exfalso
    obtain ⟨I1, I2a, I2b, I2c, I3, I4, I5, I6, I7, I10, I11, I12⟩ := hinv
    have hperm := extractMin_perm pairLt pq e rest hpop
    have hepq : e ∈ pq := hperm.symm.subset (by simp)
    rcases alook_isSome_of_mem (I5 e hepq).2 with ⟨m, hm⟩
    rw [hm] at hl
    cases hl
  | case4 visited dist pred pq e rest hpop hv nbrs hl hrel =>
    intro hinv h9
    exfalso
    rcases dijkstra_step_setup al root hclosed hnodup hnn hpop hv hl hinv
      h9 with ⟨dist2, pred2, pq2, heq, -, -⟩
    rw [hrel] at heq
    cases heq
  | case5 visited dist pred pq e rest hpop hv nbrs hl dist2 pred2 pq2
      hrel ih =>
    intro hinv h9
    rcases dijkstra_step_setup al root hclosed hnodup hnn hpop hv hl hinv
      h9 with ⟨dist3, pred3, pq3, heq, hinv3, h93⟩
    rw [hrel] at heq
    injection heq with heq
    obtain ⟨h1, h2, h3⟩ : dist2 = dist3 ∧ pred2 = pred3 ∧ pq2 = pq3 := by
      have hb := congrArg Prod.fst heq
      have hc := congrArg (fun q => q.2.1) heq
      have hd := congrArg (fun q => q.2.2) heq
      exact ⟨hb, hc, hd⟩
    subst h1
    subst h2
    subst h3
    rcases ih hinv3 h93 with ⟨dist4, pred4, heq4, hfin⟩
    exact ⟨dist4, pred4,
      by rw [dijkstraLoop_step hpop hv hl hrel]; exact heq4, hfin⟩

lemma backtrace_succ (pred : NdMap (Option Nat)) (v : Nat) (n : Nat) :
    backtrace pred v (n + 1) =
      match alook pred v with
      | none => none
      | some none => some [v]
      | some (some p) => (backtrace pred p n).map (fun l => l ++ [v]) :=
  rfl

lemma backtrace_ok (al : AL) (root : Nat) (vis : List Nat)
    (dist : NdMap Int) (pred : NdMap (Option Nat))
    (I2a : alook dist root = some 0)
    (I2c : ∀ v, alook pred v = some none → v = root)
    (I3 : ∀ v u, alook pred v = some (some u) →
      ∃ w du, alook2 al u v = some w ∧ alook dist u = some du ∧
        alook dist v = some (w + du) ∧ u ∈ vis ∧
        (v ∈ vis → List.indexOf u vis < List.indexOf v vis))
    (I1 : alKeys pred = alKeys dist)
    (hkv : ∀ x, x ∈ alKeys dist ↔ x ∈ vis) :
    ∀ (n : Nat) (v : Nat), v ∈ vis → List.indexOf v vis < n →
      ∀ dv, alook dist v = some dv →
      ∃ p, backtrace pred v n = some p ∧ p.head? = some root ∧
        p.getLast? = some v ∧
        List.Chain' (fun a b => ALAdj al a b) p ∧
        pathWeight al p = some dv := by
  intro n
  induction n with
  | zero =>
    intro v hv hlt
    omega
  | succ n ih =>
    intro v hv hlt dv hdv
    have hvp : v ∈ alKeys pred := by
      rw [I1]
      exact (hkv v).mpr hv
    rcases alook_isSome_of_mem hvp with ⟨pv, hpv⟩
    rcases pv with _ | u
    · have hvr := I2c v hpv
      subst hvr
      refine ⟨[v], ?_, rfl, rfl, by simp, ?_⟩
      · rw [backtrace_succ, hpv]
      · rw [I2a] at hdv
        injection hdv with hdv
        subst hdv
        rfl
    · rcases I3 v u hpv with ⟨w, du, hw2, hdu, hdv2, huv, hidx⟩
      have hdveq : dv = w + du := by
        rw [hdv2] at hdv
        injection hdv with hdv
        exact hdv.symm
      have hlt2 : List.indexOf u vis < n := by
        have := hidx hv
        omega
      rcases ih u huv hlt2 du hdu with ⟨pu, hbu, hhead, hlast, hchain, hwt⟩
      refine ⟨pu ++ [v], ?_, ?_, List.getLast?_concat pu, ?_, ?_⟩
      · rw [backtrace_succ, hpv]
        show (backtrace pred u n).map (fun l => l ++ [v]) = some (pu ++ [v])
        rw [hbu]
        rfl
      · rw [List.head?_append, hhead]
        rfl
      · rw [List.chain'_append]
        refine ⟨hchain, by simp, ?_⟩
        intro x hx y hy
        rw [hlast] at hx
        simp at hx hy
        subst hx
        subst hy
        exact ⟨w, hw2⟩
      · have hres := pathWeight_snoc al pu u v w du hlast hw2 hwt
        rw [hres, hdveq]
        congr 1
        omega

lemma spEntry_eq_reached {dist : NdMap Int} {pred : NdMap (Option Nat)}
    {v : Nat} {pv : Option Nat} {l : List Nat} {dv : Int}
    (hpv : alook pred v = some pv)
    (hbt : backtrace pred v (pred.length + 1) = some l)
    (hdv : alook dist v = some dv) :
    spEntry dist pred v = some (v, dv, some l) := by
  rw [spEntry]
  split
  · rename_i h2
    rw [hpv] at h2
    cases h2
  · rename_i pv2 h2
    split
    · rename_i h3
      rw [hbt] at h3
      cases h3
    · rename_i l2 h3
      rw [hbt] at h3
      injection h3 with h3
      subst h3
      split
      · rename_i dv2 h4
        rw [hdv] at h4
        injection h4 with h4
        subst h4
        rfl
      · rename_i h4
        rw [hdv] at h4
        cases h4

lemma spEntry_eq_unreached {dist : NdMap Int} {pred : NdMap (Option Nat)}
    {v : Nat} (hpv : alook pred v = none) (hdv : alook dist v = none) :
    spEntry dist pred v = some (v, -1, none) := by
  rw [spEntry]
  split
  · rename_i h2
    split
    · rename_i dv2 h3
      rw [hdv] at h3
      cases h3
    · rfl
  · rename_i pv2 h2
    rw [hpv] at h2
    cases h2

lemma alook_singleton {α : Type} (k : Nat) (a : α) (x : Nat) :
    alook [(k, a)] x = if x = k then some a else none := by
  unfold alook
  by_cases h : x = k
  · subst h
    rw [List.find?_cons_of_pos _ (by simp)]
    simp
  · rw [List.find?_cons_of_neg _ (by simp; intro hc; exact h hc.symm)]
    simp [h]

lemma spEntry_ok (al : AL) (root : Nat) (vis : List Nat)
    (dist : NdMap Int) (pred : NdMap (Option Nat))
    (hinv : DijkInv al root vis dist pred []) (v : Nat) :
    ∃ q, spEntry dist pred v = some q ∧ q.1 = v ∧
      (v ∈ alKeys dist →
        ∃ dv p2, alook dist v = some dv ∧ q = (v, dv, some p2) ∧
          p2.head? = some root ∧ p2.getLast? = some v ∧
          List.Chain' (fun a b => ALAdj al a b) p2 ∧
          pathWeight al p2 = some dv) ∧
      (v ∉ alKeys dist → q = (v, -1, none)) := by
  obtain ⟨I1, I2a, I2b, I2c, I3, I4, I5, I6, I7, I10, I11, I12⟩ := hinv
  have hkv : ∀ x, x ∈ alKeys dist ↔ x ∈ vis := by
    intro x
    constructor
    · intro hx
      by_contra hxv
      rcases I6 x hx hxv with ⟨k, -, hkpq⟩
      simp at hkpq
    · exact I12 x
  by_cases hm : v ∈ alKeys dist
  · rcases alook_isSome_of_mem hm with ⟨dv, hdv⟩
    have hmp : v ∈ alKeys pred := by
      rw [I1]
      exact hm
    rcases alook_isSome_of_mem hmp with ⟨pv, hpv⟩
    have hvv : v ∈ vis := (hkv v).mp hm
    have hlen : vis.length ≤ pred.length := by
      have hsub : vis ⊆ alKeys pred := by
        intro y hy
        rw [I1]
        exact I12 y hy
      have hle := (List.subperm_of_subset I11 hsub).length_le
      have hmap : (alKeys pred).length = pred.length := by
        unfold alKeys
        rw [List.length_map]
      omega
    have hidxlt : List.indexOf v vis < pred.length + 1 := by
      have := List.indexOf_lt_length.mpr hvv
      omega
    rcases backtrace_ok al root vis dist pred I2a I2c I3 I1 hkv
      (pred.length + 1) v hvv hidxlt dv hdv with
      ⟨p2, hbt, hhead, hlast, hchain, hwt⟩
    exact ⟨(v, dv, some p2), spEntry_eq_reached hpv hbt hdv, rfl,
      fun _ => ⟨dv, p2, hdv, rfl, hhead, hlast, hchain, hwt⟩,
      fun hc => absurd hm hc⟩
  · have hmp : v ∉ alKeys pred := by
      rw [I1]
      exact hm
    exact ⟨(v, -1, none),
      spEntry_eq_unreached (alook_eq_none_of_not_mem hmp)
        (alook_eq_none_of_not_mem hm), rfl, fun hc => absurd hc hm,
      fun _ => rfl⟩

lemma spEntries_build (al : AL) (root : Nat) (vis : List Nat)
    (dist : NdMap Int) (pred : NdMap (Option Nat))
    (hinv : DijkInv al root vis dist pred []) :
    ∀ vs : List Nat, ∃ entries,
      vs.mapM (spEntry dist pred) = some entries ∧
      entries.map (fun q => q.1) = vs ∧
      ∀ q ∈ entries,
        (q.1 ∈ alKeys dist →
          ∃ dv p2, alook dist q.1 = some dv ∧ q = (q.1, dv, some p2) ∧
            p2.head? = some root ∧ p2.getLast? = some q.1 ∧
            List.Chain' (fun a b => ALAdj al a b) p2 ∧
            pathWeight al p2 = some dv) ∧
        (q.1 ∉ alKeys dist → q = (q.1, -1, none)) := by
  intro vs
  induction vs with
  | nil =>
    refine ⟨[], ?_, rfl, by simp⟩
    rw [List.mapM_nil]
    rfl
  | cons v tl ih =>
    rcases spEntry_ok al root vis dist pred hinv v with ⟨q, hq, hq1, hre, hun⟩
    rcases ih with ⟨entries, hmm, hmap, hprops⟩
    refine ⟨q :: entries, ?_, by simp [hmap, hq1], ?_⟩
    · rw [List.mapM_cons, hq, hmm]
      rfl
    · intro q2 hq2
      rcases List.mem_cons.mp hq2 with rfl | hmem
      · rw [hq1]
        exact ⟨hre, hun⟩
      · exact hprops q2 hmem

/-- C1: on every well-formed graph description with non-negative edge
weights and a declared root, the `shortest_paths` analysis returns one
entry per declared vertex; the root is reported with distance 0; every
vertex reachable from the root gets a path that starts at the root, ends
at the vertex, steps only along graph adjacencies, and accumulates
exactly the reported distance; every unreachable vertex is reported as
`(-1, no path)`. -/
theorem C1_dijkstra_path_validity (g : GraphData) (hwf : WellFormed g)
    (root : Nat) (hroot : root ∈ g.vertices)
    (hw : ∀ e ∈ g.edges, 0 ≤ e.2.2) :
    ∃ al entries, buildAL g = some al ∧
      analyze_graph "shortest_paths" (some root) g =
        some (.shortestPaths root entries) ∧
      entries.map (fun q => q.1) = g.vertices ∧
      (∀ q ∈ entries, q.1 = root → q.2.1 = 0) ∧
      ∀ q ∈ entries,
        (Relation.ReflTransGen (ALAdj al) root q.1 →
          ∃ p, q.2.2 = some p ∧ p.head? = some root ∧
            p.getLast? = some q.1 ∧
            List.Chain' (fun a b => ALAdj al a b) p ∧
            pathWeight al p = some q.2.1) ∧
        (¬ Relation.ReflTransGen (ALAdj al) root q.1 →
          q.2.1 = -1 ∧ q.2.2 = none) := by
  rcases buildAL_wf g hwf with ⟨al, hb, hkeys, hAdj⟩
  have hclosed : ∀ x y, ALAdj al x y → y ∈ alKeys al := by
    intro x y h
    rcases (hAdj x y).mp h with ⟨w, h2 | h2⟩
    · rw [hkeys]
      exact (hwf.2 _ h2).2
    · rw [hkeys]
      exact (hwf.2 _ h2).1
  have hnodup := buildAL_inner_nodup hb
  have hnn : ∀ x y w, alook2 al x y = some w → 0 ≤ w := by
    intro x y w hxy
    rcases buildAL_weights hb x y w hxy with ⟨e, he, hwe⟩
    rw [hwe]
    exact hw e he
  have hrootal : root ∈ alKeys al := by
    rw [hkeys]
    exact hroot
  have hinv0 : DijkInv al root [] [(root, 0)] [(root, none)]
      [(0, root)] := by
    refine ⟨rfl, ?_, ?_, ?_, ?_, by simp, ?_, ?_, ?_, ?_, by simp,
      by simp⟩
    · rw [alook_singleton]
      simp
    · rw [alook_singleton]
      simp
    · intro v hv
      rw [alook_singleton] at hv
      by_cases h : v = root
      · exact h
      · rw [if_neg h] at hv
        cases hv
    · intro v u hvu
      rw [alook_singleton] at hvu
      by_cases h : v = root
      · rw [if_pos h] at hvu
        cases hvu
      · rw [if_neg h] at hvu
        cases hvu
    · intro p hp
      simp at hp
      subst hp
      refine ⟨⟨0, ?_, by simp⟩, hrootal⟩
      simp only
      rw [alook_singleton]
      simp
    · intro x hx hxv
      simp [alKeys] at hx
      subst hx
      refine ⟨0, ?_, by simp⟩
      rw [alook_singleton]
      simp
    · intro v dv hdv
      rw [alook_singleton] at hdv
      by_cases h : v = root
      · rw [if_pos h] at hdv
        injection hdv with hdv
        omega
      · rw [if_neg h] at hdv
        cases hdv
    · intro x hx
      simp [alKeys] at hx
      subst hx
      exact Relation.ReflTransGen.refl
  rcases dijkstraLoop_spec al root hclosed hnodup hnn [] [(root, 0)]
    [(root, none)] [(0, root)] hinv0 (by simp) with
    ⟨dist2, pred2, hloop, vis2, hinvF, h9F⟩
  have hF := hinvF
  obtain ⟨F1, F2a, F2b, F2c, F3, F4, F5, F6, F7, F10, F11, F12⟩ := hF
  have hkv : ∀ x, x ∈ alKeys dist2 ↔ x ∈ vis2 := by
    intro x
    constructor
    · intro hx
      by_contra hxv
      rcases F6 x hx hxv with ⟨k, -, hkpq⟩
      simp at hkpq
    · exact F12 x
  have hreach : ∀ x, x ∈ alKeys dist2 ↔
      Relation.ReflTransGen (ALAdj al) root x := by
    intro x
    constructor
    · exact F10 x
    · intro hr
      refine rtg_mem_of_closed (mem_alKeys_of_alook F2a) ?_ hr
      intro u hu y hy
      rcases alook_of_ALAdj hy with ⟨nbrs, hl, hyk⟩
      obtain ⟨⟨y2, w2⟩, hmem, hyeq⟩ := List.mem_map.mp hyk
      have hy2 : y2 = y := hyeq
      subst hy2
      exact h9F u ((hkv u).mp hu) nbrs hl (y2, w2) hmem
  rcases spEntries_build al root vis2 dist2 pred2 hinvF g.vertices with
    ⟨entries, hmapM, hmap1, hprops⟩
  have hres : analyze_graph "shortest_paths" (some root) g =
      some (.shortestPaths root entries) := by
    simp only [analyze_graph, hb, hloop, hmapM]
  refine ⟨al, entries, hb, hres, hmap1, ?_, ?_⟩
  · intro q hq hq1
    rcases hprops q hq with ⟨hre, hun⟩
    have hrm : q.1 ∈ alKeys dist2 := by
      rw [hq1]
      exact mem_alKeys_of_alook F2a
    rcases hre hrm with ⟨dv, p2, hdv, hqeq, -⟩
    rw [hq1, F2a] at hdv
    injection hdv with hdv
    rw [hqeq]
    simp
    omega
  · intro q hq
    rcases hprops q hq with ⟨hre, hun⟩
    constructor
    · intro hr
      have hm : q.1 ∈ alKeys dist2 := (hreach q.1).mpr hr
      rcases hre hm with ⟨dv, p2, hdv, hqeq, hh, hl2, hch, hwt⟩
      refine ⟨p2, ?_, hh, ?_, hch, ?_⟩
      · rw [hqeq]
      · rw [hqeq] at hl2 ⊢
        exact hl2
      · rw [hqeq]
        simpa using hwt
    · intro hnr
      have hm : q.1 ∉ alKeys dist2 := fun hm2 => hnr ((hreach q.1).mp hm2)
      have hqeq := hun hm
      rw [hqeq]
      exact ⟨rfl, rfl⟩

/-- Witness for C1 at the concrete triangle graph with root 0. -/
theorem C1_dijkstra_path_validity_witness :
    ∃ al entries,
      buildAL ⟨[0, 1, 2], [(0, 1, 1), (1, 2, 2), (0, 2, 10)]⟩ = some al ∧
      analyze_graph "shortest_paths" (some 0)
          ⟨[0, 1, 2], [(0, 1, 1), (1, 2, 2), (0, 2, 10)]⟩ =
        some (.shortestPaths 0 entries) ∧
      entries.map (fun q => q.1) = [0, 1, 2] ∧
      (∀ q ∈ entries, q.1 = 0 → q.2.1 = 0) ∧
      ∀ q ∈ entries,
        (Relation.ReflTransGen (ALAdj al) 0 q.1 →
          ∃ p, q.2.2 = some p ∧ p.head? = some 0 ∧
            p.getLast? = some q.1 ∧
            List.Chain' (fun a b => ALAdj al a b) p ∧
            pathWeight al p = some q.2.1) ∧
        (¬ Relation.ReflTransGen (ALAdj al) 0 q.1 →
          q.2.1 = -1 ∧ q.2.2 = none) :=
  C1_dijkstra_path_validity ⟨[0, 1, 2], [(0, 1, 1), (1, 2, 2), (0, 2, 10)]⟩
    ⟨by decide, by decide⟩ 0 (by decide) (by decide)

/-! ### C2: Prim minimum spanning tree -/

lemma rtg_of_chain_list {R : Nat → Nat → Prop} :
    ∀ (l : List Nat) (a b : Nat), l.head? = some a → l.getLast? = some b →
      List.Chain' R l → Relation.ReflTransGen R a b := by
  intro l a b hh hl hc
  cases l with
  | nil => cases hh
  | cons a0 rest =>
    injection hh with hh
    subst hh
    rw [List.getLast?_eq_getLast _ (by simp)] at hl
    injection hl with hl
    exact List.relationReflTransGen_of_exists_chain rest hc hl

lemma dup_split {x : Nat} :
    ∀ {l : List Nat}, List.Duplicate x l →
      ∃ l1 l2 l3, l = l1 ++ (x :: (l2 ++ (x :: l3))) := by
  intro l h
  induction h with
  | cons_mem hmem =>
    rcases List.append_of_mem hmem with ⟨s, t, hst⟩
    exact ⟨[], s, t, by rw [hst]; rfl⟩
  | cons_duplicate hdup ih =>
    rcases ih with ⟨l1, l2, l3, hsp⟩
    rename_i y _
    exact ⟨y :: l1, l2, l3, by rw [hsp]; rfl⟩

lemma cons_getLast_or {x : Nat} (l2 l3 : List Nat) :
    ((x :: l3).getLast?).or ((x :: l2).getLast?) = (x :: l3).getLast? := by
  rw [List.getLast?_eq_getLast (x :: l3) (by simp)]
  rfl

lemma chain_shortcut {R : Nat → Nat → Prop} {l1 l2 l3 : List Nat} {x : Nat}
    (hc : List.Chain' R (l1 ++ (x :: (l2 ++ (x :: l3))))) :
    List.Chain' R (l1 ++ (x :: l3)) ∧
    (l1 ++ (x :: l3)).head? = (l1 ++ (x :: (l2 ++ (x :: l3)))).head? ∧
    (l1 ++ (x :: l3)).getLast? =
      (l1 ++ (x :: (l2 ++ (x :: l3)))).getLast? := by
  have hre : x :: (l2 ++ (x :: l3)) = (x :: l2) ++ (x :: l3) := by simp
  refine ⟨?_, ?_, ?_⟩
  · rw [List.chain'_append] at hc ⊢
    obtain ⟨h1, h2, h3⟩ := hc
    refine ⟨h1, ?_, ?_⟩
    · rw [hre] at h2
      exact (List.chain'_append.mp h2).2.1
    · intro u hu y hy
      refine h3 u hu y ?_
      simp at hy ⊢
      exact hy
  · rw [List.head?_append, List.head?_append]
    rfl
  · rw [List.getLast?_append, List.getLast?_append]
    congr 1
    rw [hre, List.getLast?_append]
    exact cons_getLast_or l2 l3

lemma exists_nodup_chain_aux {R : Nat → Nat → Prop} {a b : Nat} :
    ∀ (n : Nat) (l : List Nat), l.length ≤ n → l.head? = some a →
      l.getLast? = some b → List.Chain' R l →
      ∃ l2, l2.head? = some a ∧ l2.getLast? = some b ∧
        List.Chain' R l2 ∧ l2.Nodup := by
  intro n
  induction n with
  | zero =>
    intro l hlen hh hl hc
    cases l with
    | nil => cases hh
    | cons x t => simp at hlen
  | succ n ih =>
    intro l hlen hh hl hc
    by_cases hnd : l.Nodup
    · exact ⟨l, hh, hl, hc, hnd⟩
    · rcases List.exists_duplicate_iff_not_nodup.mpr hnd with ⟨x, hdup⟩
      rcases dup_split hdup with ⟨l1, l2, l3, hsp⟩
      subst hsp
      obtain ⟨hc2, hh2, hl2⟩ := chain_shortcut hc
      refine ih (l1 ++ x :: l3) ?_ (by rw [hh2]; exact hh)
        (by rw [hl2]; exact hl) hc2
      simp at hlen ⊢
      omega

lemma exists_nodup_chain {R : Nat → Nat → Prop} {a b : Nat}
    (h : Relation.ReflTransGen R a b) :
    ∃ l : List Nat, l.head? = some a ∧ l.getLast? = some b ∧
      List.Chain' R l ∧ l.Nodup := by
  rcases List.exists_chain_of_relationReflTransGen h with ⟨l0, hc, hgl⟩
  refine exists_nodup_chain_aux (a :: l0).length (a :: l0) le_rfl rfl ?_ hc
  rw [List.getLast?_eq_getLast _ (by simp), hgl]

lemma chain_first_crossing {S : List Nat} :
    ∀ (l : List Nat) (a b : Nat), l.head? = some a → l.getLast? = some b →
      a ∈ S → b ∉ S →
      ∃ p q x y, l = p ++ q ∧ p.getLast? = some x ∧ q.head? = some y ∧
        p.head? = some a ∧ q.getLast? = some b ∧ x ∈ S ∧ y ∉ S := by
  intro l
  induction l with
  | nil =>
    intro a b hh
    cases hh
  | cons a0 rest ih =>
    intro a b hh hl haS hbS
    injection hh with hh
    subst hh
    cases rest with
    | nil =>
      simp at hl
      subst hl
      exact absurd haS hbS
    | cons c rest2 =>
      by_cases hcS : c ∈ S
      · have hl2 : (c :: rest2).getLast? = some b := by
          rw [← List.getLast?_cons_cons]
          exact hl
        rcases ih c b rfl hl2 hcS hbS with
          ⟨p, q, x, y, hsp, hpl, hqh, hph, hql, hxS, hyS⟩
        refine ⟨a0 :: p, q, x, y, by rw [hsp]; rfl, ?_, hqh, rfl, hql,
          hxS, hyS⟩
        cases p with
        | nil => cases hpl
        | cons p0 pt =>
          rw [List.getLast?_cons_cons]
          exact hpl
      · exact ⟨[a0], c :: rest2, a0, c, rfl, rfl, rfl, rfl, hl, haS, hcS⟩

/-- Adjacency through an explicit edge list (used for spanning trees). -/
def TAdj (T : List (Nat × Nat × Int)) (a b : Nat) : Prop :=
  ∃ w, (a, b, w) ∈ T ∨ (b, a, w) ∈ T

/-- The total weight of an edge selection. -/
def weightSum (T : List (Nat × Nat × Int)) : Int :=
  (T.map (fun e => e.2.2)).sum

/-- A spanning tree of the graph description: a duplicate-free selection
of graph edges, one fewer than the vertices, connecting every declared
vertex to the vertex `v0`. -/
def SpanningTree (g : GraphData) (v0 : Nat)
    (T : List (Nat × Nat × Int)) : Prop :=
  T.Nodup ∧ (∀ e ∈ T, e ∈ g.edges) ∧
  T.length + 1 = g.vertices.length ∧
  ∀ v ∈ g.vertices, Relation.ReflTransGen (TAdj T) v0 v

lemma tadj_symm {T : List (Nat × Nat × Int)} : Symmetric (TAdj T) := by
  intro x y h
  rcases h with ⟨w, h | h⟩
  · exact ⟨w, Or.inr h⟩
  · exact ⟨w, Or.inl h⟩

lemma chain'_imp_mem {R R2 : Nat → Nat → Prop} :
    ∀ (l : List Nat), List.Chain' R l →
      (∀ u v, u ∈ l → v ∈ l → R u v → R2 u v) → List.Chain' R2 l := by
  intro l
  induction l with
  | nil => intro _ _; simp
  | cons u t ih =>
    intro hc hlift
    cases t with
    | nil => simp
    | cons v t2 =>
      rw [List.chain'_cons] at hc ⊢
      refine ⟨hlift u v (by simp) (by simp) hc.1, ?_⟩
      exact ih hc.2 (fun a b ha hb => hlift a b (by simp [ha]) (by simp [hb]))

lemma simple_pairwise {g : GraphData} (hsg : SimpleGraph' g) :
    g.edges.Pairwise (fun e1 e2 =>
      (e1.1 ≠ e2.1 ∨ e1.2.1 ≠ e2.2.1) ∧
      (e1.1 ≠ e2.2.1 ∨ e1.2.1 ≠ e2.1)) := by
  rw [List.pairwise_iff_get]
  intro i j hij
  exact hsg.2.2 i.1 j.1 i.2 j.2 (by omega)

lemma buildAL_alook2_mem {g : GraphData} {al : AL}
    (h : buildAL g = some al) :
    ∀ x y w, alook2 al x y = some w →
      (x, y, w) ∈ g.edges ∨ (y, x, w) ∈ g.edges := by
  unfold buildAL at h
  refine foldlM_edgeStep_pres
    (fun al => ∀ x y w, alook2 al x y = some w →
      (x, y, w) ∈ g.edges ∨ (y, x, w) ∈ g.edges)
    g.edges ?_ (initAL g) al ?_ h
  · intro al1 e al2 he h1 hstep x y w hw
    rw [(edgeStep_some_spec hstep).2 x y] at hw
    by_cases hc1 : x = e.2.1 ∧ y = e.1
    · rw [if_pos hc1] at hw
      injection hw with hw
      right
      rw [hc1.2, hc1.1, ← hw]
      exact he
    · rw [if_neg hc1] at hw
      by_cases hc2 : x = e.1 ∧ y = e.2.1
      · rw [if_pos hc2] at hw
        injection hw with hw
        left
        rw [hc2.1, hc2.2, ← hw]
        exact he
      · rw [if_neg hc2] at hw
        exact h1 x y w hw
  · intro x y w hw
    rw [alook2_initAL] at hw
    cases hw

lemma buildAL_alook2_of_mem {g : GraphData} {al : AL}
    (hsg : SimpleGraph' g) (h : buildAL g = some al) :
    ∀ e ∈ g.edges, alook2 al e.1 e.2.1 = some e.2.2 ∧
      alook2 al e.2.1 e.1 = some e.2.2 := by
  have hpw := simple_pairwise hsg
  have hsl : ∀ e ∈ g.edges, e.1 ≠ e.2.1 := hsg.2.1
  unfold buildAL at h
  have main : ∀ (es : List (Nat × Nat × Int)) (al0 al2 : AL),
      (∀ e2 ∈ es, e2 ∈ g.edges) →
      es.Pairwise (fun e1 e2 =>
        (e1.1 ≠ e2.1 ∨ e1.2.1 ≠ e2.2.1) ∧
        (e1.1 ≠ e2.2.1 ∨ e1.2.1 ≠ e2.1)) →
      es.foldlM edgeStep al0 = some al2 →
      ∀ e ∈ es, alook2 al2 e.1 e.2.1 = some e.2.2 ∧
        alook2 al2 e.2.1 e.1 = some e.2.2 := by
    intro es
    induction es with
    | nil =>
      intro al0 al2 _ _ _ e he
      simp at he
    | cons e0 tl ih =>
      intro al0 al2 hsub hpw2 hfold e he
      rcases hstep0 : edgeStep al0 e0 with _ | almid
      · rw [List.foldlM_cons, hstep0] at hfold
        cases hfold
      · rw [List.foldlM_cons, hstep0] at hfold
        rcases List.mem_cons.mp he with rfl | hetl
        · -- e is the head: set by this step, preserved afterwards
          have hchar := (edgeStep_some_spec hstep0).2
          have hne := hsl e (hsub e (by simp))
          have hset1 : alook2 almid e.1 e.2.1 = some e.2.2 := by
            rw [hchar e.1 e.2.1, if_neg (fun hc => hne hc.1),
              if_pos ⟨rfl, rfl⟩]
          have hset2 : alook2 almid e.2.1 e.1 = some e.2.2 := by
            rw [hchar e.2.1 e.1, if_pos ⟨rfl, rfl⟩]
          have hdist := (List.pairwise_cons.mp hpw2).1
          refine foldlM_edgeStep_pres
            (fun al3 => alook2 al3 e.1 e.2.1 = some e.2.2 ∧
              alook2 al3 e.2.1 e.1 = some e.2.2)
            tl ?_ almid al2 ⟨hset1, hset2⟩ hfold
          intro al3 e2 al4 he2 hP hstep2
          have hd := hdist e2 he2
          have hchar2 := (edgeStep_some_spec hstep2).2
          constructor
          · have h1 : ¬ (e.1 = e2.2.1 ∧ e.2.1 = e2.1) := by
              intro hc
              rcases hd.2 with h | h
              · exact h hc.1
              · exact h hc.2
            have h2 : ¬ (e.1 = e2.1 ∧ e.2.1 = e2.2.1) := by
              intro hc
              rcases hd.1 with h | h
              · exact h hc.1
              · exact h hc.2
            rw [hchar2 e.1 e.2.1, if_neg h1, if_neg h2]
            exact hP.1
          · have h1 : ¬ (e.2.1 = e2.2.1 ∧ e.1 = e2.1) := by
              intro hc
              rcases hd.1 with h | h
              · exact h hc.2
              · exact h hc.1
            have h2 : ¬ (e.2.1 = e2.1 ∧ e.1 = e2.2.1) := by
              intro hc
              rcases hd.2 with h | h
              · exact h hc.2
              · exact h hc.1
            rw [hchar2 e.2.1 e.1, if_neg h1, if_neg h2]
            exact hP.2
        · refine ih almid al2 (fun e2 h2 => hsub e2 (by simp [h2]))
            (List.pairwise_cons.mp hpw2).2 hfold e hetl
  intro e he
  exact main g.edges (initAL g) al (fun e2 h2 => h2) hpw h e he

lemma rtg_symm {R : Nat → Nat → Prop} (hs : Symmetric R) {a b : Nat}
    (h : Relation.ReflTransGen R a b) : Relation.ReflTransGen R b a := by
  induction h with
  | refl => exact Relation.ReflTransGen.refl
  | tail _ hbc ih =>
    exact Relation.ReflTransGen.trans
      (Relation.ReflTransGen.single (hs hbc)) ih

lemma rtg_patch {R R2 : Nat → Nat → Prop} {x y : Nat}
    (hsub : ∀ u v, R u v → R2 u v ∨ (u = x ∧ v = y) ∨ (u = y ∧ v = x))
    (hxy : Relation.ReflTransGen R2 x y)
    (hyx : Relation.ReflTransGen R2 y x) :
    ∀ a b, Relation.ReflTransGen R a b →
      Relation.ReflTransGen R2 a b := by
  intro a b h
  induction h with
  | refl => exact Relation.ReflTransGen.refl
  | tail _ hbc ih =>
    rcases hsub _ _ hbc with h2 | ⟨rfl, rfl⟩ | ⟨rfl, rfl⟩
    · exact Relation.ReflTransGen.tail ih h2
    · exact Relation.ReflTransGen.trans ih hxy
    · exact Relation.ReflTransGen.trans ih hyx

lemma triple_pair_cases {t : Nat × Nat × Int} {u v x y : Nat} {wt : Int}
    (he : (u, v, wt) = t ∨ (v, u, wt) = t)
    (hp : (t.1 = x ∧ t.2.1 = y) ∨ (t.1 = y ∧ t.2.1 = x)) :
    (u = x ∧ v = y) ∨ (u = y ∧ v = x) := by
  rcases he with he | he <;> rcases hp with ⟨h3, h4⟩ | ⟨h3, h4⟩ <;>
    rw [← he] at h3 h4
  · exact Or.inl ⟨h3, h4⟩
  · exact Or.inr ⟨h3, h4⟩
  · exact Or.inr ⟨h4, h3⟩
  · exact Or.inl ⟨h4, h3⟩

lemma perm_cons_erase_triple {t : Nat × Nat × Int} :
    ∀ {l : List (Nat × Nat × Int)}, t ∈ l →
      List.Perm l (t :: l.erase t) := by
  intro l h
  induction l with
  | nil => cases h
  | cons a tl ih =>
    by_cases he : a = t
    · subst he
      rw [List.erase_cons_head]
    · rcases List.mem_cons.mp h with h2 | h2
      · exact absurd h2.symm he
      · rw [List.erase_cons_tail (by simp [he])]
        exact List.Perm.trans (List.Perm.cons a (ih h2))
          (List.Perm.swap t a _)

lemma spanning_exchange {g : GraphData} {al : AL}
    (hsg : SimpleGraph' g) (hb : buildAL g = some al)
    {v0 : Nat} {M : List (Nat × Nat × Int)} (hM : SpanningTree g v0 M)
    {S : List Nat} {a b : Nat} {w : Int}
    (haV : a ∈ g.vertices) (hbV : b ∈ g.vertices)
    (haS : a ∈ S) (hbS : b ∉ S)
    (hab : alook2 al a b = some w)
    (hmin : ∀ x y wf, x ∈ S → y ∉ S → alook2 al x y = some wf → w ≤ wf)
    (hnc : ¬ TAdj M a b) :
    ∃ tf tn, tf ∈ M ∧ (tf.1 ∉ S ∨ tf.2.1 ∉ S) ∧
      tn.2.2 = w ∧ ((tn.1 = a ∧ tn.2.1 = b) ∨ (tn.1 = b ∧ tn.2.1 = a)) ∧
      SpanningTree g v0 (M.erase tf ++ [tn]) ∧
      weightSum (M.erase tf ++ [tn]) ≤ weightSum M := by
  obtain ⟨hnd, hsubE, hlen, hconn⟩ := hM
  have hnew : ∃ t2 : Nat × Nat × Int, t2 ∈ g.edges ∧ t2.2.2 = w ∧
      ((t2.1 = a ∧ t2.2.1 = b) ∨ (t2.1 = b ∧ t2.2.1 = a)) := by
    rcases buildAL_alook2_mem hb a b w hab with h | h
    · exact ⟨(a, b, w), h, rfl, Or.inl ⟨rfl, rfl⟩⟩
    · exact ⟨(b, a, w), h, rfl, Or.inr ⟨rfl, rfl⟩⟩
  obtain ⟨tn, htnmem, htnw, htnpair⟩ := hnew
  have hMab : Relation.ReflTransGen (TAdj M) a b :=
    Relation.ReflTransGen.trans (rtg_symm tadj_symm (hconn a haV))
      (hconn b hbV)
  obtain ⟨l, hlh, hll, hlc, hlnd⟩ := exists_nodup_chain hMab
  obtain ⟨p, q, x, y, hsp, hpl, hqh, hph, hql, hxS, hyS⟩ :=
    chain_first_crossing l a b hlh hll haS hbS
  subst hsp
  rw [List.nodup_append] at hlnd
  obtain ⟨hpnd, hqnd, hdisj⟩ := hlnd
  rw [List.chain'_append] at hlc
  obtain ⟨hpc, hqc, hlink⟩ := hlc
  have hxy : TAdj M x y := hlink x hpl y hqh
  obtain ⟨wf, hf⟩ := hxy
  have htf : ∃ tf : Nat × Nat × Int, tf ∈ M ∧ tf.2.2 = wf ∧
      ((tf.1 = x ∧ tf.2.1 = y) ∨ (tf.1 = y ∧ tf.2.1 = x)) := by
    rcases hf with h | h
    · exact ⟨(x, y, wf), h, rfl, Or.inl ⟨rfl, rfl⟩⟩
    · exact ⟨(y, x, wf), h, rfl, Or.inr ⟨rfl, rfl⟩⟩
  obtain ⟨tf, htfM, htfw, htfpair⟩ := htf
  have halxy : alook2 al x y = some wf := by
    have h2 := buildAL_alook2_of_mem hsg hb tf (hsubE tf htfM)
    rcases htfpair with ⟨h3, h4⟩ | ⟨h3, h4⟩
    · rw [h3, h4, htfw] at h2
      exact h2.1
    · rw [h3, h4, htfw] at h2
      exact h2.2
  have hwle : w ≤ wf := hmin x y wf hxS hyS halxy
  have htnnotM : tn ∉ M := by
    intro hmem
    apply hnc
    rcases htnpair with ⟨h3, h4⟩ | ⟨h3, h4⟩
    · exact ⟨tn.2.2, Or.inl (by rw [← h3, ← h4]; exact hmem)⟩
    · exact ⟨tn.2.2, Or.inr (by rw [← h3, ← h4]; exact hmem)⟩
  have hndM2 : (M.erase tf ++ [tn]).Nodup := by
    rw [List.nodup_append]
    refine ⟨hnd.erase tf, List.nodup_singleton tn, ?_⟩
    intro u hu hu2
    rw [List.mem_singleton] at hu2
    subst hu2
    exact htnnotM (List.erase_subset _ _ hu)
  have hM2mem : tn ∈ M.erase tf ++ [tn] := by simp
  have hadjab : TAdj (M.erase tf ++ [tn]) a b := by
    rcases htnpair with ⟨h3, h4⟩ | ⟨h3, h4⟩
    · exact ⟨tn.2.2, Or.inl (by rw [← h3, ← h4]; exact hM2mem)⟩
    · exact ⟨tn.2.2, Or.inr (by rw [← h3, ← h4]; exact hM2mem)⟩
  have hlift : ∀ u v, TAdj M u v →
      ¬ ((u = x ∧ v = y) ∨ (u = y ∧ v = x)) →
      TAdj (M.erase tf ++ [tn]) u v := by
    rintro u v ⟨wt, hwt⟩ hnot
    rcases hwt with h | h
    · have hne2 : (u, v, wt) ≠ tf := fun he =>
        hnot (triple_pair_cases (Or.inl he) htfpair)
      exact ⟨wt, Or.inl (List.mem_append_left _
        ((List.mem_erase_of_ne hne2).mpr h))⟩
    · have hne2 : (v, u, wt) ≠ tf := fun he =>
        hnot (triple_pair_cases (Or.inr he) htfpair)
      exact ⟨wt, Or.inr (List.mem_append_left _
        ((List.mem_erase_of_ne hne2).mpr h))⟩
  have hyq : y ∈ q := List.mem_of_mem_head? hqh
  have hxp : x ∈ p := List.mem_of_mem_getLast? hpl
  have hynp : y ∉ p := fun hyp => hdisj hyp hyq
  have hxnq : x ∉ q := fun hxq => hdisj hxp hxq
  have hpc2 : List.Chain' (TAdj (M.erase tf ++ [tn])) p :=
    chain'_imp_mem p hpc (fun u v hu hv huv => hlift u v huv (by
      rintro (⟨rfl, rfl⟩ | ⟨rfl, rfl⟩)
      · exact hynp hv
      · exact hynp hu))
  have hqc2 : List.Chain' (TAdj (M.erase tf ++ [tn])) q :=
    chain'_imp_mem q hqc (fun u v hu hv huv => hlift u v huv (by
      rintro (⟨rfl, rfl⟩ | ⟨rfl, rfl⟩)
      · exact hxnq hu
      · exact hxnq hv))
  have hM2xy : Relation.ReflTransGen (TAdj (M.erase tf ++ [tn])) x y := by
    have h1 := rtg_of_chain_list p a x hph hpl hpc2
    have h2 := rtg_of_chain_list q y b hqh hql hqc2
    exact Relation.ReflTransGen.trans (rtg_symm tadj_symm h1)
      (Relation.ReflTransGen.trans (Relation.ReflTransGen.single hadjab)
        (rtg_symm tadj_symm h2))
  have hM2yx := rtg_symm tadj_symm hM2xy
  have hconn2 : ∀ v ∈ g.vertices,
      Relation.ReflTransGen (TAdj (M.erase tf ++ [tn])) v0 v := by
    intro v hv
    refine rtg_patch ?_ hM2xy hM2yx v0 v (hconn v hv)
    intro u v2 huv
    by_cases hc : (u = x ∧ v2 = y) ∨ (u = y ∧ v2 = x)
    · rcases hc with ⟨rfl, rfl⟩ | ⟨rfl, rfl⟩
      · exact Or.inr (Or.inl ⟨rfl, rfl⟩)
      · exact Or.inr (Or.inr ⟨rfl, rfl⟩)
    · exact Or.inl (hlift u v2 huv hc)
  have hws : weightSum (M.erase tf ++ [tn]) =
      weightSum M - tf.2.2 + tn.2.2 := by
    have hperm : List.Perm M (tf :: M.erase tf) :=
      perm_cons_erase_triple htfM
    have hse := (hperm.map (fun e : Nat × Nat × Int => e.2.2)).sum_eq
    unfold weightSum
    rw [List.map_append, List.sum_append, hse]
    simp only [List.map_cons, List.sum_cons, List.map_nil,
      List.sum_nil, List.map_singleton]
    omega
  have hwle2 : weightSum (M.erase tf ++ [tn]) ≤ weightSum M := by
    rw [hws, htnw, htfw]
    omega
  have hlen1 : 0 < M.length := List.length_pos_of_mem htfM
  have htfout : tf.1 ∉ S ∨ tf.2.1 ∉ S := by
    rcases htfpair with ⟨h3, h4⟩ | ⟨h3, h4⟩
    · right
      rw [h4]
      exact hyS
    · left
      rw [h3]
      exact hyS
  refine ⟨tf, tn, htfM, htfout, htnw, htnpair,
    ⟨hndM2, ?_, ?_, hconn2⟩, hwle2⟩
  · intro e he
    rcases List.mem_append.mp he with h | h
    · exact hsubE e (List.erase_subset _ _ h)
    · rw [List.mem_singleton] at h
      subst h
      exact htnmem
  · rw [List.length_append, List.length_erase_of_mem htfM]
    simp only [List.length_singleton]
    omega

lemma extractMin_tripLt_notlt :
    ∀ (l : List (Int × Nat × Nat)) (e : Int × Nat × Nat)
      (rest : List (Int × Nat × Nat)),
      extractMin tripLt l = some (e, rest) →
      ∀ p ∈ l, tripLt p e = false := by
  intro l
  induction l with
  | nil =>
    intro e rest h
    rw [extractMin] at h
    cases h
  | cons x xs ih =>
    intro e rest h p hp
    rw [extractMin] at h
    rcases hrec : extractMin tripLt xs with _ | ⟨m2, rest2⟩
    · rw [hrec] at h
      replace h : some (x, ([] : List (Int × Nat × Nat))) = some (e, rest) := h
      simp only [Option.some.injEq, Prod.mk.injEq] at h
      obtain ⟨rfl, rfl⟩ := h
      have hxs := extractMin_none _ xs hrec
      subst hxs
      simp at hp
      subst hp
      simp [tripLt]
    · rw [hrec] at h
      replace h : (if tripLt m2 x = true then some (m2, x :: rest2)
          else some (x, xs)) = some (e, rest) := h
      by_cases hlt : tripLt m2 x = true
      · rw [if_pos hlt] at h
        simp only [Option.some.injEq, Prod.mk.injEq] at h
        obtain ⟨rfl, rfl⟩ := h
        rcases List.mem_cons.mp hp with rfl | hmem
        · simp [tripLt] at hlt ⊢
          omega
        · exact ih _ rest2 hrec p hmem
      · rw [if_neg hlt] at h
        simp only [Option.some.injEq, Prod.mk.injEq] at h
        obtain ⟨rfl, rfl⟩ := h
        rcases List.mem_cons.mp hp with rfl | hmem
        · simp [tripLt]
        · have h1 := ih m2 rest2 hrec p hmem
          simp [tripLt] at hlt h1 ⊢
          omega

lemma mem_of_alook {α : Type} {l : NdMap α} {k : Nat} {v : α}
    (h : alook l k = some v) : (k, v) ∈ l := by
  unfold alook at h
  rcases hf : l.find? (fun p => p.1 == k) with _ | p
  · rw [hf] at h
    cases h
  · rw [hf] at h
    simp only [Option.map_some', Option.some.injEq] at h
    have hp := List.mem_of_find?_eq_some hf
    have hk := List.find?_some hf
    simp only [beq_iff_eq] at hk
    rcases p with ⟨p1, p2⟩
    simp only at hk h
    rw [← hk, ← h]
    exact hp

lemma primLoop_done {al : AL} {mstV : List Nat}
    {mstE pq : List (Int × Nat × Nat)}
    (h : extractMin tripLt pq = none) :
    primLoop al mstV mstE pq = some mstE := by
  rw [primLoop]
  split
  · rfl
  · rename_i e rest h2
    rw [h] at h2
    cases h2

lemma primLoop_skip {al : AL} {mstV : List Nat}
    {mstE pq : List (Int × Nat × Nat)} {e : Int × Nat × Nat}
    {rest : List (Int × Nat × Nat)}
    (h : extractMin tripLt pq = some (e, rest))
    (hv : e.2.1 ∈ mstV ∧ e.2.2 ∈ mstV) :
    primLoop al mstV mstE pq = primLoop al mstV mstE rest := by
  rw [primLoop]
  split
  · rename_i h2
    rw [h] at h2
    cases h2
  · rename_i e2 rest2 h2
    rw [h] at h2
    simp at h2
    obtain ⟨rfl, rfl⟩ := h2
    rw [dif_pos hv]

lemma primLoop_add {al : AL} {mstV : List Nat}
    {mstE pq : List (Int × Nat × Nat)} {e : Int × Nat × Nat}
    {rest : List (Int × Nat × Nat)} {nbrs : NdMap Int}
    (h : extractMin tripLt pq = some (e, rest))
    (hskip : ¬ (e.2.1 ∈ mstV ∧ e.2.2 ∈ mstV))
    (h1 : e.2.1 ∈ mstV)
    (hl : alook al e.2.2 = some nbrs) :
    primLoop al mstV mstE pq =
      primLoop al (mstV ++ [e.2.2]) (mstE ++ [e])
        (rest ++ (nbrs.filter
          (fun p => !((mstV ++ [e.2.2]).contains p.1))).map
          (fun p => (p.2, e.2.2, p.1))) := by
  rw [primLoop]
  split
  · rename_i h2
    rw [h] at h2
    cases h2
  · rename_i e2 rest2 h2
    rw [h] at h2
    simp at h2
    obtain ⟨rfl, rfl⟩ := h2
    rw [dif_neg hskip, dif_pos h1]
    split
    · rename_i h3
      rw [hl] at h3
      cases h3
    · rename_i nbrs2 h3
      rw [hl] at h3
      simp at h3
      subst h3
      rfl

/-- The Prim loop invariant: the tree vertices are distinct known keys,
every queued candidate starts inside the tree and carries the true edge
weight, every edge leaving the tree is still queued (lazy deletion), and
the recorded tree edges pair up with the tree vertices one-for-one. -/
def PrimInv (al : AL) (mstV : List Nat) (mstE : List (Int × Nat × Nat))
    (pq : List (Int × Nat × Nat)) : Prop :=
  mstV.Nodup ∧
  (∀ v ∈ mstV, v ∈ alKeys al) ∧
  (∀ t ∈ pq, t.2.1 ∈ mstV ∧ alook2 al t.2.1 t.2.2 = some t.1) ∧
  (∀ x y w2, x ∈ mstV → alook2 al x y = some w2 →
    y ∈ mstV ∨ (w2, x, y) ∈ pq) ∧
  (∀ t ∈ mstE, t.2.1 ∈ mstV ∧ t.2.2 ∈ mstV ∧
    alook2 al t.2.1 t.2.2 = some t.1) ∧
  mstE.length + 1 = mstV.length

/-- A graph-description edge triple matches a Prim `(weight, start, end)`
record when weights agree and the endpoints agree in some orientation. -/
def EdgeMatch (m : Nat × Nat × Int) (t : Int × Nat × Nat) : Prop :=
  m.2.2 = t.1 ∧
  ((m.1 = t.2.1 ∧ m.2.1 = t.2.2) ∨ (m.1 = t.2.2 ∧ m.2.1 = t.2.1))

/-- Optimality invariant against a comparison tree `T`: some spanning
tree `M` no heavier than `T` decomposes into a part `MC` matching the
edges recorded so far plus a reserve `R`. -/
def OptInv (g : GraphData) (v0 : Nat) (T : List (Nat × Nat × Int))
    (mstE : List (Int × Nat × Nat)) : Prop :=
  ∃ M MC R, SpanningTree g v0 M ∧ weightSum M ≤ weightSum T ∧
    List.Perm M (MC ++ R) ∧ List.Forall₂ EdgeMatch MC mstE

lemma forall2_mem_left {R : (Nat × Nat × Int) → (Int × Nat × Nat) → Prop}
    {l1 : List (Nat × Nat × Int)} {l2 : List (Int × Nat × Nat)}
    (h : List.Forall₂ R l1 l2) : ∀ m ∈ l1, ∃ t ∈ l2, R m t := by
  induction h with
  | nil =>
    intro m hm
    cases hm
  | cons hR _ ih =>
    intro m hm
    rcases List.mem_cons.mp hm with rfl | hm2
    · exact ⟨_, by simp, hR⟩
    · rcases ih m hm2 with ⟨t, ht, hRt⟩
      exact ⟨t, by simp [ht], hRt⟩

lemma forall2_weight {MC : List (Nat × Nat × Int)}
    {l : List (Int × Nat × Nat)}
    (h : List.Forall₂ EdgeMatch MC l) :
    weightSum (l.map (fun e => (e.2.1, e.2.2, e.1))) = weightSum MC := by
  induction h with
  | nil => rfl
  | cons hR _ ih =>
    unfold weightSum at ih ⊢
    simp only [List.map_cons, List.sum_cons]
    rw [ih, hR.1]

lemma perm_erase_of_perm_cons {t : Nat × Nat × Int}
    {l l2 : List (Nat × Nat × Int)}
    (h : List.Perm l (t :: l2)) : List.Perm (l.erase t) l2 := by
  have ht : t ∈ l := h.symm.subset (by simp)
  exact ((perm_cons_erase_triple ht).symm.trans h).cons_inv

lemma forall2_append {R : (Nat × Nat × Int) → (Int × Nat × Nat) → Prop}
    {l1 l3 : List (Nat × Nat × Int)} {l2 l4 : List (Int × Nat × Nat)}
    (h : List.Forall₂ R l1 l2) (h2 : List.Forall₂ R l3 l4) :
    List.Forall₂ R (l1 ++ l3) (l2 ++ l4) := by
  induction h with
  | nil => exact h2
  | cons hR _ ih => exact List.Forall₂.cons hR ih

lemma prim_skip_setup {al : AL} {mstV : List Nat}
    {mstE pq : List (Int × Nat × Nat)} {e : Int × Nat × Nat}
    {rest : List (Int × Nat × Nat)}
    (hpop : extractMin tripLt pq = some (e, rest))
    (hv : e.2.1 ∈ mstV ∧ e.2.2 ∈ mstV)
    (hinv : PrimInv al mstV mstE pq) :
    PrimInv al mstV mstE rest := by
  obtain ⟨Pnd, Pkeys, P1, P2, P3, P4⟩ := hinv
  have hperm := extractMin_perm tripLt pq e rest hpop
  refine ⟨Pnd, Pkeys, ?_, ?_, P3, P4⟩
  · intro t ht
    exact P1 t (hperm.symm.subset (by simp [ht]))
  · intro x y w2 hx hxy
    rcases P2 x y w2 hx hxy with h | h
    · exact Or.inl h
    · have h2 := hperm.subset h
      rcases List.mem_cons.mp h2 with h3 | h3
      · left
        have h4 : y = e.2.2 := by rw [← h3]
        rw [h4]
        exact hv.2
      · exact Or.inr h3

lemma prim_step_setup {g : GraphData} {al : AL} (v0 : Nat)
    (hsg : SimpleGraph' g) (hb : buildAL g = some al)
    (hkeys : alKeys al = g.vertices)
    (hclosed : ∀ x y, ALAdj al x y → y ∈ alKeys al)
    {mstV : List Nat} {mstE pq : List (Int × Nat × Nat)}
    {e : Int × Nat × Nat} {rest : List (Int × Nat × Nat)}
    {nbrs : NdMap Int}
    (hpop : extractMin tripLt pq = some (e, rest))
    (hskip : ¬ (e.2.1 ∈ mstV ∧ e.2.2 ∈ mstV))
    (h1 : e.2.1 ∈ mstV)
    (hl : alook al e.2.2 = some nbrs)
    (hinv : PrimInv al mstV mstE pq) :
    PrimInv al (mstV ++ [e.2.2]) (mstE ++ [e])
      (rest ++ (nbrs.filter
        (fun p => !((mstV ++ [e.2.2]).contains p.1))).map
        (fun p => (p.2, e.2.2, p.1))) ∧
    ∀ T, OptInv g v0 T mstE → OptInv g v0 T (mstE ++ [e]) := by
  obtain ⟨Pnd, Pkeys, P1, P2, P3, P4⟩ := hinv
  have hz : e.2.2 ∉ mstV := fun hz2 => hskip ⟨h1, hz2⟩
  have hperm := extractMin_perm tripLt pq e rest hpop
  have hepq : e ∈ pq := hperm.symm.subset (by simp)
  have he1 := P1 e hepq
  have hzkeys : e.2.2 ∈ alKeys al := hclosed e.2.1 e.2.2 ⟨e.1, he1.2⟩
  have hinner : (alKeys nbrs).Nodup := buildAL_inner_nodup hb e.2.2 nbrs hl
  constructor
  · refine ⟨?_, ?_, ?_, ?_, ?_, ?_⟩
    · rw [List.nodup_append]
      refine ⟨Pnd, List.nodup_singleton _, ?_⟩
      intro u hu hu2
      rw [List.mem_singleton] at hu2
      subst hu2
      exact hz hu
    · intro v hv
      rcases List.mem_append.mp hv with h | h
      · exact Pkeys v h
      · rw [List.mem_singleton] at h
        subst h
        exact hzkeys
    · intro t ht
      rcases List.mem_append.mp ht with h | h
      · have h2 := P1 t (hperm.symm.subset (by simp [h]))
        exact ⟨List.mem_append_left _ h2.1, h2.2⟩
      · rcases List.mem_map.mp h with ⟨p, hpf, rfl⟩
        refine ⟨by simp, ?_⟩
        show alook2 al e.2.2 p.1 = some p.2
        unfold alook2
        rw [hl]
        exact alook_of_mem_nodup hinner (List.mem_of_mem_filter hpf)
    · intro x y w2 hx hxy
      rcases List.mem_append.mp hx with hxm | hxm
      · rcases P2 x y w2 hxm hxy with h | h
        · exact Or.inl (List.mem_append_left _ h)
        · have h2 := hperm.subset h
          rcases List.mem_cons.mp h2 with h3 | h3
          · left
            have h4 : y = e.2.2 := by rw [← h3]
            rw [h4]
            simp
          · exact Or.inr (List.mem_append_left _ h3)
      · rw [List.mem_singleton] at hxm
        subst hxm
        unfold alook2 at hxy
        rw [hl] at hxy
        have hyn := mem_of_alook hxy
        by_cases hy : y ∈ mstV ++ [e.2.2]
        · exact Or.inl hy
        · right
          refine List.mem_append_right _ (List.mem_map.mpr ⟨(y, w2), ?_, rfl⟩)
          refine List.mem_filter.mpr ⟨hyn, ?_⟩
          rw [contains_false_iff]
          exact hy
    · intro t ht
      rcases List.mem_append.mp ht with h | h
      · have h2 := P3 t h
        exact ⟨List.mem_append_left _ h2.1, List.mem_append_left _ h2.2.1,
          h2.2.2⟩
      · rw [List.mem_singleton] at h
        subst h
        exact ⟨List.mem_append_left _ h1, by simp, he1.2⟩
    · simp only [List.length_append, List.length_singleton]
      omega
  · rintro T ⟨M, MC, R, hMsp, hMw, hMperm, hMf2⟩
    have hMCend : ∀ m ∈ MC, m.1 ∈ mstV ∧ m.2.1 ∈ mstV := by
      intro m hm
      rcases forall2_mem_left hMf2 m hm with ⟨t, ht, hR⟩
      have h3 := P3 t ht
      rcases hR.2 with ⟨ha, hb2⟩ | ⟨ha, hb2⟩
      · exact ⟨by rw [ha]; exact h3.1, by rw [hb2]; exact h3.2.1⟩
      · exact ⟨by rw [ha]; exact h3.2.1, by rw [hb2]; exact h3.1⟩
    by_cases hadj : TAdj M e.2.1 e.2.2
    · obtain ⟨wm, hm⟩ := hadj
      have htm : ∃ tm : Nat × Nat × Int, tm ∈ M ∧ tm.2.2 = wm ∧
          ((tm.1 = e.2.1 ∧ tm.2.1 = e.2.2) ∨
            (tm.1 = e.2.2 ∧ tm.2.1 = e.2.1)) := by
        rcases hm with h | h
        · exact ⟨(e.2.1, e.2.2, wm), h, rfl, Or.inl ⟨rfl, rfl⟩⟩
        · exact ⟨(e.2.2, e.2.1, wm), h, rfl, Or.inr ⟨rfl, rfl⟩⟩
      obtain ⟨tm, htmM, htmw, htmpair⟩ := htm
      have hthis : alook2 al e.2.1 e.2.2 = some tm.2.2 := by
        rcases htmpair with ⟨ha, hb2⟩ | ⟨ha, hb2⟩
        · rw [← ha, ← hb2]
          exact (buildAL_alook2_of_mem hsg hb tm (hMsp.2.1 tm htmM)).1
        · rw [← ha, ← hb2]
          exact (buildAL_alook2_of_mem hsg hb tm (hMsp.2.1 tm htmM)).2
      have htw : tm.2.2 = e.1 := by
        have h5 := he1.2
        rw [hthis] at h5
        injection h5 with h5
      have htmnMC : tm ∉ MC := by
        intro hmc
        have h6 := hMCend tm hmc
        rcases htmpair with ⟨ha, hb2⟩ | ⟨ha, hb2⟩
        · exact hz (by rw [← hb2]; exact h6.2)
        · exact hz (by rw [← ha]; exact h6.1)
      have htmR : tm ∈ R := by
        have h7 := hMperm.subset htmM
        rcases List.mem_append.mp h7 with h | h
        · exact absurd h htmnMC
        · exact h
      refine ⟨M, MC ++ [tm], R.erase tm, hMsp, hMw, ?_, ?_⟩
      · have h8 : List.Perm R (tm :: R.erase tm) := perm_cons_erase_triple htmR
        have h9 := List.Perm.append_left MC h8
        have h10 : MC ++ (tm :: R.erase tm) = (MC ++ [tm]) ++ R.erase tm := by
          rw [List.append_assoc]
          rfl
        rw [← h10]
        exact hMperm.trans h9
      · exact forall2_append hMf2
          (List.Forall₂.cons ⟨htw, htmpair⟩ List.Forall₂.nil)
    · have hmin : ∀ x y wf, x ∈ mstV → y ∉ mstV →
          alook2 al x y = some wf → e.1 ≤ wf := by
        intro x y wf hx hy hxy
        rcases P2 x y wf hx hxy with h | h
        · exact absurd h hy
        · have h11 := extractMin_tripLt_notlt pq e rest hpop (wf, x, y) h
          simp [tripLt] at h11
          omega
      have haV : e.2.1 ∈ g.vertices := by
        rw [← hkeys]
        exact Pkeys e.2.1 h1
      have hbV : e.2.2 ∈ g.vertices := by
        rw [← hkeys]
        exact hzkeys
      obtain ⟨tf, tn, htfM, htfout, htnw, htnpair, hsp2, hwle2⟩ :=
        spanning_exchange hsg hb hMsp haV hbV h1 hz he1.2 hmin hadj
      have htfnMC : tf ∉ MC := by
        intro hmc
        have h6 := hMCend tf hmc
        rcases htfout with h | h
        · exact h h6.1
        · exact h h6.2
      refine ⟨M.erase tf ++ [tn], MC ++ [tn], R.erase tf, hsp2,
        le_trans hwle2 hMw, ?_, ?_⟩
      · have h8 : List.Perm M (tf :: (MC ++ R.erase tf)) := by
          have h9 : tf ∈ R := by
            have h7 := hMperm.subset htfM
            rcases List.mem_append.mp h7 with h | h
            · exact absurd h htfnMC
            · exact h
          have h10 : List.Perm R (tf :: R.erase tf) :=
            perm_cons_erase_triple h9
          refine hMperm.trans ((List.Perm.append_left MC h10).trans ?_)
          exact List.perm_middle
        have h12 := perm_erase_of_perm_cons h8
        have h13 := h12.append_right [tn]
        refine h13.trans ?_
        have h14 : (MC ++ R.erase tf) ++ [tn] = MC ++ (R.erase tf ++ [tn]) :=
          List.append_assoc MC (R.erase tf) [tn]
        rw [h14]
        refine (List.Perm.append_left MC List.perm_append_comm).trans ?_
        have h15 : MC ++ ([tn] ++ R.erase tf) = (MC ++ [tn]) ++ R.erase tf :=
          (List.append_assoc MC [tn] (R.erase tf)).symm
        rw [h15]
      · exact forall2_append hMf2
          (List.Forall₂.cons ⟨htnw, htnpair⟩ List.Forall₂.nil)

lemma primLoop_spec (g : GraphData) (v0 : Nat)
    (al : AL) (hsg : SimpleGraph' g) (hb : buildAL g = some al)
    (hkeys : alKeys al = g.vertices)
    (hclosed : ∀ x y, ALAdj al x y → y ∈ alKeys al) :
    ∀ (mstV : List Nat) (mstE pq : List (Int × Nat × Nat)),
      PrimInv al mstV mstE pq →
      ∃ mstE2 mstV2, primLoop al mstV mstE pq = some mstE2 ∧
        PrimInv al mstV2 mstE2 [] ∧
        (∀ v ∈ mstV, v ∈ mstV2) ∧
        (∀ T, OptInv g v0 T mstE → OptInv g v0 T mstE2) := by
  intro mstV mstE pq
  induction mstV, mstE, pq using primLoop.induct al with
  | case1 a b c h =>
    intro hinv
    have hc := extractMin_none tripLt c h
    subst hc
    exact ⟨b, a, primLoop_done h, hinv, fun v hv => hv, fun T ht => ht⟩
  | case2 a b c d e f g2 ih =>
    intro hinv
    have hinv2 := prim_skip_setup f g2 hinv
    obtain ⟨mstE2, mstV2, hrun, hfin, hmono, hopt⟩ := ih hinv2
    exact ⟨mstE2, mstV2, (primLoop_skip f g2).trans hrun, hfin, hmono, hopt⟩
  | case3 a b c d e f g2 h2 i2 =>
    intro hinv
    obtain ⟨Pnd, Pkeys, P1, P2, P3, P4⟩ := hinv
    have hd : d ∈ c := (extractMin_perm tripLt c d e f).symm.subset (by simp)
    have hzk : d.2.2 ∈ alKeys al := hclosed d.2.1 d.2.2 ⟨d.1, (P1 d hd).2⟩
    rcases alook_isSome_of_mem hzk with ⟨m, hm⟩
    rw [i2] at hm
    cases hm
  | case4 a b c d e f g2 h2 i2 j2 ih =>
    intro hinv
    obtain ⟨hinv2, hoptstep⟩ :=
      prim_step_setup v0 hsg hb hkeys hclosed f g2 h2 j2 hinv
    obtain ⟨mstE2, mstV2, hrun, hfin, hmono, hopt⟩ := ih hinv2
    refine ⟨mstE2, mstV2, (primLoop_add f g2 h2 j2).trans hrun, hfin, ?_, ?_⟩
    · intro v hv
      exact hmono v (List.mem_append_left _ hv)
    · intro T ht
      exact hopt T (hoptstep T ht)
  | case5 a b c d e f g2 h2 i2 =>
    intro hinv
    obtain ⟨Pnd, Pkeys, P1, P2, P3, P4⟩ := hinv
    have hd : d ∈ c := (extractMin_perm tripLt c d e f).symm.subset (by simp)
    exact absurd (P1 d hd).1 h2
  | case6 a b c d e f g2 h2 i2 j2 ih =>
    intro hinv
    obtain ⟨Pnd, Pkeys, P1, P2, P3, P4⟩ := hinv
    have hd : d ∈ c := (extractMin_perm tripLt c d e f).symm.subset (by simp)
    exact absurd (P1 d hd).1 h2

/-- C2: on a well-formed simple connected graph description the "mst"
analysis returns exactly V-1 (start, end, weight) edges whose total
weight is at most the total weight of every spanning tree; on a
disconnected one it returns the false (no-tree) result. -/
theorem C2_mst_minimal (g : GraphData) (hsg : SimpleGraph' g)
    (root : Option Nat) (v0 : Nat) (vrest : List Nat)
    (hv : g.vertices = v0 :: vrest) :
    ((∀ v ∈ g.vertices, Relation.ReflTransGen (EdgeAdj g) v0 v) →
      ∃ mstE, analyze_graph "mst" root g = some (.mst (some mstE)) ∧
        mstE.length + 1 = g.vertices.length ∧
        ∀ T, SpanningTree g v0 T → weightSum mstE ≤ weightSum T) ∧
    (¬ (∀ v ∈ g.vertices, Relation.ReflTransGen (EdgeAdj g) v0 v) →
      analyze_graph "mst" root g = some (.mst none)) := by
  have hwf : WellFormed g := hsg.1
  rcases buildAL_wf g hwf with ⟨al, hal, hkeys, hAdj⟩
  have hclosed : ∀ x y, ALAdj al x y → y ∈ alKeys al := by
    intro x y hxy
    rw [hkeys]
    rcases (hAdj x y).1 hxy with ⟨w, hw | hw⟩
    · exact (hwf.2 _ hw).2
    · exact (hwf.2 _ hw).1
  have hv0 : v0 ∈ alKeys al := by
    rw [hkeys, hv]
    simp
  rcases bfsLoop_isSome al hclosed [v0] [v0]
    (by intro x hx; simp at hx; subst hx; exact hv0) with ⟨out, hout⟩
  have hiff := bfsLoop_root_spec al v0 out hout
  constructor
  · intro hconn
    have hall : (g.vertices.all (fun v => out.contains v)) = true := by
      rw [List.all_eq_true]
      intro v hvmem
      have hrtgAL : Relation.ReflTransGen (ALAdj al) v0 v :=
        Relation.ReflTransGen.mono (fun a b hab => (hAdj a b).2 hab)
          (hconn v hvmem)
      have hvout : v ∈ out := (hiff v).2 hrtgAL
      simpa [List.contains, List.elem_iff] using hvout
    rcases alook_isSome_of_mem hv0 with ⟨nbrs0, hnbrs0⟩
    have hinner := buildAL_inner_nodup hal v0 nbrs0 hnbrs0
    have hinv0 : PrimInv al [v0] [] (nbrs0.map (fun p => (p.2, v0, p.1))) := by
      refine ⟨List.nodup_singleton _, ?_, ?_, ?_, ?_, rfl⟩
      · intro v hvm
        rw [List.mem_singleton] at hvm
        subst hvm
        exact hv0
      · intro t ht
        rcases List.mem_map.mp ht with ⟨p, hp, rfl⟩
        refine ⟨by simp, ?_⟩
        show alook2 al v0 p.1 = some p.2
        unfold alook2
        rw [hnbrs0]
        exact alook_of_mem_nodup hinner hp
      · intro x y w2 hx hxy
        rw [List.mem_singleton] at hx
        subst hx
        right
        unfold alook2 at hxy
        rw [hnbrs0] at hxy
        exact List.mem_map.mpr ⟨(y, w2), mem_of_alook hxy, rfl⟩
      · intro t ht
        cases ht
    obtain ⟨mstE2, mstV2, hrun, hfin, hmono, hopt⟩ :=
      primLoop_spec g v0 al hsg hal hkeys hclosed [v0] []
        (nbrs0.map (fun p => (p.2, v0, p.1))) hinv0
    obtain ⟨Fnd, Fkeys, F1, F2, F3, F4⟩ := hfin
    have hclosed2 : ∀ x ∈ mstV2, ∀ y, ALAdj al x y → y ∈ mstV2 := by
      intro x hx y hy
      rcases hy with ⟨w, hw⟩
      rcases F2 x y w hx hw with h | h
      · exact h
      · cases h
    have hvsub : ∀ v ∈ g.vertices, v ∈ mstV2 := by
      intro v hvm
      have hrtgAL : Relation.ReflTransGen (ALAdj al) v0 v :=
        Relation.ReflTransGen.mono (fun a b hab => (hAdj a b).2 hab)
          (hconn v hvm)
      exact rtg_mem_of_closed (hmono v0 (by simp)) hclosed2 hrtgAL
    have hlenV : mstV2.length = g.vertices.length := by
      have hs1 := (List.subperm_of_subset Fnd (fun x hx =>
        hkeys ▸ Fkeys x hx)).length_le
      have hs2 := (List.subperm_of_subset hwf.1 hvsub).length_le
      omega
    have hmemout : ∀ v ∈ g.vertices, v ∈ out := by
      intro v hvm
      have h3 := List.all_eq_true.1 hall v hvm
      simpa [List.contains, List.elem_iff] using h3
    refine ⟨mstE2.map (fun e => (e.2.1, e.2.2, e.1)), ?_, ?_, ?_⟩
    · simp [analyze_graph, hal, hv, hout, hall, hnbrs0, hrun]
      exact ⟨hmemout v0 (by rw [hv]; simp),
        fun x hx => hmemout x (by rw [hv]; simp [hx])⟩
    · rw [List.length_map]
      omega
    · intro T hT
      have hoptT : OptInv g v0 T mstE2 :=
        hopt T ⟨T, [], T, hT, le_refl _, List.Perm.refl _, List.Forall₂.nil⟩
      obtain ⟨M, MC, R, hMsp, hMw, hMperm, hMf2⟩ := hoptT
      have hlenM : M.length + 1 = g.vertices.length := hMsp.2.2.1
      have hlenMC : MC.length = mstE2.length := hMf2.length_eq
      have hlenperm := hMperm.length_eq
      rw [List.length_append] at hlenperm
      have hR : R = [] := by
        have hR0 : R.length = 0 := by omega
        exact List.eq_nil_of_length_eq_zero hR0
      subst hR
      rw [List.append_nil] at hMperm
      have hsum : weightSum M = weightSum MC := by
        unfold weightSum
        exact (hMperm.map (fun e : Nat × Nat × Int => e.2.2)).sum_eq
      rw [forall2_weight hMf2]
      omega
  · intro hnc
    push_neg at hnc
    obtain ⟨v, hvm, hnr⟩ := hnc
    have hvout : v ∉ out := by
      intro hvo
      exact hnr (Relation.ReflTransGen.mono (fun a b hab => (hAdj a b).1 hab)
        ((hiff v).1 hvo))
    have hall : (g.vertices.all (fun v => out.contains v)) = false := by
      cases hb2 : (g.vertices.all (fun v => out.contains v)) with
      | false => rfl
      | true =>
        exact absurd (by simpa [List.contains, List.elem_iff] using
          List.all_eq_true.1 hb2 v hvm) hvout
    simp [analyze_graph, hal, hv, hout, hall]
    intro h1 h2
    exfalso
    rw [hv] at hvm
    rcases List.mem_cons.mp hvm with rfl | hvr
    · exact hvout h1
    · exact hvout (h2 v hvr)

/-- Witness for C2 on the weighted triangle: the analysis returns a
2-edge tree whose weight is minimal among all spanning trees. -/
theorem C2_mst_minimal_witness :
    ∃ mstE,
      analyze_graph "mst" none
          ⟨[0, 1, 2], [(0, 1, 1), (1, 2, 2), (0, 2, 10)]⟩ =
        some (.mst (some mstE)) ∧
      mstE.length + 1 =
        (GraphData.mk [0, 1, 2]
          [(0, 1, 1), (1, 2, 2), (0, 2, 10)]).vertices.length ∧
      ∀ T, SpanningTree ⟨[0, 1, 2], [(0, 1, 1), (1, 2, 2), (0, 2, 10)]⟩ 0 T →
        weightSum mstE ≤ weightSum T :=
  (C2_mst_minimal ⟨[0, 1, 2], [(0, 1, 1), (1, 2, 2), (0, 2, 10)]⟩
    (by
      refine ⟨⟨by decide, by decide⟩, by decide, ?_⟩
      intro i j hi hj hne
      have hi3 : i < 3 := by simpa using hi
      have hj3 : j < 3 := by simpa using hj
      interval_cases i <;> interval_cases j <;> revert hne <;> simp)
    none 0 [1, 2] rfl).1
    (by
      intro v hv
      simp at hv
      rcases hv with rfl | rfl | rfl
      · exact Relation.ReflTransGen.refl
      · exact Relation.ReflTransGen.single ⟨1, Or.inl (by simp)⟩
      · exact Relation.ReflTransGen.single ⟨10, Or.inl (by simp)⟩)

end GraphApp
